import Mathlib

/-!
# cw1.c : a 24-bit BMP processing tool

Shallow embedding of `src/cw1.c` and properties of its codec and pixel
transformations.

Conventions of the embedding:

* `int` values are `Int`, `size_t` values are `Nat` reduced modulo `2 ^ 64`,
  `uint8_t`/`uint16_t`/`uint32_t` fields are `Nat`. Coordinates and extents are taken
  without overflow; the channel sums and the divisor of `compress`, which leave the range
  of `int` on large blocks, are reduced to that range (`toInt32`).
* A file is the list of its bytes.
* `RGB** img` is a list of rows, row `y` holding the pixels `img[y][x]`; the bytes
  of a row allocation behind its last pixel (the alignment filler) are kept in `pad`.
* An allocation request succeeds exactly when its size is below `2 ^ 63`
  (`mallocOk`); zero-sized requests return a non-null pointer.
* Accesses that the source guards by the header extents are list accesses; they stay
  inside the buffer when the buffer matches its header (`BMP.wf`). Reads and stores whose
  index is not guarded that way are checked, and a function performing them returns `none`
  when one of them leaves the buffer.
* The content of a buffer obtained from `malloc` is indeterminate until it is assigned: a
  function that reads or returns such cells takes their content as the parameter `junk`.
-/

namespace CW1

/-! ## Data model -/

/-- Pixel sample: the packed three byte struct `RGB`, fields in the order `b`, `g`, `r`. -/
structure RGB where
  b : Nat
  g : Nat
  r : Nat
deriving DecidableEq, Repr

/-- The all-zero pixel, as produced by `calloc`. -/
def RGB.zero : RGB := ⟨0, 0, 0⟩

/-- File-level header `BITMAPFILEHEADER` (14 bytes, packed). -/
structure BITMAPFILEHEADER where
  bfType : Nat
  bfSize : Nat
  bfReserved1 : Nat
  bfReserved2 : Nat
  bfOffBits : Nat
deriving DecidableEq, Repr

/-- Info-level header `BITMAPINFOHEADER` (40 bytes, packed). -/
structure BITMAPINFOHEADER where
  biSize : Nat
  biWidth : Int
  biHeight : Int
  biPlanes : Nat
  biBitCount : Nat
  biCompression : Nat
  biSizeImage : Nat
  biXPelsPerMeter : Int
  biYPelsPerMeter : Int
  biClrUsed : Nat
  biClrImportant : Nat
deriving DecidableEq, Repr

/-- The struct `BMP`: both headers and the pixel rows. `pad` holds, for each row, the bytes
of the row allocation that follow its last pixel. -/
structure BMP where
  bmfh : BITMAPFILEHEADER
  bmih : BITMAPINFOHEADER
  img : List (List RGB)
  pad : List (List Nat)
deriving DecidableEq, Repr

/-- The enum `ERROR`. -/
inductive ERROR where
  | SUCCESS
  | ERROR_MEM
  | ERROR_BMP_FORMAT
  | ERROR_FILE
  | ERROR_VAL
  | ERROR_COMMAND
  | ERROR_BMP
deriving DecidableEq, Repr

/-- Numeric value of an `ERROR` enumerator (`SUCCESS = 0`, `ERROR_MEM = 40`, then consecutive). -/
def ERROR.code : ERROR → Int
  | .SUCCESS => 0
  | .ERROR_MEM => 40
  | .ERROR_BMP_FORMAT => 41
  | .ERROR_FILE => 42
  | .ERROR_VAL => 43
  | .ERROR_COMMAND => 44
  | .ERROR_BMP => 45

/-- The buffer matches the header: `biHeight` rows of `biWidth` pixels each. -/
def BMP.wf (bmp : BMP) : Prop :=
  0 ≤ bmp.bmih.biWidth ∧ 0 ≤ bmp.bmih.biHeight ∧
  bmp.img.length = bmp.bmih.biHeight.toNat ∧
  ∀ row ∈ bmp.img, row.length = bmp.bmih.biWidth.toNat

instance (bmp : BMP) : Decidable bmp.wf := by
  unfold BMP.wf; infer_instance

/-- Every channel of the pixel is a byte. -/
def RGB.isByte (p : RGB) : Prop := p.b < 256 ∧ p.g < 256 ∧ p.r < 256

instance (p : RGB) : Decidable p.isByte := by
  unfold RGB.isByte; infer_instance

/-- Every channel of every pixel of the buffer is a byte. -/
def BMP.bytes (bmp : BMP) : Prop := ∀ row ∈ bmp.img, ∀ p ∈ row, RGB.isByte p

instance (bmp : BMP) : Decidable bmp.bytes := by
  unfold BMP.bytes; infer_instance

/-- Pixel `img[y][x]`, when it lies inside the buffer. -/
def getPixel (img : List (List RGB)) (x y : Nat) : Option RGB :=
  match img[y]? with
  | some row => row[x]?
  | none => none

/-- Conversion of an `int` to `uint8_t`. -/
def toU8 (v : Int) : Nat := (v % 256).toNat

/-- Conversion of an `int` to `size_t`. -/
def toSizeT (v : Int) : Nat := (v % 2 ^ 64).toNat

/-- Conversion of an integer to `int`: a value outside the range of `int` wraps around
(two's complement), as signed overflow does on the usual targets. -/
def toInt32 (v : Int) : Int := (v + 2 ^ 31) % 2 ^ 32 - 2 ^ 31

/-- Whether `malloc`/`calloc` can satisfy a request of `n` bytes. -/
def mallocOk (n : Nat) : Bool := decide (n < 2 ^ 63)

/-- `for (int i = lo; i < hi; i++) body`, threading the state `s`. -/
def forRange {σ : Type} (lo hi : Int) (body : σ → Int → σ) (s : σ) : σ :=
  (List.range (hi - lo).toNat).foldl (fun s (k : Nat) => body s (lo + (k : Int))) s

/-- A list of optional values, all of which must be present. -/
def allSome {α : Type} : List (Option α) → Option (List α)
  | [] => some []
  | none :: _ => none
  | some a :: rest =>
    match allSome rest with
    | some l => some (a :: l)
    | none => none

/-! ## Codec -/

/-- Little-endian 16-bit field at offset `off`; bytes the file does not supply are the zeros
left by `calloc`. -/
def u16 (l : List Nat) (off : Nat) : Nat :=
  l.getD off 0 + 256 * l.getD (off + 1) 0

/-- Little-endian 32-bit unsigned field at offset `off`. -/
def u32 (l : List Nat) (off : Nat) : Nat :=
  l.getD off 0 + 256 * l.getD (off + 1) 0 + 65536 * l.getD (off + 2) 0
    + 16777216 * l.getD (off + 3) 0

/-- Little-endian 32-bit signed (two's complement) field at offset `off`. -/
def i32 (l : List Nat) (off : Nat) : Int :=
  if u32 l off < 2 ^ 31 then (u32 l off : Int) else (u32 l off : Int) - 2 ^ 32

/-- Bytes of a `uint16_t`. -/
def bytes16 (v : Nat) : List Nat := [v % 256, v / 256 % 256]

/-- Bytes of a `uint32_t`. -/
def bytes32 (v : Nat) : List Nat :=
  [v % 256, v / 256 % 256, v / 65536 % 256, v / 16777216 % 256]

/-- Bytes of an `int32_t`. -/
def bytesI32 (v : Int) : List Nat := bytes32 (v % 2 ^ 32).toNat

/-- The first `fread`: 14 bytes into `bmp->bmfh`. -/
def readFileHeader (file : List Nat) : BITMAPFILEHEADER :=
  { bfType := u16 file 0
    bfSize := u32 file 2
    bfReserved1 := u16 file 6
    bfReserved2 := u16 file 8
    bfOffBits := u32 file 10 }

/-- The second `fread`: 40 bytes into `bmp->bmih`. -/
def readInfoHeader (file : List Nat) : BITMAPINFOHEADER :=
  { biSize := u32 file 14
    biWidth := i32 file 18
    biHeight := i32 file 22
    biPlanes := u16 file 26
    biBitCount := u16 file 28
    biCompression := u32 file 30
    biSizeImage := u32 file 34
    biXPelsPerMeter := i32 file 38
    biYPelsPerMeter := i32 file 42
    biClrUsed := u32 file 46
    biClrImportant := u32 file 50 }

/-- Bytes written by `fwrite(&bmp->bmfh, sizeof(BITMAPFILEHEADER), 1, file)`. -/
def fileHeaderBytes (h : BITMAPFILEHEADER) : List Nat :=
  bytes16 h.bfType ++ bytes32 h.bfSize ++ bytes16 h.bfReserved1 ++ bytes16 h.bfReserved2
    ++ bytes32 h.bfOffBits

/-- Bytes written by `fwrite(&bmp->bmih, sizeof(BITMAPINFOHEADER), 1, file)`. -/
def infoHeaderBytes (h : BITMAPINFOHEADER) : List Nat :=
  bytes32 h.biSize ++ bytesI32 h.biWidth ++ bytesI32 h.biHeight ++ bytes16 h.biPlanes
    ++ bytes16 h.biBitCount ++ bytes32 h.biCompression ++ bytes32 h.biSizeImage
    ++ bytesI32 h.biXPelsPerMeter ++ bytesI32 h.biYPelsPerMeter ++ bytes32 h.biClrUsed
    ++ bytes32 h.biClrImportant

/-- The stride `(width * sizeof(RGB) + 3) & (~3)` computed in `size_t`. -/
def rowPadded (width : Nat) : Nat := (width * 3 + 3) % 2 ^ 64 / 4 * 4

/-- State of one entry of the row pointer array while `readBMP` builds it. -/
inductive RowPtr where
  | uninit
  | null
  | row
deriving DecidableEq, Repr

/-- Whether `freeBMP` stays defined on a structure whose `img` is `NULL` (`none`) or an
array of the given entries: the loop runs for `i < biHeight` and evaluates `bmp->img[i]`,
which dereferences `img`, and `free` accepts a null or an allocated pointer only. -/
def freeBMPDefined (biHeight : Int) (img : Option (List RowPtr)) : Bool :=
  match img with
  | none => decide (biHeight ≤ 0)
  | some rows =>
    (List.range biHeight.toNat).all (fun i => decide (rows.getD i RowPtr.uninit ≠ RowPtr.uninit))

/-- What a call of `readBMP` ends in: an image, the null pointer, or a fault inside the
cleanup (`freeBMP` evaluating `bmp->img[i]` on a null `img`, or freeing an entry that was
never assigned). -/
inductive ReadResult where
  | image (bmp : BMP)
  | null
  | crash
deriving DecidableEq, Repr

/-- The `i`-th row read from the file: `row_padded` bytes behind the two headers and the
`i` rows read before. Bytes the file does not supply are absent, and read as zero. -/
def fileRow (file : List Nat) (rp i : Nat) : List Nat :=
  (file.drop (54 + i * rp)).take rp

/-- The pixels of a row buffer filled with `bytes`. -/
def rowPixels (bytes : List Nat) (w : Nat) : List RGB :=
  (List.range w).map (fun x =>
    { b := bytes.getD (3 * x) 0, g := bytes.getD (3 * x + 1) 0, r := bytes.getD (3 * x + 2) 0 })

/-- The function `readBMP` on a file that could be opened, with content `file`.
The only check is the one on `bfType`. On an error the cleanup runs `freeBMP` on the
partly built structure. The read loop stores the `i`-th row it reads at index
`height - 1 - i`, so entry `k` of `img` is row `height - 1 - k` of the file. -/
def readBMP (file : List Nat) : ReadResult :=
  let bmfh := readFileHeader file
  let bmih := readInfoHeader file
  if bmfh.bfType ≠ 0x4D42 then
    if freeBMPDefined bmih.biHeight none then ReadResult.null else ReadResult.crash
  else
    let height := toSizeT bmih.biHeight
    let width := toSizeT bmih.biWidth
    let row_padded := rowPadded width
    if ¬ mallocOk (height * 8 % 2 ^ 64) then
      if freeBMPDefined bmih.biHeight none then ReadResult.null else ReadResult.crash
    else if 0 < height ∧ ¬ mallocOk row_padded then
      if freeBMPDefined bmih.biHeight
          (some ((List.replicate height RowPtr.uninit).set (height - 1 - 0) RowPtr.null))
      then ReadResult.null else ReadResult.crash
    else
      ReadResult.image
        { bmfh := bmfh
          bmih := bmih
          img := (List.range height).map (fun k =>
            rowPixels (fileRow file row_padded (height - 1 - k)) bmih.biWidth.toNat)
          pad := (List.range height).map (fun k =>
            (fileRow file row_padded (height - 1 - k)).drop (3 * bmih.biWidth.toNat)) }

/-- The `row_padded` bytes that `fwrite` takes from a row buffer; bytes the buffer does not
define are written as zero. -/
def rowBytes (row : List RGB) (pad : List Nat) (rp : Nat) : List Nat :=
  let raw := (row.map (fun p => [p.b, p.g, p.r])).flatten ++ pad
  raw.take rp ++ List.replicate (rp - raw.length) 0

/-- The function `writeBMP`: the bytes it writes to a file that could be opened. -/
def writeBMP (bmp : BMP) : List Nat :=
  let height := toSizeT bmp.bmih.biHeight
  let width := toSizeT bmp.bmih.biWidth
  let row_padded := rowPadded width
  fileHeaderBytes bmp.bmfh ++ infoHeaderBytes bmp.bmih ++
    ((List.range height).map (fun i =>
      rowBytes (bmp.img.getD (height - 1 - i) []) (bmp.pad.getD (height - 1 - i) [])
        row_padded)).flatten

/-! ## Rasterizer -/

/-- The assignment `img[y][x] = col`. -/
def writePx (img : List (List RGB)) (x y : Nat) (col : RGB) : List (List RGB) :=
  img.set y ((img.getD y []).set x col)

/-- The function `setPixel`. -/
def setPixel (bmp : BMP) (x y : Int) (col : RGB) : BMP :=
  let img_width := bmp.bmih.biWidth
  let img_height := bmp.bmih.biHeight
  if x ≥ 0 ∧ x < img_width ∧ y ≥ 0 ∧ y < img_height then
    { bmp with img := writePx bmp.img x.toNat y.toNat col }
  else bmp

/-- One pass of the `while` loop of `drawLine` per unit of fuel; `none` when the loop is
still running after `fuel` iterations. -/
def drawLineLoop (deltaX deltaY signX signY x2 y2 : Int) (col : RGB) :
    Nat → BMP → Int → Int → Int → Option BMP
  | 0, bmp, x1, y1, _ => if x1 ≠ x2 ∨ y1 ≠ y2 then none else some bmp
  | fuel + 1, bmp, x1, y1, error =>
    if x1 ≠ x2 ∨ y1 ≠ y2 then
      let bmp1 := setPixel bmp x1 y1 col
      let error2 := error * 2
      let errorA := if error2 > -deltaY then error - deltaY else error
      let x1A := if error2 > -deltaY then x1 + signX else x1
      let errorB := if error2 < deltaX then errorA + deltaX else errorA
      let y1B := if error2 < deltaX then y1 + signY else y1
      drawLineLoop deltaX deltaY signX signY x2 y2 col fuel bmp1 x1A y1B errorB
    else some bmp

/-- The function `drawLine`. The loop is given `deltaX + deltaY` iterations. -/
def drawLine (bmp : BMP) (x1 y1 x2 y2 : Int) (col : RGB) : Option BMP :=
  let deltaX : Int := |x2 - x1|
  let deltaY : Int := |y2 - y1|
  let signX : Int := if x1 < x2 then 1 else -1
  let signY : Int := if y1 < y2 then 1 else -1
  let error := deltaX - deltaY
  drawLineLoop deltaX deltaY signX signY x2 y2 col (deltaX + deltaY).toNat
    (setPixel bmp x2 y2 col) x1 y1 error

/-- Loop over `lo <= i < hi` whose body may fail. -/
def forRangeM {σ : Type} (lo hi : Int) (body : σ → Int → Option σ) (s : σ) : Option σ :=
  forRange lo hi (fun acc i => acc.bind (fun st => body st i)) (some s)

/-- The function `draw_thick_odd_line`. -/
def draw_thick_odd_line (bmp : BMP) (x1 y1 x2 y2 thickness : Int) (line_color : RGB) :
    Option BMP :=
  if thickness = 1 then
    drawLine bmp x1 y1 x2 y2 line_color
  else
    (drawLine bmp x1 y1 x2 y2 line_color).bind (fun bmp1 =>
      if |y2 - y1| ≥ |x2 - x1| then
        forRangeM 1 (Int.tdiv thickness 2 + 1) (fun b i =>
          if x2 > x1 then
            (drawLine b (x1 + i) y1 x2 (y2 - i) line_color).bind (fun b1 =>
              drawLine b1 x1 (y1 + i) (x2 - i) y2 line_color)
          else
            (drawLine b x1 (y1 + i) (x2 + i) y2 line_color).bind (fun b1 =>
              drawLine b1 (x1 - i) y1 x2 (y2 - i) line_color)) bmp1
      else some bmp1)

/-! ## Shape library -/

/-- The function `draw_square`. -/
def draw_square (bmp : BMP) (x y size thickness : Int) (color : RGB) (fill : Int)
    (fill_color : RGB) : Option BMP :=
  let bmp0 :=
    if fill ≠ 0 then
      forRange y (y + size) (fun b j =>
        forRange x (x + size) (fun b i => setPixel b i j fill_color) b) bmp
    else bmp
  (forRangeM (Int.tdiv (-thickness) 2) (Int.tdiv thickness 2 + 1) (fun b t =>
      (drawLine b (x + t) (y + t) (x + size - 1 - t) (y + t) color).bind (fun b1 =>
      (drawLine b1 (x + t) (y + size - 1 - t) (x + size - 1 - t) (y + size - 1 - t) color).bind
        (fun b2 =>
      (drawLine b2 (x + t) (y + t) (x + t) (y + size - 1 - t) color).bind (fun b3 =>
      drawLine b3 (x + size - 1 - t) (y + t) (x + size - 1 - t) (y + size - 1 - t) color))))
    bmp0).bind (fun bmp1 =>
  (draw_thick_odd_line bmp1 x y (x + size - 1) (y + size - 1) thickness color).bind (fun bmp2 =>
  draw_thick_odd_line bmp2 (x + size - 1) y x (y + size - 1) thickness color))

/-! ## Channel filter -/

/-- The update `img[y][x] = f (img[y][x])` of one pixel in place. -/
def modifyPx (img : List (List RGB)) (x y : Nat) (f : RGB → RGB) : List (List RGB) :=
  img.set y ((img.getD y []).set x (f ((img.getD y []).getD x RGB.zero)))

/-- The function `rgbfilter`; `strcmp` on the component name is string equality. -/
def rgbfilter (bmp : BMP) (component : String) (value : Int) : BMP :=
  forRange 0 bmp.bmih.biHeight (fun b j =>
    forRange 0 b.bmih.biWidth (fun b i =>
      if component = "green" then
        { b with img := modifyPx b.img i.toNat j.toNat (fun p => { p with g := toU8 value }) }
      else if component = "blue" then
        { b with img := modifyPx b.img i.toNat j.toNat (fun p => { p with b := toU8 value }) }
      else if component = "red" then
        { b with img := modifyPx b.img i.toNat j.toNat (fun p => { p with r := toU8 value }) }
      else b) b) bmp

/-! ## Geometric transform -/

/-- Read of `img[y][x]` at a position the source has checked against the header extents. -/
def readPx (img : List (List RGB)) (x y : Nat) : RGB :=
  (img.getD y []).getD x RGB.zero

/-- Read of `img[y][x]` at an unchecked position: `none` when it leaves the buffer. -/
def readChecked (img : List (List RGB)) (x y : Int) : Option RGB :=
  if 0 ≤ x ∧ 0 ≤ y then getPixel img x.toNat y.toNat else none

/-- A fresh buffer of `n` rows by `m` cells in which cell `[j][i]` holds `f j i`. -/
def tabulate (n m : Nat) (f : Nat → Nat → RGB) : List (List RGB) :=
  (List.range n).map (fun j => (List.range m).map (fun i => f j i))

/-- A fresh buffer of `n` rows by `m` cells filled from reads that may leave their source. -/
def tabulateM (n m : Nat) (f : Nat → Nat → Option RGB) : Option (List (List RGB)) :=
  allSome ((List.range n).map (fun j => allSome ((List.range m).map (fun i => f j i))))

/-- The function `rotate`. The scratch buffer `rgb` has `border1` rows of `border2` zeroed
cells; each `case` of the `switch` assigns `rgb[j][i]` for all of them, under its guard.
A negative count makes the corresponding `calloc` fail (`ERROR_MEM`). In `case 270` the
guard tests `right_x - j` while the read is at column `right_x - j - 1`, so that read is
checked. -/
def rotate (bmp : BMP) (left_x left_y right_x right_y angle : Int) : Option (BMP × ERROR) :=
  let width := right_x - left_x
  let height := right_y - left_y
  let img_width := bmp.bmih.biWidth
  let img_height := bmp.bmih.biHeight
  let center_x := Int.tdiv (right_x + left_x) 2
  let center_y := Int.tdiv (right_y + left_y) 2
  let x := center_x - Int.tdiv height 2
  let y := center_y - Int.tdiv width 2
  let border1 := if angle = 180 then height else width
  let border2 := if angle = 180 then width else height
  if border1 < 0 ∨ (0 < border1 ∧ border2 < 0) then some (bmp, ERROR.ERROR_MEM)
  else
    let filled : Option (List (List RGB) × ERROR) :=
      if angle = 180 then
        some (tabulate height.toNat width.toNat (fun j i =>
          if left_y + j < img_height ∧ i + left_x < img_width ∧ left_y + j ≥ 0 ∧ i + left_x ≥ 0
          then readPx bmp.img (i + left_x).toNat (left_y + j).toNat else RGB.zero),
          ERROR.SUCCESS)
      else if angle = 90 then
        some (tabulate width.toNat height.toNat (fun j i =>
          if right_y - i - 1 < img_height ∧ j + left_x < img_width ∧ right_y - i - 1 ≥ 0
              ∧ j + left_x ≥ 0
          then readPx bmp.img (j + left_x).toNat (right_y - i - 1).toNat else RGB.zero),
          ERROR.SUCCESS)
      else if angle = 270 then
        (tabulateM width.toNat height.toNat (fun j i =>
          if left_y + i < img_height ∧ right_x - j < img_width ∧ left_y + i ≥ 0
              ∧ right_x - j ≥ 0
          then readChecked bmp.img (right_x - j - 1) (left_y + i) else some RGB.zero)).map
          (fun rgb => (rgb, ERROR.SUCCESS))
      else
        some (tabulate border1.toNat border2.toNat (fun _ _ => RGB.zero), ERROR.ERROR_VAL)
    filled.map (fun (rgb, error) =>
      let new_x := if angle = 180 then left_x else x
      let new_y := if angle = 180 then left_y else y
      if error = ERROR.SUCCESS then
        (forRange 0 border1 (fun b j =>
          forRange 0 border2 (fun b i =>
            setPixel b (new_x + i) (new_y + j)
              (readPx rgb (border2 - i - 1).toNat (border1 - j - 1).toNat)) b) bmp, error)
      else (bmp, error))

/-! ## Resampler -/

/-- The value `round(sum / n)` for the exact quotient of two naturals: the nearest integer,
halves rounded away from zero. The rounding of the single precision quotient is not
represented. -/
def roundDiv (sum n : Nat) : Nat := (2 * sum + n) / (2 * n)

/-- The index reflection of `blur` on one axis. -/
def reflect (c extent : Int) : Int :=
  if c < 0 then -1 * c else if c ≥ extent then 2 * extent - c - 2 else c

/-- The channel sums that `blur` accumulates for the cell `(i, j)`: `none` when a read
leaves the buffer. -/
def blurSums (bmp : BMP) (size i j : Int) : Option (Nat × Nat × Nat) :=
  forRangeM (-1 * Int.tdiv size 2) (Int.tdiv size 2 + 1) (fun acc h =>
    forRangeM (-1 * Int.tdiv size 2) (Int.tdiv size 2 + 1) (fun acc x =>
      let dy := reflect (i + h) bmp.bmih.biHeight
      let dx := reflect (j + x) bmp.bmih.biWidth
      (readChecked bmp.img dx dy).map (fun p =>
        (acc.1 + p.r, acc.2.1 + p.g, acc.2.2 + p.b))) acc) (0, 0, 0)

/-- The function `blur`. The fresh buffer has `img_height` rows of `img_width` cells, each
assigned once; a negative `img_height` leaves the function with a null buffer that the
allocation loop dereferences (`none`). The padding of the fresh rows is not initialised. -/
def blur (bmp : BMP) (size : Int) : Option BMP :=
  let img_width := bmp.bmih.biWidth
  let img_height := bmp.bmih.biHeight
  let size1 := if Int.tmod size 2 = 0 then size + 1 else size
  if img_height < 0 then none
  else
    (allSome ((List.range img_height.toNat).map (fun (i : Nat) =>
      allSome ((List.range img_width.toNat).map (fun (j : Nat) =>
        (blurSums bmp size1 i j).map (fun s =>
          ({ b := roundDiv s.2.2 (size1 * size1).toNat % 256
             g := roundDiv s.2.1 (size1 * size1).toNat % 256
             r := roundDiv s.1 (size1 * size1).toNat % 256 } : RGB))))))).map
      (fun new => { bmp with img := new, pad := [] })

/-! ## Geometric transform: mirror, shift, tiling -/

/-- Store `img[y][x] = v` at an unchecked position: `none` when it leaves the buffer. -/
def writeChecked (img : List (List RGB)) (x y : Int) (v : RGB) : Option (List (List RGB)) :=
  if 0 ≤ x ∧ 0 ≤ y then
    match getPixel img x.toNat y.toNat with
    | some _ => some (writePx img x.toNat y.toNat v)
    | none => none
  else none

/-- The function `diag_mirror`. The region is cut to a square of side `dx = dy`, rotated
by `rotate` (whose return value is ignored), read back bottom row first into the fresh
buffer `new1`, and stored again. A negative side leaves `new1` null, which the allocation
loop dereferences (`none`). The reads of `bmp->img` into `new1` and the stores into
`bmp->img` are not guarded, so they are checked. -/
def diag_mirror (bmp : BMP) (left_x left_y right_x right_y : Int) : Option BMP :=
  let dx0 := right_x - left_x
  let dy0 := right_y - left_y
  let dx := if dx0 > dy0 then dy0 else dx0
  let dy := if dx0 > dy0 then dy0 else dx0
  let right_x1 := left_x + dx
  let right_y1 := left_y + dy
  if dy < 0 then none
  else
    (rotate bmp left_x left_y right_x1 right_y1 90).bind (fun r =>
      (tabulateM dy.toNat dx.toNat (fun i j =>
          readChecked r.1.img (left_x + j) (right_y1 - i - 1))).bind (fun new1 =>
        forRangeM left_y right_y1 (fun b i =>
          forRangeM left_x right_x1 (fun b j =>
            (writeChecked b.img j i (readPx new1 (j - left_x).toNat (i - left_y).toNat)).map
              (fun img => { b with img := img })) b) r.1))

/-- The function `shift`. The fresh buffer `new` has `height` rows of `width` cells whose
initial content is indeterminate (`junk`); the stores into it are checked. A zero extent
used as a divisor, and a negative `height` (null buffer dereferenced by the allocation
loop), give `none`. The padding of the fresh rows is not initialised. -/
def shift (junk : Nat → Nat → RGB) (bmp : BMP) (step : Int) (axis : String) : Option BMP :=
  let height := bmp.bmih.biHeight
  let width := bmp.bmih.biWidth
  if height < 0 then none
  else
    let new0 := tabulate height.toNat width.toNat junk
    let filled : Option (List (List RGB)) :=
      if axis = "x" then
        if width = 0 then none
        else
          let step_x := Int.tmod step width
          forRangeM 0 bmp.bmih.biHeight (fun new i =>
            forRangeM 0 bmp.bmih.biWidth (fun new j =>
              writeChecked new (Int.tmod (j + step_x) width) i
                (readPx bmp.img j.toNat i.toNat)) new) new0
      else if axis = "y" then
        if height = 0 then none
        else
          let step_y := Int.tmod step height
          forRangeM 0 bmp.bmih.biHeight (fun new i =>
            forRangeM 0 bmp.bmih.biWidth (fun new j =>
              writeChecked new j (Int.tmod (i + step_y) height)
                (readPx bmp.img j.toNat i.toNat)) new) new0
      else if axis = "xy" then
        if height = 0 ∨ width = 0 then none
        else
          let step_y := Int.tmod step height
          let step_x := Int.tmod step width
          forRangeM 0 bmp.bmih.biHeight (fun new i =>
            forRangeM 0 bmp.bmih.biWidth (fun new j =>
              writeChecked new (Int.tmod (j + step_x) width) (Int.tmod (i + step_y) height)
                (readPx bmp.img j.toNat i.toNat)) new) new0
      else some new0
    filled.map (fun new => { bmp with img := new, pad := [] })

/-- The function `paving`. The fresh buffer `new` has `dy` rows of `dx` cells with
indeterminate initial content (`junk`); the copy loop assigns the cells whose source lies
inside the image. A negative `dy` leaves `new` null, which the allocation loop
dereferences (`none`). The tiling loop reads `new[i % dy][j % dx]`: a zero divisor gives
`none`, and the read is checked. -/
def paving (junk : Nat → Nat → RGB) (bmp : BMP) (left_x left_y right_x right_y : Int) :
    Option BMP :=
  let dy := right_y - left_y
  let dx := right_x - left_x
  let height := bmp.bmih.biHeight
  let width := bmp.bmih.biWidth
  if dy < 0 then none
  else
    let new := tabulate dy.toNat dx.toNat (fun r c =>
      if left_x + c ≥ 0 ∧ left_x + c < width ∧ left_y + r ≥ 0 ∧ left_y + r < height
      then readPx bmp.img (left_x + c).toNat (left_y + r).toNat else junk r c)
    forRangeM 0 bmp.bmih.biHeight (fun b i =>
      forRangeM 0 b.bmih.biWidth (fun b j =>
        if dy = 0 ∨ dx = 0 then none
        else (readChecked new (Int.tmod j dx) (Int.tmod i dy)).map (fun v => setPixel b j i v))
        b) bmp

/-! ## Resampler: compression -/

/-- The three sums that `compress` accumulates over the block of cell `(i, j)`, in the
order `r`, `g`, `b`; they are `int` variables, so each addition is reduced to the range of
`int`. The reads are not guarded, so they are checked. -/
def blockSums (bmp : BMP) (N i j : Int) : Option (Int × Int × Int) :=
  forRangeM (i * N) (N * i + N) (fun acc h =>
    forRangeM (j * N) (N * j + N) (fun acc u =>
      (readChecked bmp.img u h).map (fun p =>
        (toInt32 (acc.1 + (p.r : Int)), toInt32 (acc.2.1 + (p.g : Int)),
          toInt32 (acc.2.2 + (p.b : Int))))) acc) (0, 0, 0)

/-- The function `compress`. A zero `N` is a division by zero, a negative `height_old`
leaves the fresh buffer null, which the allocation loop dereferences (both `none`). The
fresh buffer has `height_old` rows of `width_old` cells, each assigned once. The divisor
`N * N` is an `int` product, reduced to the range of `int`; when it is zero the division
is undefined (`none`). -/
def compress (bmp : BMP) (N : Int) : Option BMP :=
  let height := bmp.bmih.biHeight
  let width := bmp.bmih.biWidth
  if N = 0 then none
  else
    let width_old := Int.tdiv width N
    let height_old := Int.tdiv height N
    let row_padded := rowPadded (toSizeT width_old)
    if height_old < 0 then none
    else
      (tabulateM height_old.toNat width_old.toNat (fun i j =>
        (blockSums bmp N i j).bind (fun s =>
          if toInt32 (N * N) = 0 then none
          else some
            ({ b := toU8 (Int.tdiv s.2.2 (toInt32 (N * N)))
               g := toU8 (Int.tdiv s.2.1 (toInt32 (N * N)))
               r := toU8 (Int.tdiv s.1 (toInt32 (N * N))) } : RGB)))).map
        (fun new =>
          { bmp with
            bmih := { bmp.bmih with
              biHeight := height_old
              biWidth := width_old
              biSizeImage := toSizeT height_old * row_padded % 2 ^ 64 % 2 ^ 32 }
            img := new
            pad := [] })

/-! ## Neighborhood recolorer -/

/-- The comparison of all three channels of two pixels. -/
def sameColor (p q : RGB) : Bool :=
  decide (p.g = q.g ∧ p.r = q.r ∧ p.b = q.b)

/-- The function `circle_pixel`. -/
def circle_pixel (bmp : BMP) (size : Int) (color color_new : RGB) : BMP :=
  forRange 0 bmp.bmih.biHeight (fun b i =>
    forRange 0 b.bmih.biWidth (fun b j =>
      if sameColor (readPx b.img j.toNat i.toNat) color then
        forRange (-size) (size + 1) (fun b y =>
          forRange (-size) (size + 1) (fun b x =>
            if i + y < 0 ∨ i + y ≥ b.bmih.biHeight ∨ j + x < 0 ∨ j + x ≥ b.bmih.biWidth then b
            else if ¬ sameColor (readPx b.img (j + x).toNat (i + y).toNat) color then
              setPixel b (j + x) (i + y) color_new
            else b) b) b
      else b) b) bmp

/-! ## Shape library: rhombus -/

/-- The copy loop of `flip_squares` for the block at `(j, i)`: the buffer `new`, fresh with
indeterminate content, and the two counters `size_y`, `size_x`. -/
def flipCopy (junk : Nat → Nat → RGB) (bmp : BMP) (size i j : Int) :
    List (List RGB) × Int × Int :=
  forRange i (i + size) (fun st y =>
    forRange j (j + size) (fun st x =>
      let new1 :=
        if x ≥ 0 ∧ x < bmp.bmih.biWidth ∧ y ≥ 0 ∧ y < bmp.bmih.biHeight then
          writePx st.1 (x - j).toNat (y - i).toNat (readPx bmp.img x.toNat y.toNat)
        else st.1
      let size_y := if y = bmp.bmih.biHeight then y - i else st.2.1
      let size_x := if x = bmp.bmih.biWidth then x - j else st.2.2
      (new1, size_y, size_x)) st)
    (tabulate size.toNat size.toNat junk, 0, 0)

/-- The flip of one block of `flip_squares`, for both orientations; the reads of `new` are
not guarded, so they are checked. -/
def flipBlock (junk : Nat → Nat → RGB) (bmp : BMP) (size : Int) (orientation : String)
    (i j : Int) : Option BMP :=
  let st := flipCopy junk bmp size i j
  let new := st.1
  let size_y := st.2.1
  let size_x := st.2.2
  if orientation = "vertical" then
    forRangeM i (i + size) (fun b y =>
      forRangeM j (j + size) (fun b x =>
        if i + size ≥ b.bmih.biHeight then
          if x ≥ 0 ∧ x < b.bmih.biWidth ∧ y ≥ 0 ∧ y < b.bmih.biHeight then
            (readChecked new (x - j) (i + size_y - 1 - y)).map (fun v =>
              { b with img := writePx b.img x.toNat y.toNat v })
          else some b
        else
          if x ≥ 0 ∧ x < b.bmih.biWidth ∧ y ≥ 0 ∧ y < b.bmih.biHeight then
            (readChecked new (x - j) (i + size - 1 - y)).map (fun v =>
              { b with img := writePx b.img x.toNat y.toNat v })
          else some b) b) bmp
  else if orientation = "horizontal" then
    forRangeM i (i + size) (fun b y =>
      forRangeM j (j + size) (fun b x =>
        if j + size ≥ b.bmih.biWidth then
          if x ≥ 0 ∧ x < b.bmih.biWidth ∧ y ≥ 0 ∧ y < b.bmih.biHeight then
            (readChecked new (j + size_x - 1 - x) (y - i)).map (fun v =>
              { b with img := writePx b.img x.toNat y.toNat v })
          else some b
        else
          if x ≥ 0 ∧ x < b.bmih.biWidth ∧ y ≥ 0 ∧ y < b.bmih.biHeight then
            (readChecked new (j + size - 1 - x) (y - i)).map (fun v =>
              { b with img := writePx b.img x.toNat y.toNat v })
          else some b) b) bmp
  else some bmp

/-- The function `flip_squares` for `size >= 1`: the loops `i += size`, `j += size` visit
the blocks `(row, col)` with `i = row * size < height`, `j = col * size < width`; `val` is
the block row and `index` the block column. With `size <= 0` and a non-empty image the
loops do not end (`none`). -/
def flip_squares (junk : Nat → Nat → RGB) (bmp : BMP) (size : Int) (orientation : String) :
    Option BMP :=
  if bmp.bmih.biHeight ≤ 0 then some bmp
  else if size ≤ 0 then none
  else
    forRangeM 0 ((bmp.bmih.biHeight + size - 1) / size) (fun b val =>
      forRangeM 0 ((b.bmih.biWidth + size - 1) / size) (fun b index =>
        if Int.tmod (index + val) 2 = 1 then
          flipBlock junk b size orientation (val * size) (index * size)
        else some b) b) bmp

/-! ## Input parsing -/

/-- The function `parse_color` after its `sscanf`: `scan` holds the three integers read
with `"%d.%d.%d"`, in the order `r`, `g`, `b`, or `none` when fewer than three were read.
The result is the flag `success` and the pixel behind `rgb`. -/
def parse_color (scan : Option (Int × Int × Int)) (rgb : RGB) : Int × RGB :=
  match scan with
  | some (r, g, b) => (1, { rgb with r := toU8 r, g := toU8 g, b := toU8 b })
  | none => (0, rgb)

/-- The function `checkcolor`; its operands are the `uint8_t` fields promoted to `int`. -/
def checkcolor (color : RGB) : ERROR :=
  if (color.r : Int) > 255 ∨ (color.r : Int) < 0 ∨ (color.g : Int) > 255 ∨ (color.g : Int) < 0
      ∨ (color.b : Int) > 255 ∨ (color.b : Int) < 0 then ERROR.ERROR_VAL
  else ERROR.SUCCESS

/-! ## Auxiliary definitions

Names for the intermediate objects of the proofs: the order in which loops visit their
indices, the scratch buffers of `rotate`, and the point lists of straight lines. -/

/-- The headers, the padding and the consistency of the buffer are the same in both. -/
def SameFrame (a b : BMP) : Prop :=
  a.bmih = b.bmih ∧ a.bmfh = b.bmfh ∧ a.pad = b.pad ∧ (b.wf → a.wf)

/-- The index pairs `(i, j)` visited by `for j in [lo, hi)` around `for i in [lo', hi')`,
in the order of the visit. -/
def grid (lo hi lo' hi' : Int) : List (Int × Int) :=
  (List.range (hi - lo).toNat).flatMap (fun (a : Nat) =>
    (List.range (hi' - lo').toNat).map (fun (b : Nat) => (lo' + (b : Int), lo + (a : Int))))

/-- The scratch buffer of `rotate` in `case 180`. -/
def rgb180 (bmp : BMP) (left_x left_y right_x right_y : Int) : List (List RGB) :=
  tabulate (right_y - left_y).toNat (right_x - left_x).toNat (fun j i =>
    if left_y + j < bmp.bmih.biHeight ∧ i + left_x < bmp.bmih.biWidth ∧ left_y + j ≥ 0
        ∧ i + left_x ≥ 0
    then readPx bmp.img (i + left_x).toNat (left_y + j).toNat else RGB.zero)

/-- The scratch buffer of `rotate` in `case 90`. -/
def rgb90 (bmp : BMP) (left_x left_y right_x right_y : Int) : List (List RGB) :=
  tabulate (right_x - left_x).toNat (right_y - left_y).toNat (fun j i =>
    if right_y - i - 1 < bmp.bmih.biHeight ∧ j + left_x < bmp.bmih.biWidth
        ∧ right_y - i - 1 ≥ 0 ∧ j + left_x ≥ 0
    then readPx bmp.img (j + left_x).toNat (right_y - i - 1).toNat else RGB.zero)

/-- Repeated calls `rotate(bmp, left_x, left_y, right_x, right_y, angle)`, each of which has
to return `SUCCESS`. -/
def rotateRepeat (left_x left_y right_x right_y angle : Int) : Nat → BMP → Option BMP
  | 0, bmp => some bmp
  | n + 1, bmp =>
    match rotate bmp left_x left_y right_x right_y angle with
    | some (out, ERROR.SUCCESS) => rotateRepeat left_x left_y right_x right_y angle n out
    | _ => none

/-- The assignment that `rgbfilter` makes to a pixel. -/
def setChannel (component : String) (value : Int) (p : RGB) : RGB :=
  if component = "green" then { p with g := toU8 value }
  else if component = "blue" then { p with b := toU8 value }
  else if component = "red" then { p with r := toU8 value }
  else p

/-- Painting the listed points, in order, with one colour. -/
def paint (bmp : BMP) (pts : List (Int × Int)) (col : RGB) : BMP :=
  pts.foldl (fun b p => setPixel b p.1 p.2 col) bmp

/-- The points `(x1 + k * dx, y1 + k * dy)` for `k = n` and then `k = 0, ..., n - 1`. -/
def linePts (x1 y1 dx dy : Int) (n : Nat) : List (Int × Int) :=
  (n :: List.range n).map (fun (k : Nat) => (x1 + (k : Int) * dx, y1 + (k : Int) * dy))

/-- The points of the four edges and the two diagonals of the square with corner `(x, y)`
and side `m + 1`, in the order in which `draw_square` with thickness 1 plots them. -/
def squareLines (x y : Int) (m : Nat) : List (Int × Int) :=
  linePts x y 1 0 m ++ linePts x (y + m) 1 0 m ++ linePts x y 0 1 m ++ linePts (x + m) y 0 1 m
    ++ linePts x y 1 1 m ++ linePts (x + m) y (-1) 1 m

/-- A buffer of `h` rows of `w` cells. -/
def Dims (img : List (List RGB)) (h w : Nat) : Prop :=
  img.length = h ∧ ∀ row ∈ img, row.length = w

/-- The sum of one channel over the block of `n x n` source pixels of cell `(i, j)`. -/
def blockSum (img : List (List RGB)) (n i j : Nat) (ch : RGB → Nat) : Nat :=
  ∑ a in Finset.range n, ∑ b in Finset.range n, ch (readPx img (j * n + b) (i * n + a))

/-- The buffer `new` of `paving`. -/
def pavingTile (junk : Nat → Nat → RGB) (bmp : BMP) (left_x left_y right_x right_y : Int) :
    List (List RGB) :=
  tabulate (right_y - left_y).toNat (right_x - left_x).toNat (fun r c =>
    if left_x + c ≥ 0 ∧ left_x + c < bmp.bmih.biWidth ∧ left_y + r ≥ 0
        ∧ left_y + r < bmp.bmih.biHeight
    then readPx bmp.img (left_x + c).toNat (left_y + r).toNat else junk r c)

/-- Modelled from the spec: the reflection as the specification words it, every
out-of-range coordinate being replaced by `2 * extent - coord - 2`. -/
def reflectSpec (c extent : Int) : Int :=
  if c < 0 ∨ c ≥ extent then 2 * extent - c - 2 else c

/-- Modelled from the spec: the channel sums over the window of cell `(i, j)` with the
reflection of the specification; `none` when a window position is outside the image. -/
def blurSumsSpec (bmp : BMP) (size i j : Int) : Option (Nat × Nat × Nat) :=
  forRangeM (-1 * Int.tdiv size 2) (Int.tdiv size 2 + 1) (fun acc h =>
    forRangeM (-1 * Int.tdiv size 2) (Int.tdiv size 2 + 1) (fun acc x =>
      let dy := reflectSpec (i + h) bmp.bmih.biHeight
      let dx := reflectSpec (j + x) bmp.bmih.biWidth
      (readChecked bmp.img dx dy).map (fun p =>
        (acc.1 + p.r, acc.2.1 + p.g, acc.2.2 + p.b))) acc) (0, 0, 0)

/-- The sum of one channel over the `k x k` window centred on cell `(i, j)`, `k = 2 * half + 1`,
with the reflection of the code. -/
def windowSum (bmp : BMP) (half i j : Nat) (ch : RGB → Nat) : Nat :=
  ∑ a in Finset.range (2 * half + 1), ∑ b in Finset.range (2 * half + 1),
    ch (readPx bmp.img
      (reflect ((j : Int) + ((b : Int) - half)) bmp.bmih.biWidth).toNat
      (reflect ((i : Int) + ((a : Int) - half)) bmp.bmih.biHeight).toNat)

/-- The loop invariant of `circle_pixel` between the input `bmp` and a later state `b`: the
frame is that of the input, a cell that held `T` still holds it, any other cell holds its
first value or, next to a cell that held `T`, the colour `C`, and the cells of `D` that did
not hold `T` hold `C`. -/
def CPInv (bmp : BMP) (size : Int) (T C : RGB) (b : BMP) (D : Nat → Nat → Prop) : Prop :=
  b.bmfh = bmp.bmfh ∧ b.bmih = bmp.bmih ∧ b.pad = bmp.pad ∧ b.wf ∧
  ∀ px py p, getPixel bmp.img px py = some p →
    ∃ q, getPixel b.img px py = some q ∧ (p = T → q = T) ∧
      (p ≠ T → q = p ∨ (q = C ∧ ∃ qx qy : Nat, getPixel bmp.img qx qy = some T
          ∧ |(px : Int) - qx| ≤ size ∧ |(py : Int) - qy| ≤ size)) ∧
      (p ≠ T → D px py → q = C)

/-- Modelled from the spec: whether the cell `(px, py)` lies within Chebyshev distance
`size` of a cell of the image that holds `T`. -/
def nearTarget (bmp : BMP) (size : Int) (T : RGB) (px py : Nat) : Bool :=
  (List.range bmp.bmih.biHeight.toNat).any (fun qy =>
    (List.range bmp.bmih.biWidth.toNat).any (fun qx =>
      sameColor (readPx bmp.img qx qy) T
        && decide (|(px : Int) - qx| ≤ size ∧ |(py : Int) - qy| ≤ size)))

/-- Modelled from the spec: the recolouring computed on a snapshot of the input, every cell
being decided from the input alone. -/
def circle_pixel_snapshot (bmp : BMP) (size : Int) (T C : RGB) : BMP :=
  { bmp with
    img := tabulate bmp.bmih.biHeight.toNat bmp.bmih.biWidth.toNat (fun i j =>
      if sameColor (readPx bmp.img j i) T then readPx bmp.img j i
      else if nearTarget bmp size T j i then C
      else readPx bmp.img j i) }

/-- The image `out` is the image `bmp` with some cells of the box `[xlo, xhi] x [ylo, yhi]`
set to `col`: same frame, and every cell either as in `bmp` or inside the box and `col`. -/
def PaintedIn (xlo xhi ylo yhi : Int) (col : RGB) (bmp out : BMP) : Prop :=
  SameFrame out bmp ∧ ∀ px py : Nat, getPixel out.img px py = getPixel bmp.img px py ∨
    (getPixel out.img px py = some col
      ∧ xlo ≤ (px : Int) ∧ (px : Int) ≤ xhi ∧ ylo ≤ (py : Int) ∧ (py : Int) ≤ yhi)

/-- The points that the `while` loop of `drawLine` plots, in the order of the plot; `none`
when the loop is still running after `fuel` iterations. -/
def walkPts (deltaX deltaY signX signY x2 y2 : Int) :
    Nat → Int → Int → Int → Option (List (Int × Int))
  | 0, x1, y1, _ => if x1 ≠ x2 ∨ y1 ≠ y2 then none else some []
  | fuel + 1, x1, y1, error =>
    if x1 ≠ x2 ∨ y1 ≠ y2 then
      let error2 := error * 2
      let errorA := if error2 > -deltaY then error - deltaY else error
      let x1A := if error2 > -deltaY then x1 + signX else x1
      let errorB := if error2 < deltaX then errorA + deltaX else errorA
      let y1B := if error2 < deltaX then y1 + signY else y1
      (walkPts deltaX deltaY signX signY x2 y2 fuel x1A y1B errorB).map
        (fun l => (x1, y1) :: l)
    else some []

/-! ## Sample inputs -/

/-- A 2 x 2 file: both headers (24 bit, uncompressed) and two rows of two pixels, each row
padded to 8 bytes. -/
def sampleFile : List Nat :=
  [0x42, 0x4D, 70, 0, 0, 0, 0, 0, 0, 0, 54, 0, 0, 0,
   40, 0, 0, 0, 2, 0, 0, 0, 2, 0, 0, 0, 1, 0, 24, 0, 0, 0, 0, 0, 16, 0, 0, 0,
   19, 11, 0, 0, 19, 11, 0, 0, 0, 0, 0, 0, 0, 0, 0, 0,
   1, 2, 3, 4, 5, 6, 7, 8,
   9, 10, 11, 12, 13, 14, 15, 16]

/-- The file `sampleFile` with its bit depth field set to 8. -/
def depth8File : List Nat := sampleFile.set 28 8

/-- The file `sampleFile` with its first signature byte replaced, so that `bfType` is
`0x4D00`. -/
def badMagicFile : List Nat := sampleFile.set 0 0

/-- Headers of an image of the given extents. -/
def sampleHeaders (w h : Int) : BITMAPFILEHEADER × BITMAPINFOHEADER :=
  ({ bfType := 0x4D42, bfSize := 0, bfReserved1 := 0, bfReserved2 := 0, bfOffBits := 54 },
   { biSize := 40, biWidth := w, biHeight := h, biPlanes := 1, biBitCount := 24,
     biCompression := 0, biSizeImage := 0, biXPelsPerMeter := 0, biYPelsPerMeter := 0,
     biClrUsed := 0, biClrImportant := 0 })

/-- An image whose buffer is `img`, with headers of the given extents. -/
def sampleImage (w h : Int) (img : List (List RGB)) : BMP :=
  { bmfh := (sampleHeaders w h).1, bmih := (sampleHeaders w h).2, img := img, pad := [] }

/-- A 3 x 2 image with six distinct pixels. -/
def img32 : BMP :=
  sampleImage 3 2 [[⟨1, 2, 3⟩, ⟨4, 5, 6⟩, ⟨7, 8, 9⟩], [⟨10, 11, 12⟩, ⟨13, 14, 15⟩, ⟨16, 17, 18⟩]]

/-- A 3 x 3 image with nine distinct pixels. -/
def img33 : BMP :=
  sampleImage 3 3 [[⟨1, 2, 3⟩, ⟨4, 5, 6⟩, ⟨7, 8, 9⟩], [⟨10, 11, 12⟩, ⟨13, 14, 15⟩, ⟨16, 17, 18⟩],
    [⟨19, 20, 21⟩, ⟨22, 23, 24⟩, ⟨25, 26, 27⟩]]

/-- A 4 x 4 image of black pixels. -/
def black44 : BMP :=
  sampleImage 4 4 (List.replicate 4 (List.replicate 4 RGB.zero))

/-- The colour red. -/
def red : RGB := ⟨0, 0, 255⟩

/-- A 2902 x 2902 image of white pixels. -/
def white2902 : BMP :=
  sampleImage 2902 2902 (List.replicate 2902 (List.replicate 2902 ⟨255, 255, 255⟩))

/-! # Theorems -/

/-! ## Codec: behaviour on ill-formed headers -/

/-- On a signature mismatch `readBMP` runs `freeBMP` on a structure whose `img` is null: it
returns null when `biHeight <= 0` and dereferences the null pointer otherwise. -/
theorem readBMP_bad_signature (file : List Nat) (h : u16 file 0 ≠ 0x4D42) :
    readBMP file = if i32 file 22 ≤ 0 then ReadResult.null else ReadResult.crash := by
  unfold readBMP
  simp only [readFileHeader, readInfoHeader, freeBMPDefined]
  rw [if_pos h]
  by_cases hh : i32 file 22 ≤ 0 <;> simp [hh]

/-- C2 (code defect): `readBMP` checks the signature only. The file `depth8File` declares a bit
depth of 8, and `readBMP` returns an image for it, with that bit depth in its header. -/
theorem readBMP_accepts_depth8 :
    ∃ bmp, readBMP depth8File = ReadResult.image bmp ∧ bmp.bmih.biBitCount = 8 := by
  refine ⟨_, rfl, ?_⟩
  decide

/-- C3 (code defect): on `badMagicFile`, whose signature is not `BM` and whose height field
is 2, `readBMP` does not return: the cleanup `freeBMP` dereferences the null `img`. -/
theorem readBMP_bad_signature_crash :
    u16 badMagicFile 0 ≠ 0x4D42 ∧ readBMP badMagicFile = ReadResult.crash := by
  decide

/-! ## Rasterizer: clipping -/

/-- C4: `setPixel` at coordinates outside `[0, width) x [0, height)` returns the image as it
was: buffer, padding and both headers. -/
theorem setPixel_outside (bmp : BMP) (x y : Int) (col : RGB)
    (h : x < 0 ∨ x ≥ bmp.bmih.biWidth ∨ y < 0 ∨ y ≥ bmp.bmih.biHeight) :
    setPixel bmp x y col = bmp := by
  unfold setPixel
  simp only
  rw [if_neg]
  omega

/-- Witness for `setPixel_outside`: a write at `(3, 0)` in a 3 x 2 image. -/
theorem setPixel_outside_witness :
    ((3 : Int) < 0 ∨ (3 : Int) ≥ img32.bmih.biWidth ∨ (0 : Int) < 0 ∨ (0 : Int) ≥ img32.bmih.biHeight)
      ∧ setPixel img32 3 0 red = img32 :=
  ⟨by decide, setPixel_outside img32 3 0 red (by decide)⟩

/-! ## Rotation: unsupported angle -/

/-- C9: for a region with `right_x >= left_x` and `right_y >= left_y` and an angle other than
90, 180 and 270, `rotate` returns `ERROR_VAL` and the image it was given. -/
theorem rotate_bad_angle (bmp : BMP) (left_x left_y right_x right_y angle : Int)
    (hx : right_x ≥ left_x) (hy : right_y ≥ left_y)
    (h90 : angle ≠ 90) (h180 : angle ≠ 180) (h270 : angle ≠ 270) :
    rotate bmp left_x left_y right_x right_y angle = some (bmp, ERROR.ERROR_VAL) := by
  unfold rotate
  simp only [if_neg h90, if_neg h180, if_neg h270]
  rw [if_neg (by omega)]
  simp

/-- Witness for `rotate_bad_angle`: the angle 45 on a 3 x 2 region. -/
theorem rotate_bad_angle_witness :
    rotate img32 0 0 3 2 45 = some (img32, ERROR.ERROR_VAL) :=
  rotate_bad_angle img32 0 0 3 2 45 (by decide) (by decide) (by decide) (by decide) (by decide)

/-! ## Loop and buffer lemmas -/

theorem forRange_one {σ : Type} (lo : Int) (body : σ → Int → σ) (s : σ) :
    forRange lo (lo + 1) body s = body s lo := by
  have h : (lo + 1 - lo).toNat = 1 := by omega
  unfold forRange
  rw [h]
  show body s (lo + ((0 : Nat) : Int)) = body s lo
  simp

theorem forRange_empty {σ : Type} (lo hi : Int) (h : hi ≤ lo) (body : σ → Int → σ) (s : σ) :
    forRange lo hi body s = s := by
  have : (hi - lo).toNat = 0 := by omega
  simp [forRange, this]

theorem forRangeM_one {σ : Type} (lo : Int) (body : σ → Int → Option σ) (s : σ) :
    forRangeM lo (lo + 1) body s = body s lo := by
  simp [forRangeM, forRange_one]

theorem allSome_map_some {α β : Type} (l : List β) (f : β → Option α) (g : β → α)
    (h : ∀ b ∈ l, f b = some (g b)) : allSome (l.map f) = some (l.map g) := by
  induction l with
  | nil => rfl
  | cons a rest ih =>
    have ha : f a = some (g a) := h a (List.mem_cons_self _ _)
    have hr : allSome (rest.map f) = some (rest.map g) :=
      ih (fun b hb => h b (List.mem_cons_of_mem _ hb))
    simp [allSome, ha, hr]

theorem map_range_getD {α : Type} (l : List α) (d : α) (n : Nat) (h : l.length = n) :
    (List.range n).map (fun i => l.getD i d) = l := by
  apply List.ext_getElem
  · simp [h]
  · intro i h1 h2
    simp [List.getD_eq_getElem?_getD, List.getElem?_eq_getElem h2]

theorem forRangeM_zero_one {σ : Type} (body : σ → Int → Option σ) (s : σ) :
    forRangeM 0 1 body s = body s 0 :=
  forRangeM_one 0 body s

theorem readPx_eq_getD (img : List (List RGB)) (x y : Nat) :
    readPx img x y = (getPixel img x y).getD RGB.zero := by
  unfold readPx getPixel
  rcases h : img[y]? with _ | row
  · simp [List.getD_eq_getElem?_getD, h]
  · simp [List.getD_eq_getElem?_getD, h]

theorem getPixel_of_row (img : List (List RGB)) (x y : Nat) (row : List RGB)
    (hrow : img[y]? = some row) : getPixel img x y = row[x]? := by
  unfold getPixel
  rw [hrow]

theorem BMP.wf_row (bmp : BMP) (h : bmp.wf) (y : Nat) (hy : (y : Int) < bmp.bmih.biHeight) :
    ∃ row, bmp.img[y]? = some row ∧ row.length = bmp.bmih.biWidth.toNat := by
  obtain ⟨_, _, hlen, hrows⟩ := h
  have hy2 : y < bmp.img.length := by omega
  exact ⟨bmp.img[y], List.getElem?_eq_getElem hy2, hrows _ (List.getElem_mem _)⟩

theorem BMP.wf_getPixel (bmp : BMP) (h : bmp.wf) (x y : Nat)
    (hx : (x : Int) < bmp.bmih.biWidth) (hy : (y : Int) < bmp.bmih.biHeight) :
    getPixel bmp.img x y = some (readPx bmp.img x y) := by
  obtain ⟨row, hrow, hlen⟩ := bmp.wf_row h y hy
  have hx2 : x < row.length := by omega
  rw [readPx_eq_getD, getPixel_of_row _ _ _ _ hrow, List.getElem?_eq_getElem hx2]
  rfl

theorem getPixel_mem (img : List (List RGB)) (x y : Nat) (p : RGB)
    (h : getPixel img x y = some p) : ∃ row ∈ img, p ∈ row := by
  unfold getPixel at h
  cases hrow : img[y]? with
  | none => rw [hrow] at h; cases h
  | some row =>
    rw [hrow] at h
    exact ⟨row, List.getElem?_mem hrow, List.getElem?_mem h⟩

/-! ## Blur with a kernel of one cell -/

theorem roundDiv_one (s : Nat) : roundDiv s 1 = s := by
  unfold roundDiv
  omega

theorem blurSums_one (bmp : BMP) (h : bmp.wf) (i j : Nat)
    (hi : (i : Int) < bmp.bmih.biHeight) (hj : (j : Int) < bmp.bmih.biWidth) :
    blurSums bmp 1 i j
      = some ((readPx bmp.img j i).r, (readPx bmp.img j i).g, (readPx bmp.img j i).b) := by
  unfold blurSums
  have h0 : Int.tdiv 1 2 = 0 := by decide
  simp only [h0, mul_zero, zero_add, forRangeM_zero_one, add_zero]
  have hr1 : reflect (i : Int) bmp.bmih.biHeight = i := by
    unfold reflect
    rw [if_neg (by omega), if_neg (by omega)]
  have hr2 : reflect (j : Int) bmp.bmih.biWidth = j := by
    unfold reflect
    rw [if_neg (by omega), if_neg (by omega)]
  rw [hr1, hr2]
  unfold readChecked
  rw [if_pos (by omega)]
  simp only [Int.toNat_ofNat]
  rw [bmp.wf_getPixel h j i hj hi]
  simp

theorem blur_one (bmp : BMP) (hwf : bmp.wf) (hb : bmp.bytes) :
    blur bmp 1 = some { bmp with pad := [] } := by
  unfold blur
  have h1 : Int.tmod 1 2 ≠ 0 := by decide
  simp only [if_neg h1]
  rw [if_neg (by have := hwf.2.1; omega)]
  have hrows : allSome ((List.range bmp.bmih.biHeight.toNat).map (fun (i : Nat) =>
      allSome ((List.range bmp.bmih.biWidth.toNat).map (fun (j : Nat) =>
        (blurSums bmp 1 i j).map (fun s =>
          ({ b := roundDiv s.2.2 ((1 : Int) * 1).toNat % 256
             g := roundDiv s.2.1 ((1 : Int) * 1).toNat % 256
             r := roundDiv s.1 ((1 : Int) * 1).toNat % 256 } : RGB))))))
      = some bmp.img := by
    rw [allSome_map_some _ _ (fun i => bmp.img.getD i [])]
    · rw [map_range_getD _ _ _ hwf.2.2.1]
    · intro i hi
      have hi2 : (i : Int) < bmp.bmih.biHeight := by
        have := List.mem_range.mp hi
        omega
      obtain ⟨row, hrow, hlen⟩ := bmp.wf_row hwf i hi2
      have hrow2 : bmp.img.getD i [] = row := by
        rw [List.getD_eq_getElem?_getD, hrow]; rfl
      rw [allSome_map_some _ _ (fun j => readPx bmp.img j i)]
      · have : (fun j => readPx bmp.img j i) = (fun j => row.getD j RGB.zero) := by
          funext j
          unfold readPx
          rw [hrow2]
        rw [this, map_range_getD _ _ _ hlen, hrow2]
      · intro j hj
        have hj2 : (j : Int) < bmp.bmih.biWidth := by
          have := List.mem_range.mp hj
          omega
        rw [blurSums_one bmp hwf i j hi2 hj2]
        obtain ⟨r1, hr1, hp1⟩ := getPixel_mem _ _ _ _ (bmp.wf_getPixel hwf j i hj2 hi2)
        obtain ⟨b1, b2, b3⟩ := hb r1 hr1 _ hp1
        simp only [Option.map_some', mul_one, Int.toNat_one, roundDiv_one]
        rw [Nat.mod_eq_of_lt b1, Nat.mod_eq_of_lt b2, Nat.mod_eq_of_lt b3]
  rw [hrows]
  rfl

/-- C10: on an image whose buffer matches its header, `blur` with kernel size 1, and with
size 0 (which the function increments to 1), returns an image with the same pixels and
the same headers. -/
theorem blur_size_one_stable (bmp : BMP) (hwf : bmp.wf) (hb : bmp.bytes) (size : Int)
    (hsize : size = 1 ∨ size = 0) :
    ∃ out, blur bmp size = some out ∧ out.img = bmp.img ∧ out.bmih = bmp.bmih
      ∧ out.bmfh = bmp.bmfh := by
  refine ⟨{ bmp with pad := [] }, ?_, rfl, rfl, rfl⟩
  rcases hsize with h | h
  · rw [h]; exact blur_one bmp hwf hb
  · rw [h, ← blur_one bmp hwf hb]
    unfold blur
    have h0 : Int.tmod 0 2 = 0 := by decide
    have h1 : Int.tmod 1 2 ≠ 0 := by decide
    simp only [if_pos h0, if_neg h1, zero_add]

/-- Witness for `blur_size_one_stable`: size 0 on a 3 x 2 image. -/
theorem blur_size_one_stable_witness :
    ∃ out, blur img32 0 = some out ∧ out.img = img32.img ∧ out.bmih = img32.bmih
      ∧ out.bmfh = img32.bmfh :=
  blur_size_one_stable img32 (by decide) (by decide) 0 (Or.inr rfl)

/-! ## Pixel writes -/

theorem getPixel_writePx_ne (img : List (List RGB)) (x y x' y' : Nat) (c : RGB)
    (h : x' ≠ x ∨ y' ≠ y) : getPixel (writePx img x y c) x' y' = getPixel img x' y' := by
  unfold getPixel writePx
  by_cases hy : y = y'
  · subst hy
    have hx : ¬ x = x' := by
      rcases h with h | h
      · exact fun e => h e.symm
      · exact absurd rfl h
    by_cases hlen : y < img.length
    · simp [List.getElem?_set, hlen, hx, List.getD_eq_getElem?_getD,
        List.getElem?_eq_getElem hlen]
    · simp [List.getElem?_set, hlen]
      rw [List.getElem?_eq_none (by omega)]
  · rw [List.getElem?_set, if_neg hy]

theorem getPixel_writePx_self (img : List (List RGB)) (x y : Nat) (c p : RGB)
    (h : getPixel img x y = some p) : getPixel (writePx img x y c) x y = some c := by
  unfold getPixel at h
  unfold getPixel writePx
  by_cases hlen : y < img.length
  · rw [List.getElem?_eq_getElem hlen] at h
    simp only at h
    have hx : x < img[y].length := by
      by_contra hcon
      rw [List.getElem?_eq_none (by omega)] at h
      cases h
    simp [List.getElem?_set, hlen, hx, List.getD_eq_getElem?_getD,
      List.getElem?_eq_getElem hlen]
  · rw [List.getElem?_eq_none (by omega)] at h
    cases h

theorem writePx_length (img : List (List RGB)) (x y : Nat) (c : RGB) :
    (writePx img x y c).length = img.length := by
  unfold writePx
  simp

theorem writePx_rows (img : List (List RGB)) (x y : Nat) (c : RGB) (w : Nat)
    (h : ∀ row ∈ img, row.length = w) : ∀ row ∈ writePx img x y c, row.length = w := by
  intro row hrow
  unfold writePx at hrow
  rcases List.mem_or_eq_of_mem_set hrow with hm | he
  · exact h row hm
  · rw [he, List.length_set, List.getD_eq_getElem?_getD]
    rcases hy : img[y]? with _ | r
    · have hlen : img.length ≤ y := List.getElem?_eq_none_iff.mp hy
      rw [List.set_eq_of_length_le hlen] at hrow
      rw [he, List.getD_eq_getElem?_getD, hy] at hrow
      simpa using h _ hrow
    · exact h r (List.getElem?_mem hy)

theorem setPixel_bmih (bmp : BMP) (x y : Int) (c : RGB) :
    (setPixel bmp x y c).bmih = bmp.bmih := by
  unfold setPixel
  simp only
  split <;> rfl

theorem setPixel_bmfh (bmp : BMP) (x y : Int) (c : RGB) :
    (setPixel bmp x y c).bmfh = bmp.bmfh := by
  unfold setPixel
  simp only
  split <;> rfl

theorem setPixel_pad (bmp : BMP) (x y : Int) (c : RGB) :
    (setPixel bmp x y c).pad = bmp.pad := by
  unfold setPixel
  simp only
  split <;> rfl

theorem setPixel_wf (bmp : BMP) (x y : Int) (c : RGB) (h : bmp.wf) :
    (setPixel bmp x y c).wf := by
  unfold setPixel
  simp only
  split
  · obtain ⟨h1, h2, h3, h4⟩ := h
    exact ⟨h1, h2, by rw [writePx_length]; exact h3, writePx_rows _ _ _ _ _ h4⟩
  · exact h

theorem getPixel_setPixel_ne (bmp : BMP) (x y : Int) (c : RGB) (px py : Nat)
    (h : ¬ (x = px ∧ y = py)) :
    getPixel (setPixel bmp x y c).img px py = getPixel bmp.img px py := by
  unfold setPixel
  simp only
  split
  · apply getPixel_writePx_ne
    omega
  · rfl

theorem getPixel_setPixel_self (bmp : BMP) (hwf : bmp.wf) (c : RGB) (px py : Nat)
    (hx : (px : Int) < bmp.bmih.biWidth) (hy : (py : Int) < bmp.bmih.biHeight) :
    getPixel (setPixel bmp px py c).img px py = some c := by
  unfold setPixel
  simp only
  rw [if_pos (by omega)]
  simp only [Int.toNat_ofNat]
  exact getPixel_writePx_self _ _ _ _ _ (bmp.wf_getPixel hwf px py hx hy)

theorem SameFrame.refl (a : BMP) : SameFrame a a := ⟨rfl, rfl, rfl, id⟩

theorem SameFrame.trans {a b c : BMP} (h1 : SameFrame a b) (h2 : SameFrame b c) :
    SameFrame a c :=
  ⟨h1.1.trans h2.1, h1.2.1.trans h2.2.1, h1.2.2.1.trans h2.2.2.1, fun h => h1.2.2.2 (h2.2.2.2 h)⟩

theorem setPixel_sameFrame (bmp : BMP) (x y : Int) (c : RGB) :
    SameFrame (setPixel bmp x y c) bmp :=
  ⟨setPixel_bmih _ _ _ _, setPixel_bmfh _ _ _ _, setPixel_pad _ _ _ _, setPixel_wf _ _ _ _⟩

/-! ## Sequences of pixel writes -/

theorem foldl_setPixel_sameFrame {κ : Type} (l : List κ) (tx ty : κ → Int) (col : κ → RGB)
    (bmp : BMP) :
    SameFrame (l.foldl (fun b k => setPixel b (tx k) (ty k) (col k)) bmp) bmp := by
  induction l generalizing bmp with
  | nil => exact SameFrame.refl _
  | cons k rest ih =>
    exact (ih (setPixel bmp (tx k) (ty k) (col k))).trans (setPixel_sameFrame _ _ _ _)

theorem foldl_setPixel_frame {κ : Type} (l : List κ) (tx ty : κ → Int) (col : κ → RGB)
    (bmp : BMP) (px py : Nat) (h : ∀ k ∈ l, ¬ (tx k = px ∧ ty k = py)) :
    getPixel (l.foldl (fun b k => setPixel b (tx k) (ty k) (col k)) bmp).img px py
      = getPixel bmp.img px py := by
  induction l generalizing bmp with
  | nil => rfl
  | cons k rest ih =>
    rw [List.foldl_cons, ih _ (fun k hk => h k (List.mem_cons_of_mem _ hk))]
    exact getPixel_setPixel_ne _ _ _ _ _ _ (h k (List.mem_cons_self _ _))

theorem foldl_setPixel_hit {κ : Type} (l : List κ) (tx ty : κ → Int) (col : κ → RGB)
    (bmp : BMP) (hwf : bmp.wf) (px py : Nat) (c : RGB)
    (hx : (px : Int) < bmp.bmih.biWidth) (hy : (py : Int) < bmp.bmih.biHeight)
    (hex : ∃ k ∈ l, tx k = px ∧ ty k = py)
    (hall : ∀ k ∈ l, tx k = px → ty k = py → col k = c) :
    getPixel (l.foldl (fun b k => setPixel b (tx k) (ty k) (col k)) bmp).img px py
      = some c := by
  induction l generalizing bmp with
  | nil =>
    obtain ⟨k, hk, _⟩ := hex
    cases hk
  | cons k rest ih =>
    rw [List.foldl_cons]
    by_cases hrest : ∃ k' ∈ rest, tx k' = px ∧ ty k' = py
    · apply ih _ (setPixel_wf _ _ _ _ hwf)
      · rw [setPixel_bmih]; exact hx
      · rw [setPixel_bmih]; exact hy
      · exact hrest
      · exact fun k' hk' => hall k' (List.mem_cons_of_mem _ hk')
    · have hk : tx k = px ∧ ty k = py := by
        obtain ⟨k', hk', ht⟩ := hex
        rcases List.mem_cons.mp hk' with e | hm
        · rw [← e]; exact ht
        · exact absurd ⟨k', hm, ht⟩ hrest
      rw [foldl_setPixel_frame _ _ _ _ _ _ _ (fun k' hk' ht => hrest ⟨k', hk', ht⟩)]
      rw [hk.1, hk.2, hall k (List.mem_cons_self _ _) hk.1 hk.2]
      exact getPixel_setPixel_self _ hwf _ _ _ hx hy

theorem foldl_flatMap_eq {α β σ : Type} (l : List α) (g : α → List β) (f : σ → β → σ) (s : σ) :
    (l.flatMap g).foldl f s = l.foldl (fun s a => (g a).foldl f s) s := by
  induction l generalizing s with
  | nil => rfl
  | cons a rest ih => simp [List.flatMap_cons, List.foldl_append, ih]

theorem forRange_nested {σ : Type} (lo hi lo' hi' : Int) (body : σ → Int → Int → σ) (s : σ) :
    forRange lo hi (fun s j => forRange lo' hi' (fun s i => body s i j) s) s
      = (grid lo hi lo' hi').foldl (fun s p => body s p.1 p.2) s := by
  unfold grid forRange
  rw [foldl_flatMap_eq]
  congr 1
  funext s a
  rw [List.foldl_map]

theorem mem_grid (lo hi lo' hi' : Int) (p : Int × Int) :
    p ∈ grid lo hi lo' hi' ↔ (lo ≤ p.2 ∧ p.2 < hi) ∧ (lo' ≤ p.1 ∧ p.1 < hi') := by
  unfold grid
  simp only [List.mem_flatMap, List.mem_map, List.mem_range]
  constructor
  · rintro ⟨a, ha, b, hb, rfl⟩
    simp only
    omega
  · rintro ⟨h1, h2⟩
    refine ⟨(p.2 - lo).toNat, by omega, (p.1 - lo').toNat, by omega, ?_⟩
    apply Prod.ext <;> simp only <;> omega

/-! ## Rotation by 180 degrees -/

theorem readPx_tabulate (n m : Nat) (f : Nat → Nat → RGB) (i j : Nat) (hj : j < n)
    (hi : i < m) : readPx (tabulate n m f) i j = f j i := by
  unfold readPx tabulate
  simp [List.getD_eq_getElem?_getD, List.getElem?_range, hj, hi]

theorem rotate_180_eq (bmp : BMP) (left_x left_y right_x right_y : Int)
    (hw : left_x ≤ right_x) (hh : left_y ≤ right_y) :
    rotate bmp left_x left_y right_x right_y 180
      = some ((grid 0 (right_y - left_y) 0 (right_x - left_x)).foldl
          (fun b p => setPixel b (left_x + p.1) (left_y + p.2)
            (readPx (rgb180 bmp left_x left_y right_x right_y)
              (right_x - left_x - p.1 - 1).toNat (right_y - left_y - p.2 - 1).toNat)) bmp,
          ERROR.SUCCESS) := by
  unfold rotate
  simp only [↓reduceIte]
  rw [if_neg (by omega)]
  simp only [Option.map_some']
  rw [forRange_nested]
  rfl

/-- C7: for a region inside the image, `rotate` with angle 180 returns `SUCCESS`, leaves the
headers as they are, makes the pixel at `(left_x + i, left_y + j)` the original pixel at
`(left_x + w - 1 - i, left_y + h - 1 - j)`, and leaves every pixel outside the region
unchanged. -/
theorem rotate_180_region (bmp : BMP) (hwf : bmp.wf) (left_x left_y right_x right_y : Int)
    (hlx : 0 ≤ left_x) (hx : left_x < right_x) (hrx : right_x ≤ bmp.bmih.biWidth)
    (hly : 0 ≤ left_y) (hy : left_y < right_y) (hry : right_y ≤ bmp.bmih.biHeight) :
    ∃ out, rotate bmp left_x left_y right_x right_y 180 = some (out, ERROR.SUCCESS)
      ∧ out.bmih = bmp.bmih ∧ out.bmfh = bmp.bmfh
      ∧ (∀ i j : Nat, (i : Int) < right_x - left_x → (j : Int) < right_y - left_y →
          getPixel out.img (left_x + i).toNat (left_y + j).toNat
            = getPixel bmp.img (left_x + (right_x - left_x) - 1 - i).toNat
                (left_y + (right_y - left_y) - 1 - j).toNat)
      ∧ (∀ px py : Nat,
          ¬ (left_x ≤ px ∧ (px : Int) < right_x ∧ left_y ≤ py ∧ (py : Int) < right_y) →
          getPixel out.img px py = getPixel bmp.img px py) := by
  refine ⟨_, rotate_180_eq bmp left_x left_y right_x right_y (by omega) (by omega), ?_, ?_, ?_, ?_⟩
  · exact (foldl_setPixel_sameFrame _ _ _ _ _).1
  · exact (foldl_setPixel_sameFrame _ _ _ _ _).2.1
  · intro i j hi hj
    have hsrc := bmp.wf_getPixel hwf (left_x + (right_x - left_x) - 1 - i).toNat
      (left_y + (right_y - left_y) - 1 - j).toNat (by omega) (by omega)
    rw [hsrc]
    apply foldl_setPixel_hit _ _ _ _ _ hwf
    · omega
    · omega
    · refine ⟨((i : Int), (j : Int)), (mem_grid _ _ _ _ _).mpr ?_, ?_⟩
      · simp only; omega
      · simp only; omega
    · intro k hk h1 h2
      have hk2 := (mem_grid _ _ _ _ _).mp hk
      have e1 : k.1 = i := by omega
      have e2 : k.2 = j := by omega
      rw [e1, e2]
      unfold rgb180
      rw [readPx_tabulate _ _ _ _ _ (by omega) (by omega)]
      rw [if_pos (by omega)]
      congr 1 <;> omega
  · intro px py hout
    apply foldl_setPixel_frame
    intro k hk hkp
    have hk2 := (mem_grid _ _ _ _ _).mp hk
    apply hout
    omega

/-- Witness for `rotate_180_region`: the region `(0,0)-(2,3)`, two columns by three rows,
of a 3 x 3 image. -/
theorem rotate_180_region_witness :
    ∃ out, rotate img33 0 0 2 3 180 = some (out, ERROR.SUCCESS)
      ∧ out.bmih = img33.bmih ∧ out.bmfh = img33.bmfh
      ∧ (∀ i j : Nat, (i : Int) < 2 - 0 → (j : Int) < 3 - 0 →
          getPixel out.img ((0 : Int) + i).toNat ((0 : Int) + j).toNat
            = getPixel img33.img ((0 : Int) + (2 - 0) - 1 - i).toNat
                ((0 : Int) + (3 - 0) - 1 - j).toNat)
      ∧ (∀ px py : Nat,
          ¬ ((0 : Int) ≤ px ∧ (px : Int) < 2 ∧ (0 : Int) ≤ py ∧ (py : Int) < 3) →
          getPixel out.img px py = getPixel img33.img px py) :=
  rotate_180_region img33 (by decide) 0 0 2 3 (by decide) (by decide) (by decide) (by decide)
    (by decide) (by decide)

/-! ## Rotation by 90 degrees -/

theorem rotate_90_eq (bmp : BMP) (left_x left_y right_x right_y : Int)
    (hw : left_x ≤ right_x) (hh : left_y ≤ right_y) :
    rotate bmp left_x left_y right_x right_y 90
      = some ((grid 0 (right_x - left_x) 0 (right_y - left_y)).foldl
          (fun b p =>
            setPixel b
              (Int.tdiv (right_x + left_x) 2 - Int.tdiv (right_y - left_y) 2 + p.1)
              (Int.tdiv (right_y + left_y) 2 - Int.tdiv (right_x - left_x) 2 + p.2)
              (readPx (rgb90 bmp left_x left_y right_x right_y)
                (right_y - left_y - p.1 - 1).toNat (right_x - left_x - p.2 - 1).toNat)) bmp,
          ERROR.SUCCESS) := by
  have h1 : ¬ ((90 : Int) = 180) := by decide
  unfold rotate
  simp only [if_neg h1, ↓reduceIte]
  rw [if_neg (by omega)]
  simp only [Option.map_some']
  rw [forRange_nested]
  rfl

/-- On a square region inside the image, `rotate` with angle 90 writes back onto the region
itself: the pixel at `(px, py)` of the region becomes the original pixel at
`(left_x + n - 1 - (py - left_y), left_y + (px - left_x))`. -/
theorem rotate_90_square (bmp : BMP) (hwf : bmp.wf) (left_x left_y n : Int)
    (hlx : 0 ≤ left_x) (hly : 0 ≤ left_y) (hn : 0 ≤ n)
    (hrx : left_x + n ≤ bmp.bmih.biWidth) (hry : left_y + n ≤ bmp.bmih.biHeight) :
    ∃ out, rotate bmp left_x left_y (left_x + n) (left_y + n) 90 = some (out, ERROR.SUCCESS)
      ∧ SameFrame out bmp
      ∧ ∀ px py : Nat, getPixel out.img px py =
          if left_x ≤ px ∧ (px : Int) < left_x + n ∧ left_y ≤ py ∧ (py : Int) < left_y + n
          then getPixel bmp.img (left_x + n - 1 - (py - left_y)).toNat
            (left_y + (px - left_x)).toNat
          else getPixel bmp.img px py := by
  refine ⟨_, rotate_90_eq bmp left_x left_y (left_x + n) (left_y + n) (by omega) (by omega),
    foldl_setPixel_sameFrame _ _ _ _ _, ?_⟩
  have hcx : Int.tdiv (left_x + n + left_x) 2 - Int.tdiv (left_y + n - left_y) 2 = left_x := by
    rw [Int.tdiv_eq_ediv (by omega) (by omega), Int.tdiv_eq_ediv (by omega) (by omega)]
    omega
  have hcy : Int.tdiv (left_y + n + left_y) 2 - Int.tdiv (left_x + n - left_x) 2 = left_y := by
    rw [Int.tdiv_eq_ediv (by omega) (by omega), Int.tdiv_eq_ediv (by omega) (by omega)]
    omega
  rw [hcx, hcy]
  intro px py
  by_cases hin : left_x ≤ px ∧ (px : Int) < left_x + n ∧ left_y ≤ py ∧ (py : Int) < left_y + n
  · rw [if_pos hin]
    have hsrc := bmp.wf_getPixel hwf (left_x + n - 1 - (py - left_y)).toNat
      (left_y + (px - left_x)).toNat (by omega) (by omega)
    rw [hsrc]
    apply foldl_setPixel_hit _ _ _ _ _ hwf
    · omega
    · omega
    · refine ⟨((px : Int) - left_x, (py : Int) - left_y), (mem_grid _ _ _ _ _).mpr ?_, ?_⟩
      · simp only; omega
      · simp only; omega
    · intro k hk h1 h2
      have hk2 := (mem_grid _ _ _ _ _).mp hk
      unfold rgb90
      rw [readPx_tabulate _ _ _ _ _ (by omega) (by omega)]
      rw [if_pos (by omega)]
      congr 1 <;> omega
  · rw [if_neg hin]
    apply foldl_setPixel_frame
    intro k hk hkp
    have hk2 := (mem_grid _ _ _ _ _).mp hk
    apply hin
    omega

/-- Two buffers with the same number of rows and the same pixel at every position are equal. -/
theorem img_ext (a b : List (List RGB)) (hlen : a.length = b.length)
    (h : ∀ x y, getPixel a x y = getPixel b x y) : a = b := by
  apply List.ext_getElem hlen
  intro y h1 h2
  apply List.ext_getElem?
  intro x
  have hxy := h x y
  unfold getPixel at hxy
  rw [List.getElem?_eq_getElem h1, List.getElem?_eq_getElem h2] at hxy
  exact hxy

theorem BMP.eq_of_sameFrame (a b : BMP) (hf : SameFrame a b) (hb : b.wf)
    (h : ∀ x y, getPixel a.img x y = getPixel b.img x y) : a = b := by
  obtain ⟨h1, h2, h3, h4⟩ := hf
  have ha := h4 hb
  have himg : a.img = b.img := by
    apply img_ext _ _ _ h
    rw [ha.2.2.1, hb.2.2.1, h1]
  cases a
  cases b
  simp only [BMP.mk.injEq]
  exact ⟨h2, h1, himg, h3⟩

/-- C8 as stated fails on a region that is not square: four rotations by 90 degrees of the
region `(0,0)-(2,1)` of `img32` all succeed, and leave the pixel `(1, 0)` of the region
different from the original one. -/
theorem rotate_90_four_times_counterexample :
    img32.wf ∧ (0 : Int) ≤ 0 ∧ (0 : Int) < 2 ∧ (2 : Int) ≤ img32.bmih.biWidth
      ∧ (0 : Int) < 1 ∧ (1 : Int) ≤ img32.bmih.biHeight
      ∧ ∃ out, rotateRepeat 0 0 2 1 90 4 img32 = some out
        ∧ getPixel out.img 1 0 ≠ getPixel img32.img 1 0 := by
  refine ⟨by decide, by decide, by decide, by decide, by decide, by decide, _, rfl, ?_⟩
  decide

/-- For a square region inside the image, four calls of `rotate` with angle 90 and the same
region all return `SUCCESS` and give back the whole original image. -/
theorem rotate_90_four_times_square (bmp : BMP) (hwf : bmp.wf)
    (left_x left_y right_x right_y : Int)
    (hlx : 0 ≤ left_x) (hx : left_x < right_x) (hrx : right_x ≤ bmp.bmih.biWidth)
    (hly : 0 ≤ left_y) (hy : left_y < right_y) (hry : right_y ≤ bmp.bmih.biHeight)
    (hsq : right_x - left_x = right_y - left_y) :
    rotateRepeat left_x left_y right_x right_y 90 4 bmp = some bmp := by
  obtain ⟨n, hn⟩ : ∃ n, n = right_x - left_x := ⟨_, rfl⟩
  have e1 : right_x = left_x + n := by omega
  have e2 : right_y = left_y + n := by omega
  subst e1 e2
  obtain ⟨b1, r1, f1, p1⟩ := rotate_90_square bmp hwf left_x left_y n hlx hly (by omega) hrx hry
  have w1 := f1.2.2.2 hwf
  obtain ⟨b2, r2, f2, p2⟩ := rotate_90_square b1 w1 left_x left_y n hlx hly (by omega)
    (by rw [f1.1]; exact hrx) (by rw [f1.1]; exact hry)
  have w2 := f2.2.2.2 w1
  have g2 := f2.trans f1
  obtain ⟨b3, r3, f3, p3⟩ := rotate_90_square b2 w2 left_x left_y n hlx hly (by omega)
    (by rw [g2.1]; exact hrx) (by rw [g2.1]; exact hry)
  have w3 := f3.2.2.2 w2
  have g3 := f3.trans g2
  obtain ⟨b4, r4, f4, p4⟩ := rotate_90_square b3 w3 left_x left_y n hlx hly (by omega)
    (by rw [g3.1]; exact hrx) (by rw [g3.1]; exact hry)
  have g4 := f4.trans g3
  have hfinal : b4 = bmp := by
    apply BMP.eq_of_sameFrame _ _ g4 hwf
    intro px py
    by_cases hin : left_x ≤ px ∧ (px : Int) < left_x + n ∧ left_y ≤ py
        ∧ (py : Int) < left_y + n
    · rw [p4, if_pos hin, p3, if_pos (by omega), p2, if_pos (by omega), p1, if_pos (by omega)]
      congr 1 <;> omega
    · rw [p4, if_neg hin, p3, if_neg hin, p2, if_neg hin, p1, if_neg hin]
  simp only [rotateRepeat, r1, r2, r3, r4, hfinal]

/-- The four rotations of the region `(1,0)-(3,2)` of a 3 x 3 image. -/
theorem rotate_90_four_times_square_witness :
    rotateRepeat 1 0 3 2 90 4 img33 = some img33 :=
  rotate_90_four_times_square img33 (by decide) 1 0 3 2 (by decide) (by decide) (by decide)
    (by decide) (by decide) (by decide) (by decide)

/-! ## Channel filter -/

theorem forRange_induct {σ : Type} (lo hi : Int) (body : σ → Int → σ) (s : σ)
    (I : Nat → σ → Prop) (h0 : I 0 s)
    (hstep : ∀ (k : Nat) (t : σ), k < (hi - lo).toNat → I k t → I (k + 1) (body t (lo + k))) :
    I (hi - lo).toNat (forRange lo hi body s) := by
  unfold forRange
  generalize (hi - lo).toNat = n at hstep
  induction n with
  | zero => exact h0
  | succ m ih =>
    rw [List.range_succ, List.foldl_append]
    exact hstep m _ (Nat.lt_succ_self m)
      (ih (fun k t hk hI => hstep k t (Nat.lt_succ_of_lt hk) hI))

theorem getPixel_writePx_same (img : List (List RGB)) (x y : Nat) (c : RGB) :
    getPixel (writePx img x y c) x y = (getPixel img x y).map (fun _ => c) := by
  rcases h : getPixel img x y with _ | p
  · unfold getPixel at h
    unfold getPixel writePx
    by_cases hlen : y < img.length
    · rw [List.getElem?_eq_getElem hlen] at h
      simp only at h
      have hx : img[y].length ≤ x := List.getElem?_eq_none_iff.mp h
      simp [List.getElem?_set, hlen, List.getD_eq_getElem?_getD,
        List.getElem?_eq_getElem hlen]
      omega
    · simp [List.getElem?_set, hlen]
  · rw [getPixel_writePx_self _ _ _ _ _ h]
    rfl

theorem getPixel_modifyPx (img : List (List RGB)) (x y : Nat) (f : RGB → RGB) (x' y' : Nat) :
    getPixel (modifyPx img x y f) x' y'
      = if x' = x ∧ y' = y then (getPixel img x y).map f else getPixel img x' y' := by
  have e : modifyPx img x y f = writePx img x y (f (readPx img x y)) := rfl
  rw [e]
  by_cases h : x' = x ∧ y' = y
  · rw [if_pos h, h.1, h.2, getPixel_writePx_same, readPx_eq_getD]
    cases getPixel img x y <;> rfl
  · rw [if_neg h]
    apply getPixel_writePx_ne
    omega

theorem modifyPx_sameFrame (b : BMP) (x y : Nat) (f : RGB → RGB) :
    SameFrame { b with img := modifyPx b.img x y f } b := by
  refine ⟨rfl, rfl, rfl, ?_⟩
  rintro ⟨h1, h2, h3, h4⟩
  have e : modifyPx b.img x y f = writePx b.img x y (f (readPx b.img x y)) := rfl
  exact ⟨h1, h2, by rw [e, writePx_length]; exact h3, by rw [e]; exact writePx_rows _ _ _ _ _ h4⟩

theorem BMP.wf_getPixel_none (bmp : BMP) (h : bmp.wf) (x y : Nat)
    (hout : bmp.bmih.biWidth ≤ x ∨ bmp.bmih.biHeight ≤ y) : getPixel bmp.img x y = none := by
  unfold getPixel
  rcases hrow : bmp.img[y]? with _ | row
  · rfl
  · have hlen := h.2.2.2 row (List.getElem?_mem hrow)
    have hy : y < bmp.img.length := by
      by_contra hcon
      rw [List.getElem?_eq_none (by omega)] at hrow
      cases hrow
    have := h.2.2.1
    have := h.1
    have := h.2.1
    simp only
    apply List.getElem?_eq_none
    omega

theorem rgbfilter_eq_modify (bmp : BMP) (component : String) (value : Int)
    (hc : component = "red" ∨ component = "green" ∨ component = "blue") :
    rgbfilter bmp component value
      = forRange 0 bmp.bmih.biHeight (fun b j =>
          forRange 0 b.bmih.biWidth (fun b i =>
            { b with img := modifyPx b.img i.toNat j.toNat (setChannel component value) }) b)
          bmp := by
  have hr : setChannel "red" value = fun p => { p with r := toU8 value } := by
    funext p; simp [setChannel]
  have hg : setChannel "green" value = fun p => { p with g := toU8 value } := by
    funext p; simp [setChannel]
  have hb : setChannel "blue" value = fun p => { p with b := toU8 value } := by
    funext p; simp [setChannel]
  rcases hc with rfl | rfl | rfl
  · simp [rgbfilter, hr]
  · simp [rgbfilter, hg]
  · simp [rgbfilter, hb]

theorem mapRows_loop (bmp : BMP) (hwf : bmp.wf) (f : RGB → RGB) :
    ∃ out, forRange 0 bmp.bmih.biHeight (fun b j =>
          forRange 0 b.bmih.biWidth (fun b i =>
            { b with img := modifyPx b.img i.toNat j.toNat f }) b) bmp = out
      ∧ SameFrame out bmp
      ∧ ∀ px py, getPixel out.img px py = (getPixel bmp.img px py).map f := by
  refine ⟨_, rfl, ?_⟩
  have hH := hwf.2.1
  have hW := hwf.1
  have key := forRange_induct 0 bmp.bmih.biHeight (fun b j =>
      forRange 0 b.bmih.biWidth (fun b i =>
        { b with img := modifyPx b.img i.toNat j.toNat f }) b) bmp
    (fun j b => SameFrame b bmp ∧ ∀ px py, getPixel b.img px py
      = if py < j then (getPixel bmp.img px py).map f else getPixel bmp.img px py)
    ⟨SameFrame.refl _, fun px py => by simp⟩ ?_
  · obtain ⟨hf, hp⟩ := key
    refine ⟨hf, fun px py => ?_⟩
    rw [hp]
    by_cases hpy : py < (bmp.bmih.biHeight - 0).toNat
    · rw [if_pos hpy]
    · rw [if_neg hpy, bmp.wf_getPixel_none hwf px py (by omega)]
      rfl
  · intro j b0 hj ⟨hf0, hp0⟩
    have inner := forRange_induct 0 b0.bmih.biWidth (fun b i =>
        { b with img := modifyPx b.img i.toNat ((0 : Int) + (j : Int)).toNat f }) b0
      (fun i b => SameFrame b bmp ∧ ∀ px py, getPixel b.img px py
        = if py = j ∧ px < i then (getPixel b0.img px py).map f else getPixel b0.img px py)
      ⟨hf0, fun px py => by simp⟩ ?_
    · obtain ⟨hf, hp⟩ := inner
      refine ⟨hf, fun px py => ?_⟩
      rw [hp, hp0]
      rw [hf0.1] at *
      by_cases h1 : py = j
      · subst h1
        by_cases h2 : px < (bmp.bmih.biWidth - 0).toNat
        · rw [if_pos ⟨rfl, h2⟩, if_neg (by omega), if_pos (by omega)]
        · rw [if_neg (by omega), if_neg (by omega), if_pos (by omega),
            bmp.wf_getPixel_none hwf px py (by omega)]
          rfl
      · rw [if_neg (by omega)]
        by_cases h3 : py < j
        · rw [if_pos h3, if_pos (by omega)]
        · rw [if_neg h3, if_neg (by omega)]
    · intro i b hi ⟨hf, hp⟩
      refine ⟨(modifyPx_sameFrame _ _ _ _).trans hf, fun px py => ?_⟩
      simp only
      rw [getPixel_modifyPx]
      have e1 : ((0 : Int) + (i : Int)).toNat = i := by omega
      have e2 : ((0 : Int) + (j : Int)).toNat = j := by omega
      rw [e1, e2, hp, hp]
      by_cases h1 : px = i ∧ py = j
      · rw [if_pos h1, h1.1, h1.2, if_neg (by omega), if_pos (by omega)]
      · rw [if_neg h1]
        by_cases h2 : py = j ∧ px < i
        · rw [if_pos h2, if_pos (by omega)]
        · rw [if_neg h2, if_neg (by omega)]

/-- C5: for a component name among `"red"`, `"green"`, `"blue"` and a value in `0..255`,
`rgbfilter` keeps the headers and turns every pixel of the image into the same pixel with
the named channel set to the value: the two other channels are the ones it had. -/
theorem rgbfilter_sets_channel (bmp : BMP) (hwf : bmp.wf) (component : String) (value : Int)
    (hc : component = "red" ∨ component = "green" ∨ component = "blue")
    (hv : 0 ≤ value ∧ value ≤ 255) :
    (rgbfilter bmp component value).bmih = bmp.bmih
      ∧ (rgbfilter bmp component value).bmfh = bmp.bmfh
      ∧ ∀ px py, getPixel (rgbfilter bmp component value).img px py
          = (getPixel bmp.img px py).map (fun p =>
              ({ b := if component = "blue" then value.toNat else p.b
                 g := if component = "green" then value.toNat else p.g
                 r := if component = "red" then value.toNat else p.r } : RGB)) := by
  obtain ⟨out, ho, hf, hp⟩ := mapRows_loop bmp hwf (setChannel component value)
  rw [rgbfilter_eq_modify bmp component value hc, ho]
  refine ⟨hf.1, hf.2.1, fun px py => ?_⟩
  rw [hp]
  have hu : toU8 value = value.toNat := by
    unfold toU8
    omega
  congr 1
  funext p
  rcases hc with rfl | rfl | rfl <;> simp [setChannel, hu]

/-- Witness for `rgbfilter_sets_channel`: green set to 255 in a 3 x 2 image. -/
theorem rgbfilter_sets_channel_witness :
    (rgbfilter img32 "green" 255).bmih = img32.bmih
      ∧ (rgbfilter img32 "green" 255).bmfh = img32.bmfh
      ∧ ∀ px py, getPixel (rgbfilter img32 "green" 255).img px py
          = (getPixel img32.img px py).map (fun p =>
              ({ b := if "green" = "blue" then (255 : Int).toNat else p.b
                 g := if "green" = "green" then (255 : Int).toNat else p.g
                 r := if "green" = "red" then (255 : Int).toNat else p.r } : RGB)) :=
  rgbfilter_sets_channel img32 (by decide) "green" 255 (Or.inr (Or.inl rfl)) (by decide)

/-! ## Codec round trip -/

theorem getD_lt_256 (l : List Nat) (hb : ∀ b ∈ l, b < 256) (k : Nat) : l.getD k 0 < 256 := by
  rw [List.getD_eq_getElem?_getD]
  rcases h : l[k]? with _ | a
  · simp
  · simpa using hb a (List.getElem?_mem h)

theorem u32_lt (l : List Nat) (hb : ∀ b ∈ l, b < 256) (off : Nat) : u32 l off < 2 ^ 32 := by
  unfold u32
  have h0 := getD_lt_256 l hb off
  have h1 := getD_lt_256 l hb (off + 1)
  have h2 := getD_lt_256 l hb (off + 2)
  have h3 := getD_lt_256 l hb (off + 3)
  rw [show (2 : Nat) ^ 32 = 4294967296 from by norm_num]
  omega

theorem i32_range (l : List Nat) (hb : ∀ b ∈ l, b < 256) (off : Nat) :
    -2 ^ 31 ≤ i32 l off ∧ i32 l off < 2 ^ 31 := by
  have h := u32_lt l hb off
  unfold i32
  norm_num at h ⊢
  split <;> omega

theorem take_drop_merge {α : Type} (l : List α) (a n m : Nat) :
    (l.drop a).take n ++ (l.drop (a + n)).take m = (l.drop a).take (n + m) := by
  rw [List.take_add, List.drop_drop]

theorem drop_take_two (l : List Nat) (off : Nat) (h : off + 2 ≤ l.length) :
    (l.drop off).take 2 = [l.getD off 0, l.getD (off + 1) 0] := by
  have h0 : off < l.length := by omega
  have h1 : off + 1 < l.length := by omega
  rw [List.drop_eq_getElem_cons h0, List.drop_eq_getElem_cons h1]
  simp only [List.take_succ_cons, List.take_zero, List.getD_eq_getElem?_getD,
    List.getElem?_eq_getElem h0, List.getElem?_eq_getElem h1, Option.getD_some]

theorem drop_take_three (l : List Nat) (off : Nat) (h : off + 3 ≤ l.length) :
    (l.drop off).take 3 = [l.getD off 0, l.getD (off + 1) 0, l.getD (off + 2) 0] := by
  have h0 : off < l.length := by omega
  have h1 : off + 1 < l.length := by omega
  have h2 : off + 2 < l.length := by omega
  rw [List.drop_eq_getElem_cons h0, List.drop_eq_getElem_cons h1,
    List.drop_eq_getElem_cons h2]
  simp only [List.take_succ_cons, List.take_zero, List.getD_eq_getElem?_getD,
    List.getElem?_eq_getElem h0, List.getElem?_eq_getElem h1, List.getElem?_eq_getElem h2,
    Option.getD_some]

theorem drop_take_four (l : List Nat) (off : Nat) (h : off + 4 ≤ l.length) :
    (l.drop off).take 4
      = [l.getD off 0, l.getD (off + 1) 0, l.getD (off + 2) 0, l.getD (off + 3) 0] := by
  have h0 : off < l.length := by omega
  have h1 : off + 1 < l.length := by omega
  have h2 : off + 2 < l.length := by omega
  have h3 : off + 3 < l.length := by omega
  rw [List.drop_eq_getElem_cons h0, List.drop_eq_getElem_cons h1,
    List.drop_eq_getElem_cons h2, List.drop_eq_getElem_cons h3]
  simp only [List.take_succ_cons, List.take_zero, List.getD_eq_getElem?_getD,
    List.getElem?_eq_getElem h0, List.getElem?_eq_getElem h1, List.getElem?_eq_getElem h2,
    List.getElem?_eq_getElem h3, Option.getD_some]

theorem bytes16_u16 (l : List Nat) (hb : ∀ b ∈ l, b < 256) (off : Nat)
    (h : off + 2 ≤ l.length) : bytes16 (u16 l off) = (l.drop off).take 2 := by
  rw [drop_take_two l off h]
  have h0 := getD_lt_256 l hb off
  have h1 := getD_lt_256 l hb (off + 1)
  unfold bytes16 u16
  congr 1
  · omega
  · congr 1
    omega

theorem bytes32_of_bytes (a b c d : Nat) (ha : a < 256) (hb : b < 256) (hc : c < 256)
    (hd : d < 256) : bytes32 (a + 256 * b + 65536 * c + 16777216 * d) = [a, b, c, d] := by
  unfold bytes32
  congr 1
  · omega
  · congr 1
    · omega
    · congr 1
      · omega
      · congr 1
        omega

theorem bytes32_u32 (l : List Nat) (hb : ∀ b ∈ l, b < 256) (off : Nat)
    (h : off + 4 ≤ l.length) : bytes32 (u32 l off) = (l.drop off).take 4 := by
  rw [drop_take_four l off h]
  exact bytes32_of_bytes _ _ _ _ (getD_lt_256 l hb off) (getD_lt_256 l hb (off + 1))
    (getD_lt_256 l hb (off + 2)) (getD_lt_256 l hb (off + 3))

theorem bytesI32_i32 (l : List Nat) (hb : ∀ b ∈ l, b < 256) (off : Nat)
    (h : off + 4 ≤ l.length) : bytesI32 (i32 l off) = (l.drop off).take 4 := by
  rw [← bytes32_u32 l hb off h]
  unfold bytesI32
  congr 1
  have hu := u32_lt l hb off
  unfold i32
  norm_num at hu ⊢
  split <;> omega

theorem headers_roundtrip (file : List Nat) (hb : ∀ b ∈ file, b < 256)
    (hlen : 54 ≤ file.length) :
    fileHeaderBytes (readFileHeader file) ++ infoHeaderBytes (readInfoHeader file)
      = file.take 54 := by
  unfold fileHeaderBytes infoHeaderBytes readFileHeader readInfoHeader
  simp only
  rw [bytes16_u16 file hb 0 (by omega), bytes32_u32 file hb 2 (by omega),
    bytes16_u16 file hb 6 (by omega), bytes16_u16 file hb 8 (by omega),
    bytes32_u32 file hb 10 (by omega), bytes32_u32 file hb 14 (by omega),
    bytesI32_i32 file hb 18 (by omega), bytesI32_i32 file hb 22 (by omega),
    bytes16_u16 file hb 26 (by omega), bytes16_u16 file hb 28 (by omega),
    bytes32_u32 file hb 30 (by omega), bytes32_u32 file hb 34 (by omega),
    bytesI32_i32 file hb 38 (by omega), bytesI32_i32 file hb 42 (by omega),
    bytes32_u32 file hb 46 (by omega), bytes32_u32 file hb 50 (by omega)]
  simp only [List.append_assoc]
  rw [take_drop_merge file 46 4 4, take_drop_merge file 42 4 8, take_drop_merge file 38 4 12,
    take_drop_merge file 34 4 16, take_drop_merge file 30 4 20, take_drop_merge file 28 2 24,
    take_drop_merge file 26 2 26, take_drop_merge file 22 4 28, take_drop_merge file 18 4 32,
    take_drop_merge file 14 4 36, take_drop_merge file 10 4 40, take_drop_merge file 8 2 44,
    take_drop_merge file 6 2 46, take_drop_merge file 2 4 48, take_drop_merge file 0 2 52]
  rfl

theorem rowPixels_bytes (chunk : List Nat) (w : Nat) (h : 3 * w ≤ chunk.length) :
    ((rowPixels chunk w).map (fun p => [p.b, p.g, p.r])).flatten = chunk.take (3 * w) := by
  induction w with
  | zero => simp [rowPixels]
  | succ n ih =>
    have ih2 := ih (by omega)
    unfold rowPixels at ih2 ⊢
    rw [List.range_succ, List.map_append, List.map_append, List.flatten_append, ih2]
    have e : 3 * (n + 1) = 3 * n + 3 := by ring
    rw [e, List.take_add, drop_take_three chunk (3 * n) (by omega)]
    simp

theorem rowBytes_roundtrip (chunk : List Nat) (w rp : Nat) (h : 3 * w ≤ rp)
    (hlen : chunk.length = rp) :
    rowBytes (rowPixels chunk w) (chunk.drop (3 * w)) rp = chunk := by
  unfold rowBytes
  simp only
  rw [rowPixels_bytes chunk w (by omega), List.take_append_drop, hlen, Nat.sub_self,
    ← hlen, List.take_length]
  simp

theorem fileRows_flatten (file : List Nat) (rp n : Nat) :
    ((List.range n).map (fun i => fileRow file rp i)).flatten
      = (file.drop 54).take (n * rp) := by
  induction n with
  | zero => simp
  | succ m ih =>
    rw [List.range_succ, List.map_append, List.flatten_append, ih]
    unfold fileRow
    have e : (m + 1) * rp = m * rp + rp := by ring
    rw [e, ← take_drop_merge]
    simp

theorem rowPadded_bounds (w : Nat) (h : w < 2 ^ 31) :
    3 * w ≤ rowPadded w ∧ rowPadded w < 2 ^ 63 := by
  unfold rowPadded
  norm_num at h ⊢
  rw [Nat.mod_eq_of_lt (by omega)]
  omega

theorem readBMP_wellformed (file : List Nat) (hb : ∀ b ∈ file, b < 256)
    (hmagic : u16 file 0 = 0x4D42) (hh : 0 ≤ i32 file 22) (hw : 0 ≤ i32 file 18) :
    readBMP file = ReadResult.image
      { bmfh := readFileHeader file
        bmih := readInfoHeader file
        img := (List.range (i32 file 22).toNat).map (fun k =>
          rowPixels (fileRow file (rowPadded (i32 file 18).toNat) ((i32 file 22).toNat - 1 - k))
            (i32 file 18).toNat)
        pad := (List.range (i32 file 22).toNat).map (fun k =>
          (fileRow file (rowPadded (i32 file 18).toNat) ((i32 file 22).toNat - 1 - k)).drop
            (3 * (i32 file 18).toNat)) } := by
  have hhr := i32_range file hb 22
  have hwr := i32_range file hb 18
  have eh : toSizeT (i32 file 22) = (i32 file 22).toNat := by
    unfold toSizeT
    norm_num at hhr ⊢
    omega
  have ew : toSizeT (i32 file 18) = (i32 file 18).toNat := by
    unfold toSizeT
    norm_num at hwr ⊢
    omega
  have hrp := rowPadded_bounds (i32 file 18).toNat (by norm_num at hwr ⊢; omega)
  have hm1 : mallocOk ((i32 file 22).toNat * 8 % 2 ^ 64) = true := by
    unfold mallocOk
    norm_num at hhr ⊢
    omega
  have hm2 : mallocOk (rowPadded (i32 file 18).toNat) = true := by
    unfold mallocOk
    simpa using hrp.2
  unfold readBMP
  simp only [readFileHeader, readInfoHeader, hmagic, eh, ew, hm1, hm2]
  simp

/-- C1: for a file of bytes that starts with the signature `BM`, declares a positive width
and a positive height, and consists of the two headers followed by `height` rows of
`row_padded` bytes, `readBMP` returns an image and `writeBMP` of that image is the file,
byte for byte. Bit depth and compression flag play no part. -/
theorem writeBMP_readBMP (file : List Nat) (hb : ∀ b ∈ file, b < 256)
    (hmagic : u16 file 0 = 0x4D42) (hw : 0 < i32 file 18) (hh : 0 < i32 file 22)
    (hlen : file.length = 54 + (i32 file 22).toNat * rowPadded (i32 file 18).toNat) :
    ∃ bmp, readBMP file = ReadResult.image bmp ∧ writeBMP bmp = file := by
  refine ⟨_, readBMP_wellformed file hb hmagic (by omega) (by omega), ?_⟩
  have hhr := i32_range file hb 22
  have hwr := i32_range file hb 18
  have eh : toSizeT (i32 file 22) = (i32 file 22).toNat := by
    unfold toSizeT
    norm_num at hhr ⊢
    omega
  have ew : toSizeT (i32 file 18) = (i32 file 18).toNat := by
    unfold toSizeT
    norm_num at hwr ⊢
    omega
  have hrp := rowPadded_bounds (i32 file 18).toNat (by norm_num at hwr ⊢; omega)
  unfold writeBMP
  simp only
  have e1 : (readInfoHeader file).biHeight = i32 file 22 := rfl
  have e2 : (readInfoHeader file).biWidth = i32 file 18 := rfl
  rw [e1, e2, eh, ew, headers_roundtrip file hb (by omega)]
  generalize hH : (i32 file 22).toNat = H at *
  generalize hW : (i32 file 18).toNat = W at *
  have hrows : (List.range H).map (fun i =>
      rowBytes (((List.range H).map (fun k =>
          rowPixels (fileRow file (rowPadded W) (H - 1 - k)) W)).getD (H - 1 - i) [])
        (((List.range H).map (fun k =>
          (fileRow file (rowPadded W) (H - 1 - k)).drop (3 * W))).getD (H - 1 - i) [])
        (rowPadded W))
      = (List.range H).map (fun i => fileRow file (rowPadded W) i) := by
    apply List.map_congr_left
    intro i hi
    have hi2 : i < H := List.mem_range.mp hi
    have hk : H - 1 - i < H := by omega
    have hki : H - 1 - (H - 1 - i) = i := by omega
    simp only [List.getD_eq_getElem?_getD, List.getElem?_map, List.getElem?_range hk,
      Option.map_some', Option.getD_some, hki]
    apply rowBytes_roundtrip _ _ _ hrp.1
    unfold fileRow
    rw [List.length_take, List.length_drop]
    have : i * rowPadded W + rowPadded W ≤ H * rowPadded W := by
      calc i * rowPadded W + rowPadded W = (i + 1) * rowPadded W := by ring
        _ ≤ H * rowPadded W := Nat.mul_le_mul_right _ hi2
    omega
  rw [hrows, fileRows_flatten]
  have : (file.drop 54).take (H * rowPadded W) = file.drop 54 := by
    apply List.take_of_length_le
    rw [List.length_drop]
    omega
  rw [this, List.take_append_drop]

/-- Witness for `writeBMP_readBMP`: the 2 x 2 file `sampleFile`. -/
theorem writeBMP_readBMP_witness :
    ∃ bmp, readBMP sampleFile = ReadResult.image bmp ∧ writeBMP bmp = sampleFile :=
  writeBMP_readBMP sampleFile (by decide) (by decide) (by decide) (by decide) (by decide)

/-! ## Straight lines -/

theorem paint_append (bmp : BMP) (a b : List (Int × Int)) (col : RGB) :
    paint bmp (a ++ b) col = paint (paint bmp a col) b col := by
  unfold paint
  rw [List.foldl_append]

theorem paint_sameFrame (bmp : BMP) (pts : List (Int × Int)) (col : RGB) :
    SameFrame (paint bmp pts col) bmp :=
  foldl_setPixel_sameFrame pts (fun p => p.1) (fun p => p.2) (fun _ => col) bmp

theorem getPixel_paint (bmp : BMP) (hwf : bmp.wf) (pts : List (Int × Int)) (col : RGB)
    (px py : Nat) :
    getPixel (paint bmp pts col).img px py
      = if ((px : Int), (py : Int)) ∈ pts ∧ (px : Int) < bmp.bmih.biWidth
            ∧ (py : Int) < bmp.bmih.biHeight
        then some col else getPixel bmp.img px py := by
  by_cases hm : ((px : Int), (py : Int)) ∈ pts
  · by_cases hin : (px : Int) < bmp.bmih.biWidth ∧ (py : Int) < bmp.bmih.biHeight
    · rw [if_pos ⟨hm, hin⟩]
      exact foldl_setPixel_hit pts (fun p => p.1) (fun p => p.2) (fun _ => col) bmp hwf px py
        col hin.1 hin.2 ⟨_, hm, rfl, rfl⟩ (fun _ _ _ _ => rfl)
    · rw [if_neg (fun h => hin h.2)]
      have hf := paint_sameFrame bmp pts col
      rw [bmp.wf_getPixel_none hwf px py (by omega)]
      apply BMP.wf_getPixel_none _ (hf.2.2.2 hwf)
      rw [hf.1]
      omega
  · rw [if_neg (fun h => hm h.1)]
    apply foldl_setPixel_frame pts (fun p => p.1) (fun p => p.2) (fun _ => col)
    intro k hk hkp
    apply hm
    have : k = ((px : Int), (py : Int)) := Prod.ext hkp.1 hkp.2
    rw [← this]
    exact hk

theorem mem_linePts (x1 y1 dx dy : Int) (n : Nat) (p : Int × Int) :
    p ∈ linePts x1 y1 dx dy n
      ↔ ∃ k : Nat, k ≤ n ∧ p.1 = x1 + (k : Int) * dx ∧ p.2 = y1 + (k : Int) * dy := by
  unfold linePts
  simp only [List.mem_map, List.mem_cons, List.mem_range]
  constructor
  · rintro ⟨k, hk, rfl⟩
    exact ⟨k, by omega, rfl, rfl⟩
  · rintro ⟨k, hk, h1, h2⟩
    exact ⟨k, by omega, Prod.ext h1.symm h2.symm⟩

theorem drawLineLoop_uniform (deltaX deltaY signX signY x2 y2 : Int) (col : RGB)
    (e dx dy : Int)
    (hdx : dx = if e * 2 > -deltaY then signX else 0)
    (hdy : dy = if e * 2 < deltaX then signY else 0)
    (he : (if e * 2 < deltaX then (if e * 2 > -deltaY then e - deltaY else e) + deltaX
            else (if e * 2 > -deltaY then e - deltaY else e)) = e)
    (hx3 : dx = -1 ∨ dx = 0 ∨ dx = 1) (hy3 : dy = -1 ∨ dy = 0 ∨ dy = 1)
    (hne : dx ≠ 0 ∨ dy ≠ 0)
    (n : Nat) (fuel : Nat) (hf : n ≤ fuel) (bmp : BMP) (x1 y1 : Int)
    (hx : x2 = x1 + (n : Int) * dx) (hy : y2 = y1 + (n : Int) * dy) :
    drawLineLoop deltaX deltaY signX signY x2 y2 col fuel bmp x1 y1 e
      = some (paint bmp ((List.range n).map (fun (k : Nat) =>
          (x1 + (k : Int) * dx, y1 + (k : Int) * dy))) col) := by
  induction n generalizing fuel bmp x1 y1 with
  | zero =>
    have h1 : x1 = x2 := by rw [hx]; simp
    have h2 : y1 = y2 := by rw [hy]; simp
    cases fuel <;> simp [drawLineLoop, h1, h2, paint]
  | succ m ih =>
    obtain ⟨fuel', rfl⟩ : ∃ f, fuel = f + 1 := ⟨fuel - 1, by omega⟩
    have hcond : x1 ≠ x2 ∨ y1 ≠ y2 := by
      rw [hx, hy]
      push_cast
      rcases hx3 with h | h | h <;> rcases hy3 with h' | h' | h' <;> subst h <;> subst h' <;>
        simp at hne ⊢ <;> omega
    rw [drawLineLoop, if_pos hcond]
    simp only
    have ex : (if e * 2 > -deltaY then x1 + signX else x1) = x1 + dx := by
      rw [hdx]; split <;> simp
    have ey : (if e * 2 < deltaX then y1 + signY else y1) = y1 + dy := by
      rw [hdy]; split <;> simp
    rw [ex, ey, he]
    rw [ih fuel' (by omega) (setPixel bmp x1 y1 col) (x1 + dx) (y1 + dy)
      (by rw [hx]; push_cast; ring) (by rw [hy]; push_cast; ring)]
    congr 1
    unfold paint
    rw [List.range_succ_eq_map, List.map_cons, List.foldl_cons, List.map_map]
    simp only [Nat.cast_zero, zero_mul, add_zero]
    congr 1
    apply List.map_congr_left
    intro k _
    simp only [Function.comp, Nat.succ_eq_add_one]
    push_cast
    apply Prod.ext <;> simp only <;> ring

theorem drawLine_straight (bmp : BMP) (x1 y1 dx dy : Int) (n : Nat) (col : RGB)
    (hx3 : dx = -1 ∨ dx = 0 ∨ dx = 1) (hy3 : dy = -1 ∨ dy = 0 ∨ dy = 1)
    (hne : dx ≠ 0 ∨ dy ≠ 0) :
    drawLine bmp x1 y1 (x1 + (n : Int) * dx) (y1 + (n : Int) * dy) col
      = some (paint bmp (linePts x1 y1 dx dy n) col) := by
  rcases Nat.eq_zero_or_pos n with h0 | hpos
  · subst h0
    simp [drawLine, drawLineLoop, linePts, paint]
  unfold drawLine
  simp only
  have hn : (0 : Int) < n := by exact_mod_cast hpos
  have hax : |x1 + (n : Int) * dx - x1| = (n : Int) * |dx| := by
    rw [add_sub_cancel_left, abs_mul, Nat.abs_cast]
  have hay : |y1 + (n : Int) * dy - y1| = (n : Int) * |dy| := by
    rw [add_sub_cancel_left, abs_mul, Nat.abs_cast]
  rw [hax, hay]
  rw [drawLineLoop_uniform _ _ _ _ _ _ col _ dx dy ?_ ?_ ?_ hx3 hy3 hne n _ ?_ _ x1 y1 rfl rfl]
  · unfold linePts paint
    rw [List.map_cons, List.foldl_cons]
  · rcases hx3 with h | h | h <;> rcases hy3 with h' | h' | h' <;> subst h <;> subst h' <;>
      simp at hne ⊢ <;> (try split_ifs) <;> omega
  · rcases hx3 with h | h | h <;> rcases hy3 with h' | h' | h' <;> subst h <;> subst h' <;>
      simp at hne ⊢ <;> (try split_ifs) <;> omega
  · rcases hx3 with h | h | h <;> rcases hy3 with h' | h' | h' <;> subst h <;> subst h' <;>
      simp at hne ⊢ <;> (try split_ifs) <;> omega
  · rcases hx3 with h | h | h <;> rcases hy3 with h' | h' | h' <;> subst h <;> subst h' <;>
      simp at hne ⊢

theorem drawLine_right (bmp : BMP) (x1 y1 : Int) (m : Nat) (col : RGB) :
    drawLine bmp x1 y1 (x1 + m) y1 col = some (paint bmp (linePts x1 y1 1 0 m) col) := by
  have h := drawLine_straight bmp x1 y1 1 0 m col (by decide) (by decide) (by decide)
  simpa using h

theorem drawLine_down (bmp : BMP) (x1 y1 : Int) (m : Nat) (col : RGB) :
    drawLine bmp x1 y1 x1 (y1 + m) col = some (paint bmp (linePts x1 y1 0 1 m) col) := by
  have h := drawLine_straight bmp x1 y1 0 1 m col (by decide) (by decide) (by decide)
  simpa using h

theorem drawLine_diag (bmp : BMP) (x1 y1 : Int) (m : Nat) (col : RGB) :
    drawLine bmp x1 y1 (x1 + m) (y1 + m) col = some (paint bmp (linePts x1 y1 1 1 m) col) := by
  have h := drawLine_straight bmp x1 y1 1 1 m col (by decide) (by decide) (by decide)
  simpa using h

theorem drawLine_anti (bmp : BMP) (x0 y1 : Int) (m : Nat) (col : RGB) :
    drawLine bmp (x0 + m) y1 x0 (y1 + m) col
      = some (paint bmp (linePts (x0 + m) y1 (-1) 1 m) col) := by
  have h := drawLine_straight bmp (x0 + m) y1 (-1) 1 m col (by decide) (by decide) (by decide)
  have e : x0 + (m : Int) + (m : Int) * (-1) = x0 := by ring
  rw [e] at h
  simpa using h

theorem mem_squareLines (x y : Int) (m : Nat) (px py : Int) :
    (px, py) ∈ squareLines x y m
      ↔ (x ≤ px ∧ px ≤ x + m ∧ y ≤ py ∧ py ≤ y + m)
        ∧ (py = y ∨ py = y + m ∨ px = x ∨ px = x + m ∨ py - y = px - x
            ∨ (py - y) + (px - x) = m) := by
  unfold squareLines
  simp only [List.mem_append, mem_linePts]
  constructor
  · rintro (((((⟨k, hk, h1, h2⟩ | ⟨k, hk, h1, h2⟩) | ⟨k, hk, h1, h2⟩) | ⟨k, hk, h1, h2⟩)
      | ⟨k, hk, h1, h2⟩) | ⟨k, hk, h1, h2⟩) <;> omega
  · rintro ⟨hb, h | h | h | h | h | h⟩
    · exact Or.inl (Or.inl (Or.inl (Or.inl (Or.inl
        ⟨(px - x).toNat, by omega, by omega, by omega⟩))))
    · exact Or.inl (Or.inl (Or.inl (Or.inl (Or.inr
        ⟨(px - x).toNat, by omega, by omega, by omega⟩))))
    · exact Or.inl (Or.inl (Or.inl (Or.inr
        ⟨(py - y).toNat, by omega, by omega, by omega⟩)))
    · exact Or.inl (Or.inl (Or.inr
        ⟨(py - y).toNat, by omega, by omega, by omega⟩))
    · exact Or.inl (Or.inr
        ⟨(px - x).toNat, by omega, by omega, by omega⟩)
    · exact Or.inr
        ⟨(py - y).toNat, by omega, by omega, by omega⟩

theorem draw_square_eq (bmp : BMP) (x y : Int) (m : Nat) (color : RGB) (fill : Int)
    (fill_color : RGB) :
    draw_square bmp x y (m + 1) 1 color fill fill_color
      = some (paint
          (if fill ≠ 0 then paint bmp (grid y (y + (m + 1)) x (x + (m + 1))) fill_color else bmp)
          (squareLines x y m) color) := by
  have h0 : Int.tdiv (-1) 2 = 0 := by decide
  have h1 : Int.tdiv 1 2 = 0 := by decide
  have e : ∀ a : Int, a + ((m : Int) + 1) - 1 = a + m := fun a => by ring
  unfold draw_square draw_thick_odd_line
  simp only [h0, h1, forRangeM_one, if_pos, add_zero, sub_zero, e]
  rw [forRange_nested]
  rw [drawLine_right]
  simp only [Option.bind_eq_bind, Option.some_bind]
  rw [drawLine_right]
  simp only [Option.some_bind]
  rw [drawLine_down]
  simp only [Option.some_bind]
  rw [drawLine_down]
  simp only [Option.some_bind]
  rw [drawLine_diag]
  simp only [Option.some_bind]
  rw [drawLine_anti]
  unfold squareLines
  simp only [paint_append]
  rfl

theorem draw_square_pixels (bmp : BMP) (hwf : bmp.wf) (x y : Int) (m : Nat) (color : RGB)
    (fill : Int) (fill_color : RGB) :
    ∃ out, draw_square bmp x y (m + 1) 1 color fill fill_color = some out
      ∧ SameFrame out bmp
      ∧ ∀ px py : Nat, getPixel out.img px py =
          if ((px : Int), (py : Int)) ∈ squareLines x y m ∧ (px : Int) < bmp.bmih.biWidth
              ∧ (py : Int) < bmp.bmih.biHeight
          then some color
          else if fill ≠ 0 ∧ ((px : Int), (py : Int)) ∈ grid y (y + (m + 1)) x (x + (m + 1))
              ∧ (px : Int) < bmp.bmih.biWidth ∧ (py : Int) < bmp.bmih.biHeight
          then some fill_color
          else getPixel bmp.img px py := by
  refine ⟨_, draw_square_eq bmp x y m color fill fill_color, ?_, ?_⟩
  · by_cases hf : fill ≠ 0
    · rw [if_pos hf]
      exact (paint_sameFrame _ _ _).trans (paint_sameFrame _ _ _)
    · rw [if_neg hf]
      exact paint_sameFrame _ _ _
  · intro px py
    by_cases hf : fill ≠ 0
    · simp only [if_pos hf]
      have hf0 := paint_sameFrame bmp (grid y (y + (m + 1)) x (x + (m + 1))) fill_color
      rw [getPixel_paint _ (hf0.2.2.2 hwf), hf0.1, getPixel_paint _ hwf]
      simp only [hf, ne_eq, not_false_eq_true, true_and]
    · simp only [if_neg hf]
      rw [getPixel_paint _ hwf]
      simp only [hf, false_and, if_false]

/-- C6: for a square of side `size >= 1` inside the image, `draw_square` with thickness 1
returns an image with the same headers in which the pixel at `(x + c, y + r)` of the square
has the line colour when `r = 0`, `r = size - 1`, `c = 0`, `c = size - 1`, `r = c` or
`r + c = size - 1`, and otherwise the fill colour when `fill` is set and its old value when
it is not; every pixel outside the square is unchanged. -/
theorem draw_square_thickness_one (bmp : BMP) (hwf : bmp.wf) (x y size : Int)
    (color : RGB) (fill : Int) (fill_color : RGB)
    (hsize : 1 ≤ size) (hx : 0 ≤ x) (hy : 0 ≤ y)
    (hxr : x + size ≤ bmp.bmih.biWidth) (hyb : y + size ≤ bmp.bmih.biHeight) :
    ∃ out, draw_square bmp x y size 1 color fill fill_color = some out
      ∧ out.bmih = bmp.bmih ∧ out.bmfh = bmp.bmfh
      ∧ (∀ r c : Nat, (r : Int) < size → (c : Int) < size →
          getPixel out.img (x + c).toNat (y + r).toNat =
            if (r : Int) = 0 ∨ (r : Int) = size - 1 ∨ (c : Int) = 0 ∨ (c : Int) = size - 1
                ∨ (r : Int) = c ∨ (r : Int) + c = size - 1
            then some color
            else if fill ≠ 0 then some fill_color
            else getPixel bmp.img (x + c).toNat (y + r).toNat)
      ∧ (∀ px py : Nat,
          ¬ (x ≤ px ∧ (px : Int) < x + size ∧ y ≤ py ∧ (py : Int) < y + size) →
          getPixel out.img px py = getPixel bmp.img px py) := by
  obtain ⟨m, rfl⟩ : ∃ m : Nat, size = (m : Int) + 1 := ⟨(size - 1).toNat, by omega⟩
  obtain ⟨out, ho, hf, hp⟩ := draw_square_pixels bmp hwf x y m color fill fill_color
  refine ⟨out, ho, hf.1, hf.2.1, ?_, ?_⟩
  · intro r c hr hc
    rw [hp]
    have e1 : (((x + c).toNat : Nat) : Int) = x + c := by omega
    have e2 : (((y + r).toNat : Nat) : Int) = y + r := by omega
    rw [e1, e2]
    by_cases hline : (r : Int) = 0 ∨ (r : Int) = (m : Int) + 1 - 1 ∨ (c : Int) = 0
        ∨ (c : Int) = (m : Int) + 1 - 1 ∨ (r : Int) = c ∨ (r : Int) + c = (m : Int) + 1 - 1
    · rw [if_pos hline, if_pos]
      refine ⟨(mem_squareLines x y m _ _).mpr ⟨by omega, by omega⟩, by omega, by omega⟩
    · rw [if_neg hline, if_neg]
      · by_cases hfill : fill ≠ 0
        · rw [if_pos hfill, if_pos]
          refine ⟨hfill, (mem_grid _ _ _ _ _).mpr ?_, by omega, by omega⟩
          simp only
          omega
        · rw [if_neg hfill, if_neg (fun h => hfill h.1)]
      · rintro ⟨hmem, _⟩
        have := (mem_squareLines x y m _ _).mp hmem
        omega
  · intro px py hout
    rw [hp, if_neg, if_neg]
    · rintro ⟨_, hmem, _⟩
      have := (mem_grid _ _ _ _ _).mp hmem
      simp only at this
      omega
    · rintro ⟨hmem, _⟩
      have := (mem_squareLines x y m _ _).mp hmem
      omega

/-- Witness for `draw_square_thickness_one`: a 4 x 4 black image, `x = 0`, `y = 0`,
`size = 4`, no fill, line colour red. -/
theorem draw_square_thickness_one_witness :
    ∃ out, draw_square black44 0 0 4 1 red 0 red = some out
      ∧ out.bmih = black44.bmih ∧ out.bmfh = black44.bmfh
      ∧ (∀ r c : Nat, (r : Int) < 4 → (c : Int) < 4 →
          getPixel out.img ((0 : Int) + c).toNat ((0 : Int) + r).toNat =
            if (r : Int) = 0 ∨ (r : Int) = 4 - 1 ∨ (c : Int) = 0 ∨ (c : Int) = 4 - 1
                ∨ (r : Int) = c ∨ (r : Int) + c = 4 - 1
            then some red
            else if (0 : Int) ≠ 0 then some red
            else getPixel black44.img ((0 : Int) + c).toNat ((0 : Int) + r).toNat)
      ∧ (∀ px py : Nat,
          ¬ ((0 : Int) ≤ px ∧ (px : Int) < 0 + 4 ∧ (0 : Int) ≤ py ∧ (py : Int) < 0 + 4) →
          getPixel out.img px py = getPixel black44.img px py) :=
  draw_square_thickness_one black44 (by decide) 0 0 4 red 0 red (by decide) (by decide)
    (by decide) (by decide) (by decide)

/-! ## Loops whose body may fail -/

theorem forRangeM_eq_forRange {σ : Type} (P : σ → Prop) (lo hi : Int)
    (body : σ → Int → Option σ) (g : σ → Int → σ) (s : σ) (hs : P s)
    (hstep : ∀ t i, P t → lo ≤ i → i < hi → body t i = some (g t i) ∧ P (g t i)) :
    forRangeM lo hi body s = some (forRange lo hi g s) ∧ P (forRange lo hi g s) := by
  unfold forRangeM forRange
  have key : ∀ n : Nat, n ≤ (hi - lo).toNat →
      (List.range n).foldl (fun (acc : Option σ) (k : Nat) =>
          acc.bind (fun st => body st (lo + (k : Int)))) (some s)
        = some ((List.range n).foldl (fun t (k : Nat) => g t (lo + (k : Int))) s)
      ∧ P ((List.range n).foldl (fun t (k : Nat) => g t (lo + (k : Int))) s) := by
    intro n
    induction n with
    | zero => intro _; exact ⟨rfl, hs⟩
    | succ m ih =>
      intro hm
      obtain ⟨h1, h2⟩ := ih (by omega)
      rw [List.range_succ, List.foldl_append, List.foldl_append, h1]
      obtain ⟨h3, h4⟩ := hstep _ (lo + (m : Int)) h2 (by omega) (by omega)
      exact ⟨by simpa using h3, by simpa using h4⟩
  exact key _ (le_refl _)

theorem forRange_congr {σ : Type} (P : σ → Prop) (lo hi : Int) (f g : σ → Int → σ) (s : σ)
    (hs : P s) (hstep : ∀ t i, P t → lo ≤ i → i < hi → f t i = g t i ∧ P (g t i)) :
    forRange lo hi f s = forRange lo hi g s ∧ P (forRange lo hi g s) := by
  have h := forRangeM_eq_forRange P lo hi (fun t i => some (f t i)) g s hs
    (fun t i hp h1 h2 => ⟨congrArg some (hstep t i hp h1 h2).1, (hstep t i hp h1 h2).2⟩)
  have h' := forRangeM_eq_forRange (fun _ => True) lo hi (fun t i => some (f t i)) f s trivial
    (fun t i _ _ _ => ⟨rfl, trivial⟩)
  rw [h'.1] at h
  exact ⟨Option.some.inj h.1, h.2⟩

theorem forRange_sameFrame (bmp : BMP) (lo hi : Int) (g : BMP → Int → BMP) (s : BMP)
    (hs : SameFrame s bmp) (hg : ∀ t i, SameFrame (g t i) t) :
    SameFrame (forRange lo hi g s) bmp :=
  (forRange_congr (fun t => SameFrame t bmp) lo hi g g s hs
    (fun t i hp _ _ => ⟨rfl, (hg t i).trans hp⟩)).2

theorem dims_getPixel {img : List (List RGB)} {h w : Nat} (hd : Dims img h w) (x y : Nat)
    (hx : x < w) (hy : y < h) : ∃ p, getPixel img x y = some p := by
  have hy2 : y < img.length := by rw [hd.1]; exact hy
  have hlen := hd.2 _ (List.getElem_mem hy2)
  have hx2 : x < img[y].length := by rw [hlen]; exact hx
  refine ⟨img[y][x], ?_⟩
  rw [getPixel_of_row _ _ _ _ (List.getElem?_eq_getElem hy2), List.getElem?_eq_getElem hx2]

theorem dims_getPixel_none {img : List (List RGB)} {h w : Nat} (hd : Dims img h w) (x y : Nat)
    (hout : w ≤ x ∨ h ≤ y) : getPixel img x y = none := by
  unfold getPixel
  rcases hrow : img[y]? with _ | row
  · rfl
  · have hlen := hd.2 row (List.getElem?_mem hrow)
    have hy : y < img.length := by
      by_contra hcon
      rw [List.getElem?_eq_none (by omega)] at hrow
      cases hrow
    have := hd.1
    simp only
    apply List.getElem?_eq_none
    omega

theorem dims_writePx {img : List (List RGB)} {h w : Nat} (hd : Dims img h w) (x y : Nat)
    (c : RGB) : Dims (writePx img x y c) h w :=
  ⟨by rw [writePx_length]; exact hd.1, writePx_rows _ _ _ _ _ hd.2⟩

theorem dims_tabulate (n m : Nat) (f : Nat → Nat → RGB) : Dims (tabulate n m f) n m := by
  unfold tabulate
  refine ⟨by simp, ?_⟩
  intro row hrow
  obtain ⟨j, _, rfl⟩ := List.mem_map.mp hrow
  simp

theorem BMP.wf_dims (bmp : BMP) (h : bmp.wf) :
    Dims bmp.img bmp.bmih.biHeight.toNat bmp.bmih.biWidth.toNat :=
  ⟨h.2.2.1, h.2.2.2⟩

theorem dims_ext {a b : List (List RGB)} {h w : Nat} (ha : Dims a h w) (hb : Dims b h w)
    (hp : ∀ x y, x < w → y < h → getPixel a x y = getPixel b x y) : a = b := by
  apply img_ext _ _ (ha.1.trans hb.1.symm)
  intro x y
  by_cases hin : x < w ∧ y < h
  · exact hp x y hin.1 hin.2
  · rw [dims_getPixel_none ha x y (by omega), dims_getPixel_none hb x y (by omega)]

theorem writeChecked_dims {img : List (List RGB)} {h w : Nat} (hd : Dims img h w) (x y : Int)
    (v : RGB) (hx0 : 0 ≤ x) (hx : x < w) (hy0 : 0 ≤ y) (hy : y < h) :
    writeChecked img x y v = some (writePx img x.toNat y.toNat v) := by
  unfold writeChecked
  rw [if_pos ⟨hx0, hy0⟩]
  obtain ⟨p, hp⟩ := dims_getPixel hd x.toNat y.toNat (by omega) (by omega)
  rw [hp]

theorem foldl_writePx_dims {κ : Type} (l : List κ) (tx ty : κ → Nat) (col : κ → RGB)
    (img : List (List RGB)) (h w : Nat) (hd : Dims img h w) :
    Dims (l.foldl (fun b k => writePx b (tx k) (ty k) (col k)) img) h w := by
  induction l generalizing img with
  | nil => exact hd
  | cons k rest ih => exact ih _ (dims_writePx hd _ _ _)

theorem foldl_writePx_frame {κ : Type} (l : List κ) (tx ty : κ → Nat) (col : κ → RGB)
    (img : List (List RGB)) (px py : Nat) (h : ∀ k ∈ l, ¬ (tx k = px ∧ ty k = py)) :
    getPixel (l.foldl (fun b k => writePx b (tx k) (ty k) (col k)) img) px py
      = getPixel img px py := by
  induction l generalizing img with
  | nil => rfl
  | cons k rest ih =>
    rw [List.foldl_cons, ih _ (fun k hk => h k (List.mem_cons_of_mem _ hk))]
    apply getPixel_writePx_ne
    have := h k (List.mem_cons_self _ _)
    omega

theorem foldl_writePx_hit {κ : Type} (l : List κ) (tx ty : κ → Nat) (col : κ → RGB)
    (img : List (List RGB)) (h w : Nat) (hd : Dims img h w) (px py : Nat) (c : RGB)
    (hx : px < w) (hy : py < h)
    (hex : ∃ k ∈ l, tx k = px ∧ ty k = py)
    (hall : ∀ k ∈ l, tx k = px → ty k = py → col k = c) :
    getPixel (l.foldl (fun b k => writePx b (tx k) (ty k) (col k)) img) px py = some c := by
  induction l generalizing img with
  | nil =>
    obtain ⟨k, hk, _⟩ := hex
    cases hk
  | cons k rest ih =>
    rw [List.foldl_cons]
    by_cases hrest : ∃ k' ∈ rest, tx k' = px ∧ ty k' = py
    · exact ih _ (dims_writePx hd _ _ _) hrest (fun k' hk' => hall k' (List.mem_cons_of_mem _ hk'))
    · have hk : tx k = px ∧ ty k = py := by
        obtain ⟨k', hk', ht⟩ := hex
        rcases List.mem_cons.mp hk' with e | hm
        · rw [← e]; exact ht
        · exact absurd ⟨k', hm, ht⟩ hrest
      rw [foldl_writePx_frame _ _ _ _ _ _ _ (fun k' hk' ht => hrest ⟨k', hk', ht⟩)]
      rw [hk.1, hk.2, hall k (List.mem_cons_self _ _) hk.1 hk.2]
      obtain ⟨p, hp⟩ := dims_getPixel hd px py hx hy
      exact getPixel_writePx_self _ _ _ _ _ hp

/-- The scatter loop of `shift` with destination column `X j` and destination row `Y i`:
when `X` and `Y` map the extents into themselves, the loop stores every cell it visits. -/
theorem scatter_eq (src new0 : List (List RGB)) (H W : Int) (X Y : Int → Int)
    (hd : Dims new0 H.toNat W.toNat)
    (hX : ∀ j, 0 ≤ j → j < W → 0 ≤ X j ∧ X j < W)
    (hY : ∀ i, 0 ≤ i → i < H → 0 ≤ Y i ∧ Y i < H) :
    forRangeM 0 H (fun new i =>
        forRangeM 0 W (fun new j =>
          writeChecked new (X j) (Y i) (readPx src j.toNat i.toNat)) new) new0
      = some ((grid 0 H 0 W).foldl (fun b p =>
          writePx b (X p.1).toNat (Y p.2).toNat (readPx src p.1.toNat p.2.toNat)) new0) := by
  have hn := forRange_nested 0 H 0 W
    (fun b x y => writePx b (X x).toNat (Y y).toNat (readPx src x.toNat y.toNat)) new0
  refine Eq.trans ?_ (congrArg some hn)
  refine (forRangeM_eq_forRange (fun b => Dims b H.toNat W.toNat) _ _ _ _ _ hd ?_).1
  intro b i hb hi0 hi1
  have inner := forRangeM_eq_forRange (fun b => Dims b H.toNat W.toNat) 0 W
    (fun new j => writeChecked new (X j) (Y i) (readPx src j.toNat i.toNat))
    (fun b j => writePx b (X j).toNat (Y i).toNat (readPx src j.toNat i.toNat)) b hb ?_
  · exact inner
  · intro t j ht hj0 hj1
    have h1 := hX j hj0 hj1
    have h2 := hY i hi0 hi1
    exact ⟨writeChecked_dims ht _ _ _ h1.1 (by omega) h2.1 (by omega), dims_writePx ht _ _ _⟩

theorem scatter_pixels (src new0 : List (List RGB)) (H W : Int) (X Y : Int → Int)
    (hd : Dims new0 H.toNat W.toNat)
    (hX : ∀ j, 0 ≤ j → j < W → 0 ≤ X j ∧ X j < W)
    (hY : ∀ i, 0 ≤ i → i < H → 0 ≤ Y i ∧ Y i < H)
    (hXi : ∀ j j', 0 ≤ j → j < W → 0 ≤ j' → j' < W → X j = X j' → j = j')
    (hYi : ∀ i i', 0 ≤ i → i < H → 0 ≤ i' → i' < H → Y i = Y i' → i = i') :
    ∃ out, forRangeM 0 H (fun new i =>
        forRangeM 0 W (fun new j =>
          writeChecked new (X j) (Y i) (readPx src j.toNat i.toNat)) new) new0 = some out
      ∧ Dims out H.toNat W.toNat
      ∧ ∀ i j : Nat, (i : Int) < H → (j : Int) < W →
          getPixel out (X j).toNat (Y i).toNat = some (readPx src j i) := by
  refine ⟨_, scatter_eq src new0 H W X Y hd hX hY, foldl_writePx_dims _ _ _ _ _ _ _ hd, ?_⟩
  intro i j hi hj
  have h1 := hX j (by omega) hj
  have h2 := hY i (by omega) hi
  apply foldl_writePx_hit _ _ _ _ _ _ _ hd _ _ _ (by omega) (by omega)
  · exact ⟨((j : Int), (i : Int)), (mem_grid _ _ _ _ _).mpr (by simp only; omega), rfl, rfl⟩
  · intro k hk hk1 hk2
    have hk3 := (mem_grid _ _ _ _ _).mp hk
    have h3 := hX k.1 (by omega) (by omega)
    have h4 := hY k.2 (by omega) (by omega)
    have e1 : k.1 = j := hXi _ _ (by omega) (by omega) (by omega) hj (by omega)
    have e2 : k.2 = i := hYi _ _ (by omega) (by omega) (by omega) hi (by omega)
    rw [e1, e2]
    simp

theorem getPixel_tabulate (n m : Nat) (f : Nat → Nat → RGB) (i j : Nat) (hj : j < n)
    (hi : i < m) : getPixel (tabulate n m f) i j = some (f j i) := by
  unfold getPixel tabulate
  simp [List.getElem?_range, hj, hi]

/-! ## Diagonal mirror -/

theorem tabulateM_some (n m : Nat) (f : Nat → Nat → Option RGB) (g : Nat → Nat → RGB)
    (h : ∀ i j, i < n → j < m → f i j = some (g i j)) :
    tabulateM n m f = some (tabulate n m g) := by
  unfold tabulateM tabulate
  apply allSome_map_some
  intro i hi
  apply allSome_map_some
  intro j hj
  exact h i j (List.mem_range.mp hi) (List.mem_range.mp hj)

theorem readChecked_wf (bmp : BMP) (hwf : bmp.wf) (x y : Int) (hx0 : 0 ≤ x)
    (hx : x < bmp.bmih.biWidth) (hy0 : 0 ≤ y) (hy : y < bmp.bmih.biHeight) :
    readChecked bmp.img x y = some (readPx bmp.img x.toNat y.toNat) := by
  unfold readChecked
  rw [if_pos ⟨hx0, hy0⟩]
  exact bmp.wf_getPixel hwf _ _ (by omega) (by omega)

theorem writeChecked_wf (b : BMP) (hwf : b.wf) (x y : Int) (v : RGB) (hx0 : 0 ≤ x)
    (hx : x < b.bmih.biWidth) (hy0 : 0 ≤ y) (hy : y < b.bmih.biHeight) :
    (writeChecked b.img x y v).map (fun img => { b with img := img }) = some (setPixel b x y v) := by
  rw [writeChecked_dims (b.wf_dims hwf) x y v hx0 (by omega) hy0 (by omega)]
  unfold setPixel
  simp only [Option.map_some']
  rw [if_pos (by omega)]

theorem diag_mirror_pixels (bmp : BMP) (hwf : bmp.wf) (left_x left_y right_x right_y n : Int)
    (hn : n = min (right_x - left_x) (right_y - left_y))
    (hlx : 0 ≤ left_x) (hly : 0 ≤ left_y) (hn0 : 0 ≤ n)
    (hrx : left_x + n ≤ bmp.bmih.biWidth) (hry : left_y + n ≤ bmp.bmih.biHeight) :
    ∃ out, diag_mirror bmp left_x left_y right_x right_y = some out
      ∧ SameFrame out bmp
      ∧ ∀ px py : Nat, getPixel out.img px py =
          if left_x ≤ px ∧ (px : Int) < left_x + n ∧ left_y ≤ py ∧ (py : Int) < left_y + n
          then getPixel bmp.img (left_x + (py - left_y)).toNat (left_y + (px - left_x)).toNat
          else getPixel bmp.img px py := by
  obtain ⟨b1, hr, hf1, hp1⟩ := rotate_90_square bmp hwf left_x left_y n hlx hly hn0 hrx hry
  have hw1 := hf1.2.2.2 hwf
  have hd : (if right_x - left_x > right_y - left_y then right_y - left_y
      else right_x - left_x) = n := by
    rw [hn]
    split <;> omega
  have hnew : tabulateM n.toNat n.toNat (fun i j =>
      readChecked b1.img (left_x + j) (left_y + n - i - 1))
      = some (tabulate n.toNat n.toNat (fun i j =>
          readPx b1.img (left_x + j).toNat (left_y + n - i - 1).toNat)) := by
    apply tabulateM_some
    intro i j hi hj
    exact readChecked_wf b1 hw1 _ _ (by omega) (by rw [hf1.1]; omega) (by omega)
      (by rw [hf1.1]; omega)
  have hn2 := forRange_nested left_y (left_y + n) left_x (left_x + n)
    (fun b x y => setPixel b x y (readPx (tabulate n.toNat n.toNat (fun i j =>
      readPx b1.img (left_x + j).toNat (left_y + n - i - 1).toNat))
      (x - left_x).toNat (y - left_y).toNat)) b1
  have hloop : forRangeM left_y (left_y + n) (fun b i =>
      forRangeM left_x (left_x + n) (fun b j =>
        (writeChecked b.img j i (readPx (tabulate n.toNat n.toNat (fun i j =>
          readPx b1.img (left_x + j).toNat (left_y + n - i - 1).toNat))
          (j - left_x).toNat (i - left_y).toNat)).map (fun img => { b with img := img })) b) b1
      = some ((grid left_y (left_y + n) left_x (left_x + n)).foldl (fun b p =>
          setPixel b p.1 p.2 (readPx (tabulate n.toNat n.toNat (fun i j =>
            readPx b1.img (left_x + j).toNat (left_y + n - i - 1).toNat))
            (p.1 - left_x).toNat (p.2 - left_y).toNat)) b1) := by
    refine Eq.trans ?_ (congrArg some hn2)
    refine (forRangeM_eq_forRange (fun b => b.bmih = bmp.bmih ∧ b.wf) _ _ _ _ _
      ⟨hf1.1, hw1⟩ ?_).1
    intro b i hb hi0 hi1
    refine forRangeM_eq_forRange (fun b => b.bmih = bmp.bmih ∧ b.wf) _ _ _ _ b hb ?_
    intro t j ht hj0 hj1
    beta_reduce
    refine ⟨writeChecked_wf t ht.2 j i _ (by omega) (by rw [ht.1]; omega) (by omega)
      (by rw [ht.1]; omega), ?_, setPixel_wf _ _ _ _ ht.2⟩
    rw [setPixel_bmih]
    exact ht.1
  refine ⟨(grid left_y (left_y + n) left_x (left_x + n)).foldl (fun b p =>
      setPixel b p.1 p.2 (readPx (tabulate n.toNat n.toNat (fun i j =>
        readPx b1.img (left_x + j).toNat (left_y + n - i - 1).toNat))
        (p.1 - left_x).toNat (p.2 - left_y).toNat)) b1, ?_, ?_, ?_⟩
  rotate_left
  · exact (foldl_setPixel_sameFrame _ _ _ _ _).trans hf1
  rotate_left
  · unfold diag_mirror
    simp only [hd]
    rw [if_neg (by omega), hr]
    simp only [Option.bind_eq_bind, Option.some_bind]
    have e : ∀ (i j : Nat), left_y + n - (i : Int) - 1 = left_y + n - i - 1 := fun _ _ => rfl
    rw [hnew]
    simp only [Option.some_bind]
    exact hloop
  · intro px py
    by_cases hin : left_x ≤ px ∧ (px : Int) < left_x + n ∧ left_y ≤ py ∧ (py : Int) < left_y + n
    · rw [if_pos hin]
      have hsrc := bmp.wf_getPixel hwf (left_x + (py - left_y)).toNat
        (left_y + (px - left_x)).toNat (by omega) (by omega)
      rw [hsrc]
      apply foldl_setPixel_hit _ _ _ _ _ hw1
      · rw [hf1.1]; omega
      · rw [hf1.1]; omega
      · exact ⟨((px : Int), (py : Int)), (mem_grid _ _ _ _ _).mpr (by simp only; omega),
          rfl, rfl⟩
      · intro k hk h1 h2
        rw [h1, h2, readPx_tabulate _ _ _ _ _ (by omega) (by omega)]
        have hq := hp1 (left_x + ((px : Int) - left_x).toNat).toNat
          (left_y + n - ((py : Int) - left_y).toNat - 1).toNat
        rw [if_pos (by omega)] at hq
        have hq2 := b1.wf_getPixel hw1 (left_x + ((px : Int) - left_x).toNat).toNat
          (left_y + n - ((py : Int) - left_y).toNat - 1).toNat (by rw [hf1.1]; omega)
          (by rw [hf1.1]; omega)
        rw [hq2] at hq
        have hsrc2 : getPixel bmp.img
            (left_x + n - 1 - (((left_y + n - (((py : Int) - left_y).toNat : Int) - 1).toNat : Int)
              - left_y)).toNat
            (left_y + (((left_x + (((px : Int) - left_x).toNat : Int)).toNat : Int) - left_x)).toNat
            = getPixel bmp.img (left_x + (py - left_y)).toNat (left_y + (px - left_x)).toNat := by
          congr 1 <;> omega
        rw [hsrc2, hsrc] at hq
        exact Option.some.inj hq
    · rw [if_neg hin, foldl_setPixel_frame, hp1, if_neg hin]
      intro k hk hkp
      have hk2 := (mem_grid _ _ _ _ _).mp hk
      apply hin
      omega

/-- C17: for a region inside the image, with `n` the smaller of its two extents,
`diag_mirror` returns an image with the same headers in which the pixel at
`(left_x + c, left_y + r)`, `r, c < n`, is the original pixel at `(left_x + r, left_y + c)`
and every pixel outside that square is unchanged; applied again it gives back the original
image. -/
theorem diag_mirror_reflects (bmp : BMP) (hwf : bmp.wf) (left_x left_y right_x right_y : Int)
    (hlx : 0 ≤ left_x) (hx : left_x < right_x) (hrx : right_x ≤ bmp.bmih.biWidth)
    (hly : 0 ≤ left_y) (hy : left_y < right_y) (hry : right_y ≤ bmp.bmih.biHeight) :
    ∃ out, diag_mirror bmp left_x left_y right_x right_y = some out
      ∧ out.bmih = bmp.bmih ∧ out.bmfh = bmp.bmfh
      ∧ (∀ r c : Nat, (r : Int) < min (right_x - left_x) (right_y - left_y) →
          (c : Int) < min (right_x - left_x) (right_y - left_y) →
          getPixel out.img (left_x + c).toNat (left_y + r).toNat
            = getPixel bmp.img (left_x + r).toNat (left_y + c).toNat)
      ∧ (∀ px py : Nat,
          ¬ (left_x ≤ px ∧ (px : Int) < left_x + min (right_x - left_x) (right_y - left_y)
              ∧ left_y ≤ py
              ∧ (py : Int) < left_y + min (right_x - left_x) (right_y - left_y)) →
          getPixel out.img px py = getPixel bmp.img px py)
      ∧ diag_mirror out left_x left_y right_x right_y = some bmp := by
  obtain ⟨n, hn⟩ : ∃ n, n = min (right_x - left_x) (right_y - left_y) := ⟨_, rfl⟩
  have hn0 : 0 ≤ n := by rw [hn]; omega
  have hnx : left_x + n ≤ bmp.bmih.biWidth := by rw [hn]; omega
  have hny : left_y + n ≤ bmp.bmih.biHeight := by rw [hn]; omega
  obtain ⟨out, ho, hf, hp⟩ := diag_mirror_pixels bmp hwf left_x left_y right_x right_y n hn
    hlx hly hn0 hnx hny
  have hwo := hf.2.2.2 hwf
  obtain ⟨back, hb, hfb, hpb⟩ := diag_mirror_pixels out hwo left_x left_y right_x right_y n hn
    hlx hly hn0 (by rw [hf.1]; exact hnx) (by rw [hf.1]; exact hny)
  rw [← hn]
  refine ⟨out, ho, hf.1, hf.2.1, ?_, ?_, ?_⟩
  · intro r c hr hc
    rw [hp, if_pos (by omega)]
    congr 1 <;> omega
  · intro px py hout
    rw [hp, if_neg hout]
  · rw [hb]
    congr 1
    apply BMP.eq_of_sameFrame _ _ (hfb.trans hf) hwf
    intro px py
    rw [hpb]
    by_cases hin : left_x ≤ px ∧ (px : Int) < left_x + n ∧ left_y ≤ py ∧ (py : Int) < left_y + n
    · rw [if_pos hin, hp, if_pos (by omega)]
      congr 1 <;> omega
    · rw [if_neg hin, hp, if_neg hin]

/-- Witness for `diag_mirror_reflects`: the region `(0,0)-(3,2)` of a 3 x 3 image. -/
theorem diag_mirror_reflects_witness :
    ∃ out, diag_mirror img33 0 0 3 2 = some out
      ∧ out.bmih = img33.bmih ∧ out.bmfh = img33.bmfh
      ∧ (∀ r c : Nat, (r : Int) < min ((3 : Int) - 0) (2 - 0) →
          (c : Int) < min ((3 : Int) - 0) (2 - 0) →
          getPixel out.img ((0 : Int) + c).toNat ((0 : Int) + r).toNat
            = getPixel img33.img ((0 : Int) + r).toNat ((0 : Int) + c).toNat)
      ∧ (∀ px py : Nat,
          ¬ ((0 : Int) ≤ px ∧ (px : Int) < 0 + min ((3 : Int) - 0) (2 - 0)
              ∧ (0 : Int) ≤ py
              ∧ (py : Int) < 0 + min ((3 : Int) - 0) (2 - 0)) →
          getPixel out.img px py = getPixel img33.img px py)
      ∧ diag_mirror out 0 0 3 2 = some img33 :=
  diag_mirror_reflects img33 (by decide) 0 0 3 2 (by decide) (by decide) (by decide)
    (by decide) (by decide) (by decide)

/-! ## Compression -/

theorem toInt32_of_range (v : Int) (h0 : -2147483648 ≤ v) (h1 : v ≤ 2147483647) :
    toInt32 v = v := by
  unfold toInt32
  simp only [show (2 : Int) ^ 31 = 2147483648 from by norm_num,
    show (2 : Int) ^ 32 = 4294967296 from by norm_num]
  omega

theorem toInt32_idem (v : Int) : toInt32 (toInt32 v) = toInt32 v := by
  unfold toInt32
  simp only [show (2 : Int) ^ 31 = 2147483648 from by norm_num,
    show (2 : Int) ^ 32 = 4294967296 from by norm_num]
  omega

theorem toInt32_add (a b : Int) : toInt32 (toInt32 a + b) = toInt32 (a + b) := by
  unfold toInt32
  simp only [show (2 : Int) ^ 31 = 2147483648 from by norm_num,
    show (2 : Int) ^ 32 = 4294967296 from by norm_num]
  omega

theorem toInt32_zero : toInt32 0 = 0 :=
  toInt32_of_range 0 (by norm_num) (by norm_num)

theorem forRange_sum3w (lo hi : Int) (f1 f2 f3 : Int → Int) (acc : Int × Int × Int)
    (h1 : toInt32 acc.1 = acc.1) (h2 : toInt32 acc.2.1 = acc.2.1)
    (h3 : toInt32 acc.2.2 = acc.2.2) :
    forRange lo hi (fun acc u =>
        (toInt32 (acc.1 + f1 u), toInt32 (acc.2.1 + f2 u), toInt32 (acc.2.2 + f3 u))) acc
      = (toInt32 (acc.1 + ∑ k in Finset.range (hi - lo).toNat, f1 (lo + k)),
         toInt32 (acc.2.1 + ∑ k in Finset.range (hi - lo).toNat, f2 (lo + k)),
         toInt32 (acc.2.2 + ∑ k in Finset.range (hi - lo).toNat, f3 (lo + k))) := by
  apply forRange_induct lo hi _ acc (fun k s =>
    s = (toInt32 (acc.1 + ∑ t in Finset.range k, f1 (lo + t)),
         toInt32 (acc.2.1 + ∑ t in Finset.range k, f2 (lo + t)),
         toInt32 (acc.2.2 + ∑ t in Finset.range k, f3 (lo + t))))
  · simp [h1, h2, h3]
  · intro k t _ ht
    rw [ht]
    simp only [Finset.sum_range_succ, toInt32_add, add_assoc]

theorem blockSums_eq (bmp : BMP) (hwf : bmp.wf) (n i j : Nat)
    (hi : ((i * n + n : Nat) : Int) ≤ bmp.bmih.biHeight)
    (hj : ((j * n + n : Nat) : Int) ≤ bmp.bmih.biWidth) :
    blockSums bmp n i j
      = some (toInt32 (blockSum bmp.img n i j (fun p => p.r) : Int),
          toInt32 (blockSum bmp.img n i j (fun p => p.g) : Int),
          toInt32 (blockSum bmp.img n i j (fun p => p.b) : Int)) := by
  have e1 : ((n : Int) * i + n - i * n).toNat = n := by
    have : (n : Int) * i + n - i * n = n := by ring
    rw [this]; simp
  have e2 : ((n : Int) * j + n - j * n).toNat = n := by
    have : (n : Int) * j + n - j * n = n := by ring
    rw [this]; simp
  have e5 : ((i : Int) * n) = ((i * n : Nat) : Int) := by push_cast; ring
  have e6 : ((j : Int) * n) = ((j * n : Nat) : Int) := by push_cast; ring
  have e3 : (n : Int) * i + n = ((i * n + n : Nat) : Int) := by push_cast; ring
  have e4 : (n : Int) * j + n = ((j * n + n : Nat) : Int) := by push_cast; ring
  unfold blockSums
  have inner : ∀ (acc : Int × Int × Int) (h : Int),
      (toInt32 acc.1 = acc.1 ∧ toInt32 acc.2.1 = acc.2.1 ∧ toInt32 acc.2.2 = acc.2.2) →
      (i : Int) * n ≤ h → h < (n : Int) * i + n →
      forRangeM ((j : Int) * n) ((n : Int) * j + n) (fun acc u =>
        (readChecked bmp.img u h).map (fun p =>
          (toInt32 (acc.1 + (p.r : Int)), toInt32 (acc.2.1 + (p.g : Int)),
            toInt32 (acc.2.2 + (p.b : Int))))) acc
      = some
        (toInt32 (acc.1 + ∑ b in Finset.range n,
            ((readPx bmp.img (j * n + b) h.toNat).r : Int)),
         toInt32 (acc.2.1 + ∑ b in Finset.range n,
            ((readPx bmp.img (j * n + b) h.toNat).g : Int)),
         toInt32 (acc.2.2 + ∑ b in Finset.range n,
            ((readPx bmp.img (j * n + b) h.toNat).b : Int))) := by
    intro acc h hacc hh0 hh1
    have step := (forRangeM_eq_forRange (fun _ => True) ((j : Int) * n) ((n : Int) * j + n)
      (fun acc u =>
        (readChecked bmp.img u h).map (fun p =>
          (toInt32 (acc.1 + (p.r : Int)), toInt32 (acc.2.1 + (p.g : Int)),
            toInt32 (acc.2.2 + (p.b : Int)))))
      (fun acc u =>
          (toInt32 (acc.1 + ((readPx bmp.img u.toNat h.toNat).r : Int)),
           toInt32 (acc.2.1 + ((readPx bmp.img u.toNat h.toNat).g : Int)),
           toInt32 (acc.2.2 + ((readPx bmp.img u.toNat h.toNat).b : Int))))
      acc trivial (by
        intro t u _ hu0 hu1
        refine ⟨?_, trivial⟩
        beta_reduce
        rw [readChecked_wf bmp hwf u h (by omega) (by omega) (by omega) (by omega)]
        rfl)).1
    rw [step, forRange_sum3w _ _ _ _ _ acc hacc.1 hacc.2.1 hacc.2.2, e2]
    have e7 : ∀ (b : Nat), ((j : Int) * n + b).toNat = j * n + b := by
      intro b
      rw [e6]
      omega
    simp only [e7]
  have outer := forRangeM_eq_forRange
    (fun acc : Int × Int × Int =>
      toInt32 acc.1 = acc.1 ∧ toInt32 acc.2.1 = acc.2.1 ∧ toInt32 acc.2.2 = acc.2.2)
    ((i : Int) * n) ((n : Int) * i + n)
    (fun acc h => forRangeM ((j : Int) * n) ((n : Int) * j + n) (fun acc u =>
        (readChecked bmp.img u h).map (fun p =>
          (toInt32 (acc.1 + (p.r : Int)), toInt32 (acc.2.1 + (p.g : Int)),
            toInt32 (acc.2.2 + (p.b : Int))))) acc)
    (fun acc h =>
        (toInt32 (acc.1 + ∑ b in Finset.range n,
            ((readPx bmp.img (j * n + b) h.toNat).r : Int)),
         toInt32 (acc.2.1 + ∑ b in Finset.range n,
            ((readPx bmp.img (j * n + b) h.toNat).g : Int)),
         toInt32 (acc.2.2 + ∑ b in Finset.range n,
            ((readPx bmp.img (j * n + b) h.toNat).b : Int))))
    (0, 0, 0) ⟨toInt32_zero, toInt32_zero, toInt32_zero⟩
    (fun t h ht h0 h1 => ⟨inner t h ht h0 h1, toInt32_idem _, toInt32_idem _, toInt32_idem _⟩)
  rw [outer.1]
  refine congrArg some ?_
  rw [forRange_sum3w _ _ _ _ _ (0, 0, 0) toInt32_zero toInt32_zero toInt32_zero, e1]
  have e8 : ∀ (a : Nat), ((i : Int) * n + a).toNat = i * n + a := by
    intro a
    rw [e5]
    omega
  simp only [zero_add, blockSum, Nat.cast_sum, e8]

theorem readPx_isByte (bmp : BMP) (hb : bmp.bytes) (x y : Nat) :
    RGB.isByte (readPx bmp.img x y) := by
  rw [readPx_eq_getD]
  rcases h : getPixel bmp.img x y with _ | p
  · exact ⟨by decide, by decide, by decide⟩
  · obtain ⟨row, hrow, hp⟩ := getPixel_mem _ _ _ _ h
    exact hb row hrow p hp

theorem blockSum_le (img : List (List RGB)) (n i j : Nat) (ch : RGB → Nat)
    (h : ∀ x y, ch (readPx img x y) ≤ 255) : blockSum img n i j ch ≤ n * n * 255 := by
  unfold blockSum
  calc ∑ a in Finset.range n, ∑ b in Finset.range n, ch (readPx img (j * n + b) (i * n + a))
      ≤ ∑ a in Finset.range n, ∑ b in Finset.range n, 255 :=
        Finset.sum_le_sum (fun a _ => Finset.sum_le_sum (fun b _ => h _ _))
    _ = n * n * 255 := by simp [mul_assoc]

theorem toU8_div (s n : Nat) (hn : 0 < n) (hs : s ≤ n * n * 255) :
    toU8 (Int.tdiv (s : Int) ((n : Int) * n)) = s / (n * n) := by
  have hnn : 0 < n * n := Nat.mul_pos hn hn
  have hq : s / (n * n) ≤ 255 := by
    apply Nat.div_le_of_le_mul
    exact hs
  rw [Int.tdiv_eq_ediv (by omega) (by positivity)]
  have e : (s : Int) / ((n : Int) * n) = ((s / (n * n) : Nat) : Int) := by
    push_cast
    rfl
  rw [e]
  unfold toU8
  generalize s / (n * n) = q at hq
  omega

/-- The result of `compress` for a factor `n >= 1` whose square is not zero as an `int`:
the sums and the divisor are reduced to the range of `int`. -/
theorem compress_wrap (bmp : BMP) (hwf : bmp.wf) (n : Nat) (hn : 0 < n)
    (hnn : toInt32 ((n : Int) * n) ≠ 0) :
    compress bmp n = some
      { bmp with
        bmih := { bmp.bmih with
          biHeight := bmp.bmih.biHeight / n
          biWidth := bmp.bmih.biWidth / n
          biSizeImage := toSizeT (bmp.bmih.biHeight / n)
            * rowPadded (toSizeT (bmp.bmih.biWidth / n)) % 2 ^ 64 % 2 ^ 32 }
        img := tabulate (bmp.bmih.biHeight / n).toNat (bmp.bmih.biWidth / n).toNat (fun i j =>
          { b := toU8 (Int.tdiv (toInt32 (blockSum bmp.img n i j (fun p => p.b) : Int))
              (toInt32 ((n : Int) * n)))
            g := toU8 (Int.tdiv (toInt32 (blockSum bmp.img n i j (fun p => p.g) : Int))
              (toInt32 ((n : Int) * n)))
            r := toU8 (Int.tdiv (toInt32 (blockSum bmp.img n i j (fun p => p.r) : Int))
              (toInt32 ((n : Int) * n))) })
        pad := [] } := by
  have hW0 := hwf.1
  have hH0 := hwf.2.1
  have hnI : (0 : Int) < n := by exact_mod_cast hn
  have ew : Int.tdiv bmp.bmih.biWidth n = bmp.bmih.biWidth / n :=
    Int.tdiv_eq_ediv hW0 (by omega)
  have eh : Int.tdiv bmp.bmih.biHeight n = bmp.bmih.biHeight / n :=
    Int.tdiv_eq_ediv hH0 (by omega)
  have hho : 0 ≤ bmp.bmih.biHeight / n := Int.ediv_nonneg hH0 (by omega)
  have hwo : 0 ≤ bmp.bmih.biWidth / n := Int.ediv_nonneg hW0 (by omega)
  unfold compress
  simp only [ew, eh]
  rw [if_neg (by omega), if_neg (by omega)]
  rw [tabulateM_some _ _ _ (fun i j =>
      ({ b := toU8 (Int.tdiv (toInt32 (blockSum bmp.img n i j (fun p => p.b) : Int))
          (toInt32 ((n : Int) * n)))
         g := toU8 (Int.tdiv (toInt32 (blockSum bmp.img n i j (fun p => p.g) : Int))
          (toInt32 ((n : Int) * n)))
         r := toU8 (Int.tdiv (toInt32 (blockSum bmp.img n i j (fun p => p.r) : Int))
          (toInt32 ((n : Int) * n))) } : RGB))]
  · rfl
  · intro i j hi hj
    have hi2 : ((i * n + n : Nat) : Int) ≤ bmp.bmih.biHeight := by
      have h1 : ((i + 1 : Nat) : Int) ≤ bmp.bmih.biHeight / n := by omega
      have h2 := Int.mul_le_mul_of_nonneg_right h1 (le_of_lt hnI)
      have h3 := Int.ediv_mul_le bmp.bmih.biHeight (show (n : Int) ≠ 0 by omega)
      push_cast at h2 ⊢
      nlinarith
    have hj2 : ((j * n + n : Nat) : Int) ≤ bmp.bmih.biWidth := by
      have h1 : ((j + 1 : Nat) : Int) ≤ bmp.bmih.biWidth / n := by omega
      have h2 := Int.mul_le_mul_of_nonneg_right h1 (le_of_lt hnI)
      have h3 := Int.ediv_mul_le bmp.bmih.biWidth (show (n : Int) ≠ 0 by omega)
      push_cast at h2 ⊢
      nlinarith
    rw [blockSums_eq bmp hwf n i j hi2 hj2]
    simp only [Option.some_bind, if_neg hnn]

/-- The result of `compress` for a factor `n >= 1` with `255 * n * n` in the range of
`int`: no sum leaves that range. -/
theorem compress_spec (bmp : BMP) (hwf : bmp.wf) (hb : bmp.bytes) (n : Nat) (hn : 0 < n)
    (hov : 255 * n * n ≤ 2147483647) :
    compress bmp n = some
      { bmp with
        bmih := { bmp.bmih with
          biHeight := bmp.bmih.biHeight / n
          biWidth := bmp.bmih.biWidth / n
          biSizeImage := toSizeT (bmp.bmih.biHeight / n)
            * rowPadded (toSizeT (bmp.bmih.biWidth / n)) % 2 ^ 64 % 2 ^ 32 }
        img := tabulate (bmp.bmih.biHeight / n).toNat (bmp.bmih.biWidth / n).toNat (fun i j =>
          { b := blockSum bmp.img n i j (fun p => p.b) / (n * n)
            g := blockSum bmp.img n i j (fun p => p.g) / (n * n)
            r := blockSum bmp.img n i j (fun p => p.r) / (n * n) })
        pad := [] } := by
  have hnn1 : 0 < n * n := Nat.mul_pos hn hn
  have hnn2 : n * n ≤ 2147483647 := by nlinarith
  have enn : toInt32 ((n : Int) * n) = (n : Int) * n := by
    apply toInt32_of_range
    · have : (0 : Int) ≤ (n : Int) * n := by positivity
      omega
    · exact_mod_cast hnn2
  have hsum : ∀ (s : Nat), s ≤ n * n * 255 →
      toU8 (Int.tdiv (toInt32 (s : Int)) (toInt32 ((n : Int) * n))) = s / (n * n) := by
    intro s hs
    have hs2 : s ≤ 2147483647 := by nlinarith
    rw [enn, toInt32_of_range _ (by omega) (by exact_mod_cast hs2), toU8_div s n hn hs]
  rw [compress_wrap bmp hwf n hn (by rw [enn]; exact_mod_cast (Nat.pos_iff_ne_zero.mp hnn1))]
  have hfun : (fun (i j : Nat) =>
      ({ b := toU8 (Int.tdiv (toInt32 (blockSum bmp.img n i j (fun p => p.b) : Int))
          (toInt32 ((n : Int) * n)))
         g := toU8 (Int.tdiv (toInt32 (blockSum bmp.img n i j (fun p => p.g) : Int))
          (toInt32 ((n : Int) * n)))
         r := toU8 (Int.tdiv (toInt32 (blockSum bmp.img n i j (fun p => p.r) : Int))
          (toInt32 ((n : Int) * n))) } : RGB))
      = (fun i j =>
        { b := blockSum bmp.img n i j (fun p => p.b) / (n * n)
          g := blockSum bmp.img n i j (fun p => p.g) / (n * n)
          r := blockSum bmp.img n i j (fun p => p.r) / (n * n) }) := by
    funext i j
    rw [hsum _ (blockSum_le _ _ _ _ _ (fun x y => by
        have := (readPx_isByte bmp hb x y).1; omega)),
      hsum _ (blockSum_le _ _ _ _ _ (fun x y => by
        have := (readPx_isByte bmp hb x y).2.1; omega)),
      hsum _ (blockSum_le _ _ _ _ _ (fun x y => by
        have := (readPx_isByte bmp hb x y).2.2; omega))]
  rw [hfun]

theorem sizeImage_eq (h w : Int) (h0 : 0 ≤ h) (h31 : h < 2 ^ 31) (w0 : 0 ≤ w)
    (w31 : w < 2 ^ 31) :
    toSizeT h * rowPadded (toSizeT w) % 2 ^ 64 % 2 ^ 32
      = h.toNat * rowPadded w.toNat % 2 ^ 32 := by
  have eh : toSizeT h = h.toNat := by
    unfold toSizeT
    norm_num at h31 ⊢
    omega
  have ew : toSizeT w = w.toNat := by
    unfold toSizeT
    norm_num at w31 ⊢
    omega
  rw [eh, ew]
  have p31 : (2 : Int) ^ 31 = 2147483648 := by norm_num
  rw [p31] at h31 w31
  have hrp2 : rowPadded w.toNat < 2 ^ 33 := by
    unfold rowPadded
    rw [show (2 : Nat) ^ 64 = 18446744073709551616 from by norm_num,
      show (2 : Nat) ^ 33 = 8589934592 from by norm_num, Nat.mod_eq_of_lt (by omega)]
    omega
  have hh : h.toNat < 2 ^ 31 := by
    rw [show (2 : Nat) ^ 31 = 2147483648 from by norm_num]
    omega
  have hprod : h.toNat * rowPadded w.toNat < 2 ^ 64 := by
    calc h.toNat * rowPadded w.toNat ≤ (2 ^ 31 - 1) * 2 ^ 33 :=
          Nat.mul_le_mul (Nat.le_sub_one_of_lt hh) (le_of_lt hrp2)
      _ < 2 ^ 64 := by norm_num
  rw [Nat.mod_eq_of_lt hprod]

theorem readPx_replicate (n m : Nat) (p : RGB) (x y : Nat) (hx : x < m) (hy : y < n) :
    readPx (List.replicate n (List.replicate m p)) x y = p := by
  rw [readPx_eq_getD]
  unfold getPixel
  rw [List.getElem?_replicate, if_pos hy]
  simp only
  rw [List.getElem?_replicate, if_pos hx]
  rfl

theorem blockSum_replicate (n m k : Nat) (p : RGB) (ch : RGB → Nat) (hn : k ≤ n)
    (hm : k ≤ m) :
    blockSum (List.replicate n (List.replicate m p)) k 0 0 ch = k * k * ch p := by
  unfold blockSum
  rw [Finset.sum_congr rfl (fun a ha => Finset.sum_congr rfl (fun b hb => by
    rw [readPx_replicate n m p _ _ (by have := Finset.mem_range.mp hb; omega)
      (by have := Finset.mem_range.mp ha; omega)]))]
  simp [mul_assoc]

theorem white2902_wf : white2902.wf := by
  refine ⟨by decide, by decide, ?_, ?_⟩
  · exact List.length_replicate _ _
  · intro row hrow
    rw [List.eq_of_mem_replicate hrow]
    exact List.length_replicate _ _

theorem white2902_bytes : white2902.bytes := by
  intro row hrow p hp
  have h1 : row = List.replicate 2902 (⟨255, 255, 255⟩ : RGB) := List.eq_of_mem_replicate hrow
  rw [h1] at hp
  rw [List.eq_of_mem_replicate hp]
  decide

/-- C15 as stated fails: on the 2902 x 2902 image of white pixels with `N = 2902` the sum
of a channel over the single block is `255 * 2902 * 2902 = 2147509020`, which is not an
`int`; reduced to the range of `int` it is negative, and the cell of the result holds
`2.2.2` where the quotient of the sum by `N * N` is 255. -/
theorem compress_overflow_counterexample :
    white2902.wf ∧ white2902.bytes ∧ (1 : Int) ≤ 2902 ∧ (2902 : Int) ≤ white2902.bmih.biWidth
      ∧ (2902 : Int) ≤ white2902.bmih.biHeight
      ∧ blockSum white2902.img 2902 0 0 (fun p => p.r) / (2902 * 2902) = 255
      ∧ ∃ out, compress white2902 2902 = some out
          ∧ getPixel out.img 0 0 = some ⟨2, 2, 2⟩ := by
  have hs : ∀ ch : RGB → Nat, ch ⟨255, 255, 255⟩ = 255 →
      blockSum white2902.img 2902 0 0 ch = 2147509020 := by
    intro ch hch
    have := blockSum_replicate 2902 2902 2902 ⟨255, 255, 255⟩ ch (le_refl _) (le_refl _)
    rw [hch] at this
    exact this
  have hnn : toInt32 (((2902 : Nat) : Int) * (2902 : Nat)) = 8421604 := by
    apply toInt32_of_range <;> norm_num
  refine ⟨white2902_wf, white2902_bytes, by decide, by decide, by decide, ?_, ?_⟩
  · rw [hs _ rfl]
  · refine ⟨_, compress_wrap white2902 white2902_wf 2902 (by decide) (by rw [hnn]; decide), ?_⟩
    have hd : (white2902.bmih.biHeight / ((2902 : Nat) : Int)).toNat = 1 := by decide
    have hd2 : (white2902.bmih.biWidth / ((2902 : Nat) : Int)).toNat = 1 := by decide
    simp only [hd, hd2]
    rw [getPixel_tabulate _ _ _ 0 0 (by decide) (by decide), hs _ rfl, hs _ rfl, hs _ rfl, hnn]
    have e : toInt32 ((2147509020 : Nat) : Int) = -2147458276 := by
      unfold toInt32
      norm_num
    rw [e]
    decide

/-- C15, amended: for a factor `N` with `1 <= N <= min(width, height)` and
`255 * N * N <= 2147483647` (no channel sum leaves the range of `int`), `compress` returns
(every read being inside the buffer) an image of `height / N` rows by `width / N` columns
whose header holds these extents and, in its 32-bit size field, the new height times the
padded stride of the new width; each channel of cell `(i, j)` is the integer quotient by
`N * N` of the sum of that channel over the source pixels `(h, u)`,
`i * N <= h < i * N + N`, `j * N <= u < j * N + N`. -/
theorem compress_box (bmp : BMP) (hwf : bmp.wf) (hb : bmp.bytes) (N : Int) (hN : 1 ≤ N)
    (hNW : N ≤ bmp.bmih.biWidth) (hNH : N ≤ bmp.bmih.biHeight)
    (hov : 255 * N * N ≤ 2147483647)
    (hW31 : bmp.bmih.biWidth < 2 ^ 31) (hH31 : bmp.bmih.biHeight < 2 ^ 31) :
    ∃ out, compress bmp N = some out
      ∧ out.bmfh = bmp.bmfh
      ∧ out.bmih.biWidth = bmp.bmih.biWidth / N
      ∧ out.bmih.biHeight = bmp.bmih.biHeight / N
      ∧ out.bmih.biSizeImage
          = (bmp.bmih.biHeight / N).toNat * rowPadded (bmp.bmih.biWidth / N).toNat % 2 ^ 32
      ∧ out.wf
      ∧ ∀ i j : Nat, (i : Int) < bmp.bmih.biHeight / N → (j : Int) < bmp.bmih.biWidth / N →
          getPixel out.img j i = some
            { b := blockSum bmp.img N.toNat i j (fun p => p.b) / (N.toNat * N.toNat)
              g := blockSum bmp.img N.toNat i j (fun p => p.g) / (N.toNat * N.toNat)
              r := blockSum bmp.img N.toNat i j (fun p => p.r) / (N.toNat * N.toNat) } := by
  obtain ⟨n, rfl⟩ : ∃ n : Nat, N = n := ⟨N.toNat, by omega⟩
  have hn : 0 < n := by omega
  have hho : 0 ≤ bmp.bmih.biHeight / n := Int.ediv_nonneg hwf.2.1 (by omega)
  have hwo : 0 ≤ bmp.bmih.biWidth / n := Int.ediv_nonneg hwf.1 (by omega)
  have hh31 : bmp.bmih.biHeight / n < 2 ^ 31 :=
    lt_of_le_of_lt (Int.ediv_le_self _ hwf.2.1) hH31
  have hw31 : bmp.bmih.biWidth / n < 2 ^ 31 :=
    lt_of_le_of_lt (Int.ediv_le_self _ hwf.1) hW31
  have hov2 : 255 * n * n ≤ 2147483647 := by exact_mod_cast hov
  refine ⟨_, compress_spec bmp hwf hb n hn hov2, rfl, rfl, rfl, ?_, ?_, ?_⟩
  · exact sizeImage_eq _ _ hho hh31 hwo hw31
  · exact ⟨hwo, hho, (dims_tabulate _ _ _).1, (dims_tabulate _ _ _).2⟩
  · intro i j hi hj
    simp only [Int.toNat_ofNat]
    exact getPixel_tabulate _ _ _ j i (by omega) (by omega)

/-- Witness for `compress_box`: the factor 2 on a 3 x 3 image. -/
theorem compress_box_witness :
    ∃ out, compress img33 2 = some out
      ∧ out.bmfh = img33.bmfh
      ∧ out.bmih.biWidth = img33.bmih.biWidth / 2
      ∧ out.bmih.biHeight = img33.bmih.biHeight / 2
      ∧ out.bmih.biSizeImage
          = (img33.bmih.biHeight / 2).toNat * rowPadded (img33.bmih.biWidth / 2).toNat % 2 ^ 32
      ∧ out.wf
      ∧ ∀ i j : Nat, (i : Int) < img33.bmih.biHeight / 2 → (j : Int) < img33.bmih.biWidth / 2 →
          getPixel out.img j i = some
            { b := blockSum img33.img (2 : Int).toNat i j (fun p => p.b)
                / ((2 : Int).toNat * (2 : Int).toNat)
              g := blockSum img33.img (2 : Int).toNat i j (fun p => p.g)
                / ((2 : Int).toNat * (2 : Int).toNat)
              r := blockSum img33.img (2 : Int).toNat i j (fun p => p.r)
                / ((2 : Int).toNat * (2 : Int).toNat) } :=
  compress_box img33 (by decide) (by decide) 2 (by decide) (by decide) (by decide) (by decide)
    (by decide) (by decide)

/-- C14 as stated fails: the header of `img32` holds the image-data size 0, and `compress`
with factor 1 returns an image whose header holds 24. -/
theorem compress_one_counterexample :
    ∃ out, compress img32 1 = some out ∧ out.bmih.biSizeImage = 24
      ∧ img32.bmih.biSizeImage = 0 ∧ out.bmih ≠ img32.bmih := by
  refine ⟨_, rfl, ?_, ?_, ?_⟩ <;> decide

/-- C14, amended: `compress` with factor 1 returns an image with the same pixel grid, the
same file header and the same info header except for the image-data size, which it sets to
the height times the padded row stride (in the 32-bit field). -/
theorem compress_one (bmp : BMP) (hwf : bmp.wf) (hb : bmp.bytes)
    (hW31 : bmp.bmih.biWidth < 2 ^ 31) (hH31 : bmp.bmih.biHeight < 2 ^ 31) :
    ∃ out, compress bmp 1 = some out
      ∧ out.img = bmp.img
      ∧ out.bmfh = bmp.bmfh
      ∧ out.bmih = { bmp.bmih with
          biSizeImage := bmp.bmih.biHeight.toNat * rowPadded bmp.bmih.biWidth.toNat % 2 ^ 32 } := by
  have h := compress_spec bmp hwf hb 1 (by decide) (by decide)
  simp only [Nat.cast_one, Int.ediv_one, Nat.mul_one, Nat.div_one] at h
  refine ⟨_, h, ?_, rfl, ?_⟩
  · apply dims_ext (dims_tabulate _ _ _) (bmp.wf_dims hwf)
    intro x y hx hy
    rw [getPixel_tabulate _ _ _ x y hy hx, bmp.wf_getPixel hwf x y (by omega) (by omega)]
    simp [blockSum]
  · simp only
    rw [sizeImage_eq _ _ hwf.2.1 hH31 hwf.1 hW31]

/-- Witness for `compress_one`: a 3 x 2 image. -/
theorem compress_one_witness :
    ∃ out, compress img32 1 = some out
      ∧ out.img = img32.img
      ∧ out.bmfh = img32.bmfh
      ∧ out.bmih = { img32.bmih with
          biSizeImage := img32.bmih.biHeight.toNat * rowPadded img32.bmih.biWidth.toNat
            % 2 ^ 32 } :=
  compress_one img32 (by decide) (by decide) (by decide) (by decide)

/-! ## Line symmetry -/

/-- C12 as stated fails: in the 3 x 2 image `img32` the line from `(0,0)` to `(2,1)` plots
the pixel `(1,0)`, the line from `(2,1)` to `(0,0)` does not (it plots `(1,1)`). -/
theorem drawLine_reversed_counterexample :
    ∃ a b, drawLine img32 0 0 2 1 red = some a ∧ drawLine img32 2 1 0 0 red = some b
      ∧ getPixel a.img 1 0 = some red ∧ getPixel b.img 1 0 ≠ some red ∧ a ≠ b := by
  refine ⟨_, _, rfl, rfl, ?_, ?_, ?_⟩ <;> decide

theorem straight_direction (x1 y1 x2 y2 : Int)
    (h : x1 = x2 ∨ y1 = y2 ∨ |x2 - x1| = |y2 - y1|) :
    ∃ (dx dy : Int) (n : Nat), (dx = -1 ∨ dx = 0 ∨ dx = 1) ∧ (dy = -1 ∨ dy = 0 ∨ dy = 1)
      ∧ (dx ≠ 0 ∨ dy ≠ 0) ∧ x2 = x1 + (n : Int) * dx ∧ y2 = y1 + (n : Int) * dy := by
  have habs : x1 = x2 ∨ y1 = y2 ∨ x2 - x1 = y2 - y1 ∨ x2 - x1 = -(y2 - y1) := by
    rcases h with h | h | h
    · exact Or.inl h
    · exact Or.inr (Or.inl h)
    · exact Or.inr (Or.inr (abs_eq_abs.mp h))
  rcases lt_trichotomy x1 x2 with hx | hx | hx <;> rcases lt_trichotomy y1 y2 with hy | hy | hy
  · exact ⟨1, 1, (x2 - x1).toNat, by decide, by decide, by decide, by omega, by omega⟩
  · exact ⟨1, 0, (x2 - x1).toNat, by decide, by decide, by decide, by omega, by omega⟩
  · exact ⟨1, -1, (x2 - x1).toNat, by decide, by decide, by decide, by omega, by omega⟩
  · exact ⟨0, 1, (y2 - y1).toNat, by decide, by decide, by decide, by omega, by omega⟩
  · exact ⟨1, 0, 0, by decide, by decide, by decide, by omega, by omega⟩
  · exact ⟨0, -1, (y1 - y2).toNat, by decide, by decide, by decide, by omega, by omega⟩
  · exact ⟨-1, 1, (x1 - x2).toNat, by decide, by decide, by decide, by omega, by omega⟩
  · exact ⟨-1, 0, (x1 - x2).toNat, by decide, by decide, by decide, by omega, by omega⟩
  · exact ⟨-1, -1, (x1 - x2).toNat, by decide, by decide, by decide, by omega, by omega⟩

theorem linePts_reverse (x1 y1 dx dy : Int) (n : Nat)
    (hx3 : dx = -1 ∨ dx = 0 ∨ dx = 1) (hy3 : dy = -1 ∨ dy = 0 ∨ dy = 1) (p : Int × Int) :
    p ∈ linePts x1 y1 dx dy n
      ↔ p ∈ linePts (x1 + (n : Int) * dx) (y1 + (n : Int) * dy) (-dx) (-dy) n := by
  rw [mem_linePts, mem_linePts]
  constructor
  · rintro ⟨k, hk, h1, h2⟩
    refine ⟨n - k, by omega, ?_, ?_⟩
    · rw [h1]
      rcases hx3 with h | h | h <;> subst h <;> push_cast [hk] <;> omega
    · rw [h2]
      rcases hy3 with h | h | h <;> subst h <;> push_cast [hk] <;> omega
  · rintro ⟨k, hk, h1, h2⟩
    refine ⟨n - k, by omega, ?_, ?_⟩
    · rw [h1]
      rcases hx3 with h | h | h <;> subst h <;> push_cast [hk] <;> omega
    · rw [h2]
      rcases hy3 with h | h | h <;> subst h <;> push_cast [hk] <;> omega

/-- For a horizontal, a vertical or a diagonal segment (`x1 = x2`, `y1 = y2` or
`|x2 - x1| = |y2 - y1|`), `drawLine` from the first endpoint to the second and `drawLine`
from the second to the first both end, and give the same image. -/
theorem drawLine_symmetric_straight (bmp : BMP) (hwf : bmp.wf) (x1 y1 x2 y2 : Int) (col : RGB)
    (h : x1 = x2 ∨ y1 = y2 ∨ |x2 - x1| = |y2 - y1|) :
    ∃ out, drawLine bmp x1 y1 x2 y2 col = some out
      ∧ drawLine bmp x2 y2 x1 y1 col = some out := by
  obtain ⟨dx, dy, n, hx3, hy3, hne, rfl, rfl⟩ := straight_direction x1 y1 x2 y2 h
  refine ⟨_, drawLine_straight bmp x1 y1 dx dy n col hx3 hy3 hne, ?_⟩
  have hback := drawLine_straight bmp (x1 + (n : Int) * dx) (y1 + (n : Int) * dy) (-dx) (-dy)
    n col (by omega) (by omega) (by omega)
  have e1 : x1 + (n : Int) * dx + (n : Int) * -dx = x1 := by ring
  have e2 : y1 + (n : Int) * dy + (n : Int) * -dy = y1 := by ring
  rw [e1, e2] at hback
  rw [hback]
  congr 1
  apply BMP.eq_of_sameFrame _ _ ((paint_sameFrame _ _ _).trans
    ⟨(paint_sameFrame bmp (linePts x1 y1 dx dy n) col).1.symm,
     (paint_sameFrame bmp (linePts x1 y1 dx dy n) col).2.1.symm,
     (paint_sameFrame bmp (linePts x1 y1 dx dy n) col).2.2.1.symm, fun _ => hwf⟩)
    ((paint_sameFrame bmp (linePts x1 y1 dx dy n) col).2.2.2 hwf)
  intro px py
  rw [getPixel_paint _ hwf, getPixel_paint _ hwf]
  simp only [linePts_reverse x1 y1 dx dy n hx3 hy3]

/-- Both directions of the diagonal of a 3 x 3 image. -/
theorem drawLine_symmetric_straight_witness :
    ∃ out, drawLine img33 0 0 2 2 red = some out ∧ drawLine img33 2 2 0 0 red = some out :=
  drawLine_symmetric_straight img33 (by decide) 0 0 2 2 red (by decide)

/-! ## Shift with wrap-around -/

theorem wrap_range (a s n : Int) (ha : 0 ≤ a) (hs : 0 ≤ s) (hn : 0 < n) :
    0 ≤ Int.tmod (a + Int.tmod s n) n ∧ Int.tmod (a + Int.tmod s n) n < n
      ∧ Int.tmod (a + Int.tmod s n) n = (a + s % n) % n := by
  rw [Int.tmod_eq_emod hs (by omega)]
  have h1 := Int.emod_nonneg s (show n ≠ 0 by omega)
  rw [Int.tmod_eq_emod (by omega) (by omega)]
  exact ⟨Int.emod_nonneg _ (by omega), Int.emod_lt_of_pos _ hn, rfl⟩

theorem wrap_inj (a b s n : Int) (ha : 0 ≤ a) (han : a < n) (hb : 0 ≤ b) (hbn : b < n)
    (h : (a + s) % n = (b + s) % n) : a = b := by
  have h1 := Int.emod_eq_emod_iff_emod_sub_eq_zero.mp h
  have e : a + s - (b + s) = a - b := by ring
  rw [e] at h1
  have h2 : a - b = 0 := by
    apply Int.eq_zero_of_abs_lt_dvd (Int.dvd_of_emod_eq_zero h1)
    rw [abs_lt]
    omega
  omega

/-- The result of `shift` once the scatter loop has produced `new`. -/
theorem shift_result (junk : Nat → Nat → RGB) (bmp : BMP) (hwf : bmp.wf)
    (hW : 0 < bmp.bmih.biWidth) (hH : 0 < bmp.bmih.biHeight) (X Y : Int → Int)
    (hX : ∀ j, 0 ≤ j → j < bmp.bmih.biWidth → 0 ≤ X j ∧ X j < bmp.bmih.biWidth)
    (hY : ∀ i, 0 ≤ i → i < bmp.bmih.biHeight → 0 ≤ Y i ∧ Y i < bmp.bmih.biHeight)
    (hXi : ∀ j j', 0 ≤ j → j < bmp.bmih.biWidth → 0 ≤ j' → j' < bmp.bmih.biWidth →
      X j = X j' → j = j')
    (hYi : ∀ i i', 0 ≤ i → i < bmp.bmih.biHeight → 0 ≤ i' → i' < bmp.bmih.biHeight →
      Y i = Y i' → i = i') :
    ∃ new, forRangeM 0 bmp.bmih.biHeight (fun new i =>
        forRangeM 0 bmp.bmih.biWidth (fun new j =>
          writeChecked new (X j) (Y i) (readPx bmp.img j.toNat i.toNat)) new)
        (tabulate bmp.bmih.biHeight.toNat bmp.bmih.biWidth.toNat junk) = some new
      ∧ ({ bmp with img := new, pad := [] } : BMP).wf
      ∧ (∀ i j : Nat, (i : Int) < bmp.bmih.biHeight → (j : Int) < bmp.bmih.biWidth →
          getPixel new (X j).toNat (Y i).toNat = getPixel bmp.img j i)
      ∧ ((∀ j, 0 ≤ j → j < bmp.bmih.biWidth → X j = j) →
          (∀ i, 0 ≤ i → i < bmp.bmih.biHeight → Y i = i) → new = bmp.img) := by
  obtain ⟨new, h1, h2, h3⟩ := scatter_pixels bmp.img _ bmp.bmih.biHeight bmp.bmih.biWidth X Y
    (dims_tabulate _ _ junk) hX hY hXi hYi
  refine ⟨new, h1, ⟨hwf.1, hwf.2.1, h2.1, h2.2⟩, ?_, ?_⟩
  · intro i j hi hj
    rw [h3 i j hi hj, bmp.wf_getPixel hwf j i hj hi]
  · intro hXid hYid
    apply dims_ext h2 (bmp.wf_dims hwf)
    intro x y hx hy
    have e := h3 y x (by omega) (by omega)
    rw [hXid x (by omega) (by omega), hYid y (by omega) (by omega)] at e
    simp only [Int.toNat_ofNat] at e
    rw [e, bmp.wf_getPixel hwf x y (by omega) (by omega)]

/-- C13: for an image with positive extents, a step `>= 0` and an axis among `"x"`, `"y"`,
`"xy"`, `shift` returns an image with the same headers and extents, whatever the initial
content of the fresh buffer, in which the cell `((i + sy) mod height, (j + sx) mod width)`
holds the original pixel `(i, j)`, with `sx = step mod width` when the axis includes `x`
and `sy = step mod height` when it includes `y` (0 otherwise); with `step = width` on the
axis `"x"` the buffer is the original one. -/
theorem shift_wraps (junk : Nat → Nat → RGB) (bmp : BMP) (hwf : bmp.wf)
    (hW : 0 < bmp.bmih.biWidth) (hH : 0 < bmp.bmih.biHeight) (step : Int) (hstep : 0 ≤ step)
    (axis : String) (haxis : axis = "x" ∨ axis = "y" ∨ axis = "xy") :
    ∃ out, shift junk bmp step axis = some out
      ∧ out.bmih = bmp.bmih ∧ out.bmfh = bmp.bmfh ∧ out.wf
      ∧ (∀ i j : Nat, (i : Int) < bmp.bmih.biHeight → (j : Int) < bmp.bmih.biWidth →
          getPixel out.img
              (((j : Int) + (if axis = "x" ∨ axis = "xy" then step % bmp.bmih.biWidth else 0))
                % bmp.bmih.biWidth).toNat
              (((i : Int) + (if axis = "y" ∨ axis = "xy" then step % bmp.bmih.biHeight else 0))
                % bmp.bmih.biHeight).toNat
            = getPixel bmp.img j i)
      ∧ (axis = "x" → step = bmp.bmih.biWidth → out.img = bmp.img) := by
  have hX := fun j (h0 : 0 ≤ j) (_ : j < bmp.bmih.biWidth) =>
    wrap_range j step bmp.bmih.biWidth h0 hstep hW
  have hY := fun i (h0 : 0 ≤ i) (_ : i < bmp.bmih.biHeight) =>
    wrap_range i step bmp.bmih.biHeight h0 hstep hH
  have hXi : ∀ j j', 0 ≤ j → j < bmp.bmih.biWidth → 0 ≤ j' → j' < bmp.bmih.biWidth →
      Int.tmod (j + Int.tmod step bmp.bmih.biWidth) bmp.bmih.biWidth
        = Int.tmod (j' + Int.tmod step bmp.bmih.biWidth) bmp.bmih.biWidth → j = j' := by
    intro j j' h1 h2 h3 h4 he
    rw [(hX j h1 h2).2.2, (hX j' h3 h4).2.2] at he
    exact wrap_inj j j' _ _ h1 h2 h3 h4 he
  have hYi : ∀ i i', 0 ≤ i → i < bmp.bmih.biHeight → 0 ≤ i' → i' < bmp.bmih.biHeight →
      Int.tmod (i + Int.tmod step bmp.bmih.biHeight) bmp.bmih.biHeight
        = Int.tmod (i' + Int.tmod step bmp.bmih.biHeight) bmp.bmih.biHeight → i = i' := by
    intro i i' h1 h2 h3 h4 he
    rw [(hY i h1 h2).2.2, (hY i' h3 h4).2.2] at he
    exact wrap_inj i i' _ _ h1 h2 h3 h4 he
  have hid : ∀ (a n : Int), 0 ≤ a → a < n → (a + 0) % n = a := by
    intro a n h1 h2
    rw [add_zero]
    exact Int.emod_eq_of_lt h1 h2
  rcases haxis with rfl | rfl | rfl
  · obtain ⟨new, h1, h2, h3, h4⟩ := shift_result junk bmp hwf hW hH
      (fun j => Int.tmod (j + Int.tmod step bmp.bmih.biWidth) bmp.bmih.biWidth) (fun i => i)
      (fun j h0 h1 => ⟨(hX j h0 h1).1, (hX j h0 h1).2.1⟩) (fun i h0 h1 => ⟨h0, h1⟩)
      hXi (fun _ _ _ _ _ _ h => h)
    refine ⟨{ bmp with img := new, pad := [] }, ?_, rfl, rfl, h2, ?_, ?_⟩
    · unfold shift
      simp only [if_neg (show ¬ bmp.bmih.biHeight < 0 by omega),
        if_neg (show ¬ bmp.bmih.biWidth = 0 by omega), if_true]
      rw [h1]
      rfl
    · intro i j hi hj
      have e := h3 i j hi hj
      simp only [(hX j (by omega) hj).2.2] at e
      simp only [true_or, if_true, show ¬ ("x" = "y" ∨ "x" = "xy") by decide, if_false,
        hid i _ (by omega) hi]
      exact e
    · intro _ hs
      apply h4
      · intro j h0 h1
        show Int.tmod (j + Int.tmod step bmp.bmih.biWidth) bmp.bmih.biWidth = j
        rw [(hX j h0 h1).2.2, hs, Int.emod_self, add_zero]
        exact Int.emod_eq_of_lt h0 h1
      · intro i _ _
        rfl
  · obtain ⟨new, h1, h2, h3, h4⟩ := shift_result junk bmp hwf hW hH
      (fun j => j) (fun i => Int.tmod (i + Int.tmod step bmp.bmih.biHeight) bmp.bmih.biHeight)
      (fun j h0 h1 => ⟨h0, h1⟩) (fun i h0 h1 => ⟨(hY i h0 h1).1, (hY i h0 h1).2.1⟩)
      (fun _ _ _ _ _ _ h => h) hYi
    refine ⟨{ bmp with img := new, pad := [] }, ?_, rfl, rfl, h2, ?_, ?_⟩
    · unfold shift
      simp only [if_neg (show ¬ bmp.bmih.biHeight < 0 by omega),
        if_neg (show ¬ bmp.bmih.biHeight = 0 by omega), if_true,
        show ¬ ("y" = "x") by decide, if_false]
      rw [h1]
      rfl
    · intro i j hi hj
      have e := h3 i j hi hj
      simp only [(hY i (by omega) hi).2.2] at e
      simp only [true_or, if_true, show ¬ ("y" = "x" ∨ "y" = "xy") by decide, if_false,
        hid j _ (by omega) hj]
      exact e
    · intro h
      exact absurd h (by decide)
  · obtain ⟨new, h1, h2, h3, h4⟩ := shift_result junk bmp hwf hW hH
      (fun j => Int.tmod (j + Int.tmod step bmp.bmih.biWidth) bmp.bmih.biWidth)
      (fun i => Int.tmod (i + Int.tmod step bmp.bmih.biHeight) bmp.bmih.biHeight)
      (fun j h0 h1 => ⟨(hX j h0 h1).1, (hX j h0 h1).2.1⟩)
      (fun i h0 h1 => ⟨(hY i h0 h1).1, (hY i h0 h1).2.1⟩) hXi hYi
    refine ⟨{ bmp with img := new, pad := [] }, ?_, rfl, rfl, h2, ?_, ?_⟩
    · unfold shift
      simp only [if_neg (show ¬ bmp.bmih.biHeight < 0 by omega),
        if_neg (show ¬ (bmp.bmih.biHeight = 0 ∨ bmp.bmih.biWidth = 0) by omega), if_true,
        show ¬ ("xy" = "x") by decide, show ¬ ("xy" = "y") by decide, if_false]
      rw [h1]
      rfl
    · intro i j hi hj
      have e := h3 i j hi hj
      simp only [(hY i (by omega) hi).2.2, (hX j (by omega) hj).2.2] at e
      simp only [or_true, if_true]
      exact e
    · intro h
      exact absurd h (by decide)

/-- Witness for `shift_wraps`: a shift by 3 on the axis `"x"` of a 3 x 2 image. -/
theorem shift_wraps_witness :
    ∃ out, shift (fun _ _ => RGB.zero) img32 3 "x" = some out
      ∧ out.bmih = img32.bmih ∧ out.bmfh = img32.bmfh ∧ out.wf
      ∧ (∀ i j : Nat, (i : Int) < img32.bmih.biHeight → (j : Int) < img32.bmih.biWidth →
          getPixel out.img
              (((j : Int) + (if "x" = "x" ∨ "x" = "xy" then 3 % img32.bmih.biWidth else 0))
                % img32.bmih.biWidth).toNat
              (((i : Int) + (if "x" = "y" ∨ "x" = "xy" then 3 % img32.bmih.biHeight else 0))
                % img32.bmih.biHeight).toNat
            = getPixel img32.img j i)
      ∧ ("x" = "x" → (3 : Int) = img32.bmih.biWidth → out.img = img32.img) :=
  shift_wraps (fun _ _ => RGB.zero) img32 (by decide) (by decide) (by decide) 3 (by decide) "x"
    (Or.inl rfl)

/-! ## Tiling -/

theorem paving_eq (junk : Nat → Nat → RGB) (bmp : BMP) (left_x left_y right_x right_y : Int)
    (hx : left_x < right_x) (hy : left_y < right_y) :
    paving junk bmp left_x left_y right_x right_y
      = some ((grid 0 bmp.bmih.biHeight 0 bmp.bmih.biWidth).foldl (fun b p =>
          setPixel b p.1 p.2 (readPx (pavingTile junk bmp left_x left_y right_x right_y)
            (p.1 % (right_x - left_x)).toNat (p.2 % (right_y - left_y)).toNat)) bmp) := by
  unfold paving
  simp only
  rw [if_neg (by omega)]
  have hne : ¬ (right_y - left_y = 0 ∨ right_x - left_x = 0) := by omega
  simp only [if_neg hne]
  have hn := forRange_nested 0 bmp.bmih.biHeight 0 bmp.bmih.biWidth
    (fun b x y => setPixel b x y (readPx (pavingTile junk bmp left_x left_y right_x right_y)
      (x % (right_x - left_x)).toNat (y % (right_y - left_y)).toNat)) bmp
  refine Eq.trans ?_ (congrArg some hn)
  refine (forRangeM_eq_forRange (fun b => b.bmih = bmp.bmih) _ _ _ _ _ rfl ?_).1
  intro b i hb hi0 hi1
  rw [hb]
  have inner := forRangeM_eq_forRange (fun t => t.bmih = bmp.bmih) 0 bmp.bmih.biWidth
    (fun b j => Option.map (fun v => setPixel b j i v)
      (readChecked (tabulate (right_y - left_y).toNat (right_x - left_x).toNat fun r c =>
        if left_x + ↑c ≥ 0 ∧ left_x + ↑c < bmp.bmih.biWidth ∧ left_y + ↑r ≥ 0
            ∧ left_y + ↑r < bmp.bmih.biHeight
        then readPx bmp.img (left_x + ↑c).toNat (left_y + ↑r).toNat else junk r c)
        (j.tmod (right_x - left_x)) (i.tmod (right_y - left_y))))
    (fun b j => setPixel b j i (readPx (pavingTile junk bmp left_x left_y right_x right_y)
      (j % (right_x - left_x)).toNat (i % (right_y - left_y)).toNat)) b hb ?_
  · exact ⟨inner.1, inner.2⟩
  · intro t j ht hj0 hj1
    refine ⟨?_, by beta_reduce; rw [setPixel_bmih]; exact ht⟩
    beta_reduce
    rw [Int.tmod_eq_emod hj0 (by omega), Int.tmod_eq_emod hi0 (by omega)]
    have h1 := Int.emod_nonneg j (show right_x - left_x ≠ 0 by omega)
    have h2 := Int.emod_lt_of_pos j (show 0 < right_x - left_x by omega)
    have h3 := Int.emod_nonneg i (show right_y - left_y ≠ 0 by omega)
    have h4 := Int.emod_lt_of_pos i (show 0 < right_y - left_y by omega)
    unfold readChecked
    rw [if_pos ⟨h1, h3⟩]
    have hg := getPixel_tabulate (right_y - left_y).toNat (right_x - left_x).toNat
      (fun r c =>
        if left_x + ↑c ≥ 0 ∧ left_x + ↑c < bmp.bmih.biWidth ∧ left_y + ↑r ≥ 0
            ∧ left_y + ↑r < bmp.bmih.biHeight
        then readPx bmp.img (left_x + ↑c).toNat (left_y + ↑r).toNat else junk r c)
      (j % (right_x - left_x)).toNat (i % (right_y - left_y)).toNat (by omega) (by omega)
    rw [hg]
    simp only [Option.map_some']
    unfold pavingTile
    rw [readPx_tabulate _ _ _ _ _ (by omega) (by omega)]

/-- C16: for a region inside the image, `paving` returns an image with the same headers in
which every pixel `(x, y)` is the original pixel at `(left_x + x mod dx, left_y + y mod dy)`,
whatever the initial content of the scratch buffer. -/
theorem paving_tiles (junk : Nat → Nat → RGB) (bmp : BMP) (hwf : bmp.wf)
    (left_x left_y right_x right_y : Int)
    (hlx : 0 ≤ left_x) (hx : left_x < right_x) (hrx : right_x ≤ bmp.bmih.biWidth)
    (hly : 0 ≤ left_y) (hy : left_y < right_y) (hry : right_y ≤ bmp.bmih.biHeight) :
    ∃ out, paving junk bmp left_x left_y right_x right_y = some out
      ∧ out.bmih = bmp.bmih ∧ out.bmfh = bmp.bmfh
      ∧ ∀ px py : Nat, (px : Int) < bmp.bmih.biWidth → (py : Int) < bmp.bmih.biHeight →
          getPixel out.img px py
            = getPixel bmp.img (left_x + (px : Int) % (right_x - left_x)).toNat
                (left_y + (py : Int) % (right_y - left_y)).toNat := by
  refine ⟨_, paving_eq junk bmp left_x left_y right_x right_y hx hy,
    (foldl_setPixel_sameFrame _ _ _ _ _).1, (foldl_setPixel_sameFrame _ _ _ _ _).2.1, ?_⟩
  intro px py hpx hpy
  have h1 := Int.emod_nonneg (px : Int) (show right_x - left_x ≠ 0 by omega)
  have h2 := Int.emod_lt_of_pos (px : Int) (show 0 < right_x - left_x by omega)
  have h3 := Int.emod_nonneg (py : Int) (show right_y - left_y ≠ 0 by omega)
  have h4 := Int.emod_lt_of_pos (py : Int) (show 0 < right_y - left_y by omega)
  rw [bmp.wf_getPixel hwf _ _ (by omega) (by omega)]
  apply foldl_setPixel_hit _ _ _ _ _ hwf _ _ _ hpx hpy
  · exact ⟨((px : Int), (py : Int)), (mem_grid _ _ _ _ _).mpr (by simp only; omega), rfl, rfl⟩
  · intro k _ hk1 hk2
    rw [hk1, hk2]
    unfold pavingTile
    rw [readPx_tabulate _ _ _ _ _ (by omega) (by omega)]
    rw [if_pos (by omega)]
    congr 1

/-- Witness for `paving_tiles`: the region `(1,1)-(3,2)` of a 3 x 3 image. -/
theorem paving_tiles_witness :
    ∃ out, paving (fun _ _ => RGB.zero) img33 1 1 3 2 = some out
      ∧ out.bmih = img33.bmih ∧ out.bmfh = img33.bmfh
      ∧ ∀ px py : Nat, (px : Int) < img33.bmih.biWidth → (py : Int) < img33.bmih.biHeight →
          getPixel out.img px py
            = getPixel img33.img ((1 : Int) + (px : Int) % (3 - 1)).toNat
                ((1 : Int) + (py : Int) % (2 - 1)).toNat :=
  paving_tiles (fun _ _ => RGB.zero) img33 (by decide) 1 1 3 2 (by decide) (by decide)
    (by decide) (by decide) (by decide) (by decide)

/-! ## Checkerboard block flip -/

/-- C18 (code defect): in the 3 x 2 image `img32` with block size 2 the odd block at block
row 0, block column 1 ends exactly at the bottom edge. For it the test `i + size >= height`
holds while `size_y` is still 0, so the vertical flip reads `new[i + size_y - 1 - y]`, a row
before the start of `new`, instead of reversing the two rows of the block. -/
theorem flip_squares_edge_block_fault (junk : Nat → Nat → RGB) :
    flip_squares junk img32 2 "vertical" = none := by
  rfl

/-- On the 3 x 3 image `img33` with block size 2 no block ends exactly at an edge, and the
vertical flip reverses the rows of the odd blocks. -/
theorem flip_squares_short_block (junk : Nat → Nat → RGB) :
    (flip_squares junk img33 2 "vertical").map (fun b => b.img)
      = some [[⟨1, 2, 3⟩, ⟨4, 5, 6⟩, ⟨16, 17, 18⟩], [⟨10, 11, 12⟩, ⟨13, 14, 15⟩, ⟨7, 8, 9⟩],
          [⟨19, 20, 21⟩, ⟨22, 23, 24⟩, ⟨25, 26, 27⟩]] := by
  rfl

/-! ## Blur as a window mean -/

/-- C11 as stated fails: for the top left cell of the 3 x 3 image `img33` and kernel size 3
the window holds the row `-1`; the code reads row `1` for it (`-c`), while
`2 * extent - c - 2` is row `5`, outside the image, so the sums of the specification do not
exist where those of the code do. -/
theorem blur_reflection_counterexample :
    reflect (-1) img33.bmih.biHeight = 1 ∧ reflectSpec (-1) img33.bmih.biHeight = 5
      ∧ blurSums img33 3 0 0 = some (99, 90, 81) ∧ blurSumsSpec img33 3 0 0 = none
      ∧ (blur img33 3).bind (fun out => getPixel out.img 0 0)
          = some { b := 9, g := 10, r := 11 } := by
  refine ⟨by decide, by decide, by rfl, by rfl, by rfl⟩

theorem forRange_sumN (lo hi : Int) (f1 f2 f3 : Int → Nat) (acc : Nat × Nat × Nat) :
    forRange lo hi (fun acc u => (acc.1 + f1 u, acc.2.1 + f2 u, acc.2.2 + f3 u)) acc
      = (acc.1 + ∑ k in Finset.range (hi - lo).toNat, f1 (lo + k),
         acc.2.1 + ∑ k in Finset.range (hi - lo).toNat, f2 (lo + k),
         acc.2.2 + ∑ k in Finset.range (hi - lo).toNat, f3 (lo + k)) := by
  apply forRange_induct lo hi _ acc (fun k s =>
    s = (acc.1 + ∑ t in Finset.range k, f1 (lo + t),
         acc.2.1 + ∑ t in Finset.range k, f2 (lo + t),
         acc.2.2 + ∑ t in Finset.range k, f3 (lo + t)))
  · simp
  · intro k t _ ht
    rw [ht]
    simp only [Finset.sum_range_succ]
    ext <;> simp only <;> ring

theorem reflect_range (c extent : Int) (h1 : -(extent - 1) ≤ c) (h2 : c ≤ 2 * extent - 2) :
    0 ≤ reflect c extent ∧ reflect c extent < extent := by
  unfold reflect
  split
  · omega
  · split <;> omega

theorem blurSums_eq (bmp : BMP) (hwf : bmp.wf) (half i j : Nat)
    (hi : (i : Int) < bmp.bmih.biHeight) (hj : (j : Int) < bmp.bmih.biWidth)
    (hh : (half : Int) ≤ bmp.bmih.biHeight - 1) (hw : (half : Int) ≤ bmp.bmih.biWidth - 1) :
    blurSums bmp (2 * half + 1) i j
      = some (windowSum bmp half i j (fun p => p.r), windowSum bmp half i j (fun p => p.g),
          windowSum bmp half i j (fun p => p.b)) := by
  have ed : Int.tdiv (2 * (half : Int) + 1) 2 = half := by
    rw [Int.tdiv_eq_ediv (by omega) (by omega)]
    omega
  have en : ((half : Int) + 1 - -1 * half).toNat = 2 * half + 1 := by omega
  unfold blurSums
  rw [ed]
  have inner : ∀ (acc : Nat × Nat × Nat) (h : Int), -1 * (half : Int) ≤ h → h < half + 1 →
      forRangeM (-1 * (half : Int)) (half + 1) (fun acc x =>
        (readChecked bmp.img (reflect (j + x) bmp.bmih.biWidth)
          (reflect (i + h) bmp.bmih.biHeight)).map (fun p =>
            (acc.1 + p.r, acc.2.1 + p.g, acc.2.2 + p.b))) acc
      = some (forRange (-1 * (half : Int)) (half + 1) (fun acc x =>
          (acc.1 + (readPx bmp.img (reflect (j + x) bmp.bmih.biWidth).toNat
              (reflect (i + h) bmp.bmih.biHeight).toNat).r,
           acc.2.1 + (readPx bmp.img (reflect (j + x) bmp.bmih.biWidth).toNat
              (reflect (i + h) bmp.bmih.biHeight).toNat).g,
           acc.2.2 + (readPx bmp.img (reflect (j + x) bmp.bmih.biWidth).toNat
              (reflect (i + h) bmp.bmih.biHeight).toNat).b)) acc) := by
    intro acc h hh0 hh1
    refine (forRangeM_eq_forRange (fun _ => True) _ _ _ _ _ trivial ?_).1
    intro t x _ hx0 hx1
    refine ⟨?_, trivial⟩
    have r1 := reflect_range (j + x) bmp.bmih.biWidth (by omega) (by omega)
    have r2 := reflect_range (i + h) bmp.bmih.biHeight (by omega) (by omega)
    rw [readChecked_wf bmp hwf _ _ r1.1 r1.2 r2.1 r2.2]
    rfl
  have outer := forRangeM_eq_forRange (fun _ => True) (-1 * (half : Int)) (half + 1)
    (fun acc h => forRangeM (-1 * (half : Int)) (half + 1) (fun acc x =>
        (readChecked bmp.img (reflect (j + x) bmp.bmih.biWidth)
          (reflect (i + h) bmp.bmih.biHeight)).map (fun p =>
            (acc.1 + p.r, acc.2.1 + p.g, acc.2.2 + p.b))) acc)
    (fun acc h => forRange (-1 * (half : Int)) (half + 1) (fun acc x =>
          (acc.1 + (readPx bmp.img (reflect (j + x) bmp.bmih.biWidth).toNat
              (reflect (i + h) bmp.bmih.biHeight).toNat).r,
           acc.2.1 + (readPx bmp.img (reflect (j + x) bmp.bmih.biWidth).toNat
              (reflect (i + h) bmp.bmih.biHeight).toNat).g,
           acc.2.2 + (readPx bmp.img (reflect (j + x) bmp.bmih.biWidth).toNat
              (reflect (i + h) bmp.bmih.biHeight).toNat).b)) acc)
    (0, 0, 0) trivial (fun t h _ h0 h1 => ⟨inner t h h0 h1, trivial⟩)
  exact outer.1.trans (by
    congr 1
    simp only [forRange_sumN, en, zero_add, windowSum]
    have e : ∀ (a : Nat), -1 * (half : Int) + a = (a : Int) - half := fun a => by ring
    simp only [e])

theorem windowSum_le (bmp : BMP) (half i j : Nat) (ch : RGB → Nat)
    (h : ∀ x y, ch (readPx bmp.img x y) ≤ 255) :
    windowSum bmp half i j ch ≤ (2 * half + 1) * (2 * half + 1) * 255 := by
  unfold windowSum
  calc _ ≤ ∑ a in Finset.range (2 * half + 1), ∑ b in Finset.range (2 * half + 1), 255 :=
        Finset.sum_le_sum (fun a _ => Finset.sum_le_sum (fun b _ => h _ _))
    _ = (2 * half + 1) * (2 * half + 1) * 255 := by simp [mul_assoc]

theorem roundDiv_byte (s n : Nat) (hn : 0 < n) (hs : s ≤ n * 255) :
    roundDiv s n % 256 = roundDiv s n := by
  apply Nat.mod_eq_of_lt
  unfold roundDiv
  rw [Nat.div_lt_iff_lt_mul (by omega)]
  omega

theorem blur_odd (bmp : BMP) (hwf : bmp.wf) (hb : bmp.bytes) (half : Nat)
    (hh : (half : Int) ≤ bmp.bmih.biHeight - 1) (hw : (half : Int) ≤ bmp.bmih.biWidth - 1) :
    blur bmp (2 * half + 1) = some
      { bmp with
        img := tabulate bmp.bmih.biHeight.toNat bmp.bmih.biWidth.toNat (fun i j =>
          { b := roundDiv (windowSum bmp half i j (fun p => p.b)) ((2 * half + 1) * (2 * half + 1))
            g := roundDiv (windowSum bmp half i j (fun p => p.g)) ((2 * half + 1) * (2 * half + 1))
            r := roundDiv (windowSum bmp half i j (fun p => p.r))
              ((2 * half + 1) * (2 * half + 1)) })
        pad := [] } := by
  have hodd : Int.tmod (2 * (half : Int) + 1) 2 ≠ 0 := by
    rw [Int.tmod_eq_emod (by omega) (by omega)]
    omega
  have hsq : ((2 * (half : Int) + 1) * (2 * (half : Int) + 1)).toNat
      = (2 * half + 1) * (2 * half + 1) := by
    have : (2 * (half : Int) + 1) * (2 * (half : Int) + 1)
        = (((2 * half + 1) * (2 * half + 1) : Nat) : Int) := by push_cast; ring
    rw [this]
    exact Int.toNat_natCast _
  unfold blur
  simp only [if_neg hodd]
  rw [if_neg (by have := hwf.2.1; omega)]
  have key := tabulateM_some bmp.bmih.biHeight.toNat bmp.bmih.biWidth.toNat
    (fun (i j : Nat) => (blurSums bmp (2 * (half : Int) + 1) i j).map (fun s =>
      ({ b := roundDiv s.2.2 ((2 * (half : Int) + 1) * (2 * (half : Int) + 1)).toNat % 256
         g := roundDiv s.2.1 ((2 * (half : Int) + 1) * (2 * (half : Int) + 1)).toNat % 256
         r := roundDiv s.1 ((2 * (half : Int) + 1) * (2 * (half : Int) + 1)).toNat % 256 }
        : RGB)))
    (fun i j =>
      { b := roundDiv (windowSum bmp half i j (fun p => p.b)) ((2 * half + 1) * (2 * half + 1))
        g := roundDiv (windowSum bmp half i j (fun p => p.g)) ((2 * half + 1) * (2 * half + 1))
        r := roundDiv (windowSum bmp half i j (fun p => p.r))
          ((2 * half + 1) * (2 * half + 1)) }) ?_
  · unfold tabulateM at key
    rw [key]
    rfl
  · intro i j hi hj
    beta_reduce
    rw [blurSums_eq bmp hwf half i j (by omega) (by omega) hh hw]
    simp only [Option.map_some', hsq]
    rw [roundDiv_byte _ _ (by positivity) (windowSum_le bmp half i j _ (fun x y => by
        have := (readPx_isByte bmp hb x y).1; omega)),
      roundDiv_byte _ _ (by positivity) (windowSum_le bmp half i j _ (fun x y => by
        have := (readPx_isByte bmp hb x y).2.1; omega)),
      roundDiv_byte _ _ (by positivity) (windowSum_le bmp half i j _ (fun x y => by
        have := (readPx_isByte bmp hb x y).2.2; omega))]

theorem blur_size1 (bmp : BMP) (s t : Int)
    (h : (if Int.tmod s 2 = 0 then s + 1 else s) = (if Int.tmod t 2 = 0 then t + 1 else t)) :
    blur bmp s = blur bmp t := by
  unfold blur
  simp only [h]

/-- C11 (amended): for a well-formed image of byte channels and a kernel size `size >= 1`,
made odd as `k = 2 * (size / 2) + 1`, with `k <= 255` (the sums and the rounding of `float`
are exact there) and `size / 2` at most `min (width, height) - 1`, `blur` returns, keeps both headers, and sets each channel of each
cell `(i, j)` to the mean of that channel over the `k x k` window centred on the cell, rounded
to the nearest integer; the window is read from the buffer before the call, a negative
coordinate `c` being replaced by `-c` and a coordinate `c >= extent` by
`2 * extent - c - 2`. -/
theorem blur_window_mean (bmp : BMP) (hwf : bmp.wf) (hb : bmp.bytes) (size : Nat)
    (_hs : 1 ≤ size) (_hk : 2 * (size / 2) + 1 ≤ 255)
    (hh : ((size / 2 : Nat) : Int) ≤ bmp.bmih.biHeight - 1)
    (hw : ((size / 2 : Nat) : Int) ≤ bmp.bmih.biWidth - 1) :
    ∃ out, blur bmp size = some out ∧ out.bmfh = bmp.bmfh ∧ out.bmih = bmp.bmih ∧
      ∀ i j : Nat, (i : Int) < bmp.bmih.biHeight → (j : Int) < bmp.bmih.biWidth →
        getPixel out.img j i = some
          { b := roundDiv (windowSum bmp (size / 2) i j (fun p => p.b))
              ((2 * (size / 2) + 1) * (2 * (size / 2) + 1))
            g := roundDiv (windowSum bmp (size / 2) i j (fun p => p.g))
              ((2 * (size / 2) + 1) * (2 * (size / 2) + 1))
            r := roundDiv (windowSum bmp (size / 2) i j (fun p => p.r))
              ((2 * (size / 2) + 1) * (2 * (size / 2) + 1)) } := by
  have e : blur bmp size = blur bmp (2 * ((size / 2 : Nat) : Int) + 1) := by
    apply blur_size1
    have h1 : Int.tmod (2 * ((size / 2 : Nat) : Int) + 1) 2 ≠ 0 := by
      rw [Int.tmod_eq_emod (by omega) (by omega)]
      omega
    rw [if_neg h1, Int.tmod_eq_emod (by omega) (by omega)]
    split_ifs <;> omega
  rw [e, blur_odd bmp hwf hb (size / 2) hh hw]
  refine ⟨_, rfl, rfl, rfl, ?_⟩
  intro i j hi hj
  exact getPixel_tabulate _ _ _ j i (by omega) (by omega)

/-- Witness for `blur_window_mean`: the kernel size 2, made 3, on a 3 x 3 image. -/
theorem blur_window_mean_witness :
    img33.wf ∧ img33.bytes ∧
    ∃ out, blur img33 ((2 : Nat) : Int) = some out ∧ out.bmfh = img33.bmfh
      ∧ out.bmih = img33.bmih ∧
      ∀ i j : Nat, (i : Int) < img33.bmih.biHeight → (j : Int) < img33.bmih.biWidth →
        getPixel out.img j i = some
          { b := roundDiv (windowSum img33 (2 / 2) i j (fun p => p.b))
              ((2 * (2 / 2) + 1) * (2 * (2 / 2) + 1))
            g := roundDiv (windowSum img33 (2 / 2) i j (fun p => p.g))
              ((2 * (2 / 2) + 1) * (2 * (2 / 2) + 1))
            r := roundDiv (windowSum img33 (2 / 2) i j (fun p => p.r))
              ((2 * (2 / 2) + 1) * (2 * (2 / 2) + 1)) } :=
  ⟨by decide, by decide,
    blur_window_mean img33 (by decide) (by decide) 2 (by decide) (by decide) (by decide)
      (by decide)⟩

/-! ## Neighbourhood recolouring -/

theorem sameColor_iff (p q : RGB) : sameColor p q = true ↔ p = q := by
  unfold sameColor
  cases p
  cases q
  simp only [decide_eq_true_eq, RGB.mk.injEq]
  tauto

theorem CPInv.mono {bmp : BMP} {size : Int} {T C : RGB} {b : BMP} {D D2 : Nat → Nat → Prop}
    (h : CPInv bmp size T C b D) (hd : ∀ px py, D2 px py → D px py) :
    CPInv bmp size T C b D2 := by
  obtain ⟨h1, h2, h3, h4, h5⟩ := h
  refine ⟨h1, h2, h3, h4, ?_⟩
  intro px py p hp
  obtain ⟨q, hq, a1, a2, a3⟩ := h5 px py p hp
  exact ⟨q, hq, a1, a2, fun hne hD => a3 hne (hd px py hD)⟩

theorem BMP.wf_inside (bmp : BMP) (h : bmp.wf) (x y : Nat) (p : RGB)
    (hp : getPixel bmp.img x y = some p) :
    (x : Int) < bmp.bmih.biWidth ∧ (y : Int) < bmp.bmih.biHeight := by
  by_contra hcon
  rw [bmp.wf_getPixel_none h x y (by omega)] at hp
  cases hp

theorem CPInv.orig {bmp : BMP} {size : Int} {T C : RGB} {b : BMP} {D : Nat → Nat → Prop}
    (h : CPInv bmp size T C b D) (hwf : bmp.wf) (hne : C ≠ T) (x y : Nat)
    (hT : getPixel b.img x y = some T) : getPixel bmp.img x y = some T := by
  obtain ⟨_, h2, _, h4, h5⟩ := h
  have hin := b.wf_inside h4 x y T hT
  rw [h2] at hin
  have hp := bmp.wf_getPixel hwf x y hin.1 hin.2
  obtain ⟨q, hq, _, a2, _⟩ := h5 x y _ hp
  rw [hT] at hq
  cases hq
  by_contra hcon
  have hne2 : readPx bmp.img x y ≠ T := fun e => hcon (by rw [hp, e])
  rcases a2 hne2 with e | ⟨e, _⟩
  · exact hne2 e.symm
  · exact hne e.symm

theorem forRange_cp (bmp : BMP) (size : Int) (T C : RGB) (lo hi : Int) (body : BMP → Int → BMP)
    (E : Int → Nat → Nat → Prop)
    (hstep : ∀ (D : Nat → Nat → Prop) (b : BMP) (k : Int), lo ≤ k → k < hi →
      CPInv bmp size T C b D → CPInv bmp size T C (body b k) (fun px py => D px py ∨ E k px py))
    (D : Nat → Nat → Prop) (b : BMP) (h : CPInv bmp size T C b D) :
    CPInv bmp size T C (forRange lo hi body b)
      (fun px py => D px py ∨ ∃ k, lo ≤ k ∧ k < hi ∧ E k px py) := by
  have key := forRange_induct lo hi body b
    (fun n s => CPInv bmp size T C s
      (fun px py => D px py ∨ ∃ k, lo ≤ k ∧ k < lo + (n : Int) ∧ E k px py))
    (h.mono (by
      rintro px py (hD | ⟨k, h1, h2, _⟩)
      · exact hD
      · omega))
    (by
      intro k t hk ht
      refine (hstep _ t (lo + k) (by omega) (by omega) ht).mono ?_
      rintro px py (hD | ⟨m, h1, h2, hE⟩)
      · exact Or.inl (Or.inl hD)
      · by_cases hm : m = lo + k
        · subst hm
          exact Or.inr hE
        · exact Or.inl (Or.inr ⟨m, h1, by push_cast at h2; omega, hE⟩))
  refine key.mono ?_
  rintro px py (hD | ⟨k, h1, h2, hE⟩)
  · exact Or.inl hD
  · exact Or.inr ⟨k, h1, by omega, hE⟩

theorem circle_pixel_cell (bmp : BMP) (hwf : bmp.wf) (size : Int) (T C : RGB) (hne : C ≠ T)
    (i j x y : Int) (hi : 0 ≤ i) (hj : 0 ≤ j)
    (hc : getPixel bmp.img j.toNat i.toNat = some T)
    (hx : -size ≤ x ∧ x < size + 1) (hy : -size ≤ y ∧ y < size + 1)
    (D : Nat → Nat → Prop) (b : BMP) (h : CPInv bmp size T C b D) :
    CPInv bmp size T C
      (if i + y < 0 ∨ i + y ≥ b.bmih.biHeight ∨ j + x < 0 ∨ j + x ≥ b.bmih.biWidth then b
        else if ¬ sameColor (readPx b.img (j + x).toNat (i + y).toNat) T then
          setPixel b (j + x) (i + y) C
        else b)
      (fun px py => D px py ∨ ((px : Int) = j + x ∧ (py : Int) = i + y)) := by
  have horig := h.orig hwf hne
  obtain ⟨h1, h2, h3, h4, h5⟩ := h
  split
  · rename_i hout
    rw [h2] at hout
    refine ⟨h1, h2, h3, h4, ?_⟩
    intro px py p hp
    obtain ⟨q, hq, a1, a2, a3⟩ := h5 px py p hp
    have hin := bmp.wf_inside hwf px py p hp
    refine ⟨q, hq, a1, a2, ?_⟩
    rintro hpT (hD | ⟨e1, e2⟩)
    · exact a3 hpT hD
    · omega
  · rename_i hin
    rw [h2] at hin
    have hbx : (((j + x).toNat : Nat) : Int) = j + x := by omega
    have hby : (((i + y).toNat : Nat) : Int) = i + y := by omega
    have hcur := b.wf_getPixel h4 (j + x).toNat (i + y).toNat (by rw [h2]; omega)
      (by rw [h2]; omega)
    split
    · rename_i hdiff
      refine ⟨by rw [setPixel_bmfh, h1], by rw [setPixel_bmih, h2], by rw [setPixel_pad, h3],
        setPixel_wf _ _ _ _ h4, ?_⟩
      intro px py p hp
      obtain ⟨q, hq, a1, a2, a3⟩ := h5 px py p hp
      by_cases hhit : (px : Int) = j + x ∧ (py : Int) = i + y
      · have e1 : px = (j + x).toNat := by omega
        have e2 : py = (i + y).toNat := by omega
        have hset : getPixel (setPixel b (j + x) (i + y) C).img px py = some C := by
          have := getPixel_setPixel_self b h4 C px py (by rw [h2]; omega) (by rw [h2]; omega)
          rw [hhit.1, hhit.2] at this
          exact this
        refine ⟨C, hset, ?_, ?_, fun _ _ => rfl⟩
        · intro hpT
          exfalso
          apply hdiff
          rw [sameColor_iff]
          have hq2 := a1 hpT
          rw [e1, e2, hcur] at hq
          cases hq
          exact hq2
        · intro _
          refine Or.inr ⟨rfl, j.toNat, i.toNat, hc, ?_, ?_⟩
          · rw [abs_le]
            omega
          · rw [abs_le]
            omega
      · rw [getPixel_setPixel_ne b (j + x) (i + y) C px py (by omega)]
        refine ⟨q, hq, a1, a2, ?_⟩
        rintro hpT (hD | hE)
        · exact a3 hpT hD
        · exact absurd hE hhit
    · rename_i hsame
      have hT : readPx b.img (j + x).toNat (i + y).toNat = T := by
        rw [← sameColor_iff]
        simpa using hsame
      refine ⟨h1, h2, h3, h4, ?_⟩
      intro px py p hp
      obtain ⟨q, hq, a1, a2, a3⟩ := h5 px py p hp
      refine ⟨q, hq, a1, a2, ?_⟩
      rintro hpT (hD | ⟨e1, e2⟩)
      · exact a3 hpT hD
      · exfalso
        have e3 : px = (j + x).toNat := by omega
        have e4 : py = (i + y).toNat := by omega
        rw [e3, e4, hcur, hT] at hq
        cases hq
        have := horig _ _ (by rw [← hT]; exact hcur)
        rw [← e3, ← e4, hp] at this
        cases this
        exact hpT rfl

theorem circle_pixel_inv (bmp : BMP) (hwf : bmp.wf) (size : Int) (T C : RGB) (hne : C ≠ T) :
    CPInv bmp size T C (circle_pixel bmp size T C)
      (fun px py => False ∨ ∃ i, 0 ≤ i ∧ i < bmp.bmih.biHeight ∧
        ∃ j, 0 ≤ j ∧ j < bmp.bmih.biWidth ∧
          (getPixel bmp.img j.toNat i.toNat = some T ∧
            ∃ y, -size ≤ y ∧ y < size + 1 ∧ ∃ x, -size ≤ x ∧ x < size + 1 ∧
              ((px : Int) = j + x ∧ (py : Int) = i + y))) := by
  have h0 : CPInv bmp size T C bmp (fun _ _ => False) :=
    ⟨rfl, rfl, rfl, hwf, fun px py p hp =>
      ⟨p, hp, fun _ => by assumption, fun _ => Or.inl rfl, fun _ hf => hf.elim⟩⟩
  unfold circle_pixel
  refine forRange_cp bmp size T C 0 bmp.bmih.biHeight _ _ ?_ _ bmp h0
  intro D1 b1 i hi1 hi2 hinv1
  beta_reduce
  rw [hinv1.2.1]
  refine forRange_cp bmp size T C 0 bmp.bmih.biWidth _ _ ?_ _ b1 hinv1
  intro D2 b2 j hj1 hj2 hinv2
  beta_reduce
  have hcur := b2.wf_getPixel hinv2.2.2.2.1 j.toNat i.toNat (by rw [hinv2.2.1]; omega)
    (by rw [hinv2.2.1]; omega)
  split
  · rename_i hsame
    rw [sameColor_iff] at hsame
    have hc : getPixel bmp.img j.toNat i.toNat = some T :=
      hinv2.orig hwf hne _ _ (by rw [hcur, hsame])
    have key := forRange_cp bmp size T C (-size) (size + 1)
      (fun b y => forRange (-size) (size + 1) (fun b x =>
        if i + y < 0 ∨ i + y ≥ b.bmih.biHeight ∨ j + x < 0 ∨ j + x ≥ b.bmih.biWidth then b
        else if ¬ sameColor (readPx b.img (j + x).toNat (i + y).toNat) T then
          setPixel b (j + x) (i + y) C
        else b) b)
      (fun y px py => ∃ x, -size ≤ x ∧ x < size + 1 ∧ ((px : Int) = j + x ∧ (py : Int) = i + y))
      (by
        intro D3 b3 y hy1 hy2 hinv3
        exact forRange_cp bmp size T C (-size) (size + 1) _
          (fun x px py => (px : Int) = j + x ∧ (py : Int) = i + y)
          (fun D4 b4 x hx1 hx2 hinv4 =>
            circle_pixel_cell bmp hwf size T C hne i j x y hi1 hj1 hc ⟨hx1, hx2⟩ ⟨hy1, hy2⟩
              D4 b4 hinv4) D3 b3 hinv3)
      D2 b2 hinv2
    refine key.mono ?_
    rintro px py (hD | ⟨_, hE⟩)
    · exact Or.inl hD
    · exact Or.inr hE
  · rename_i hdiff
    refine ⟨hinv2.1, hinv2.2.1, hinv2.2.2.1, hinv2.2.2.2.1, ?_⟩
    intro px py p hp
    obtain ⟨q, hq, a1, a2, a3⟩ := hinv2.2.2.2.2 px py p hp
    refine ⟨q, hq, a1, a2, ?_⟩
    rintro hpT (hD | ⟨hc, _⟩)
    · exact a3 hpT hD
    · exfalso
      apply hdiff
      rw [sameColor_iff]
      obtain ⟨q2, hq2, b1, _, _⟩ := hinv2.2.2.2.2 _ _ _ hc
      rw [hcur] at hq2
      cases hq2
      exact b1 rfl

theorem nearTarget_iff (bmp : BMP) (hwf : bmp.wf) (size : Int) (T : RGB) (px py : Nat) :
    nearTarget bmp size T px py = true ↔
      ∃ qx qy : Nat, getPixel bmp.img qx qy = some T
        ∧ |(px : Int) - qx| ≤ size ∧ |(py : Int) - qy| ≤ size := by
  unfold nearTarget
  simp only [List.any_eq_true, List.mem_range, Bool.and_eq_true, decide_eq_true_eq,
    sameColor_iff]
  constructor
  · rintro ⟨qy, hqy, qx, hqx, hT, hd⟩
    refine ⟨qx, qy, ?_, hd⟩
    rw [bmp.wf_getPixel hwf qx qy (by omega) (by omega), hT]
  · rintro ⟨qx, qy, hT, hd⟩
    have hin := bmp.wf_inside hwf qx qy T hT
    refine ⟨qy, by omega, qx, by omega, ?_, hd⟩
    have := bmp.wf_getPixel hwf qx qy hin.1 hin.2
    rw [hT] at this
    cases this
    rfl

theorem circle_pixel_pixels (bmp : BMP) (hwf : bmp.wf) (size : Int) (T C : RGB) (hne : C ≠ T)
    (px py : Nat) (p : RGB) (hp : getPixel bmp.img px py = some p) :
    (p = T → getPixel (circle_pixel bmp size T C).img px py = some T) ∧
    (p ≠ T → (∃ qx qy : Nat, getPixel bmp.img qx qy = some T
        ∧ |(px : Int) - qx| ≤ size ∧ |(py : Int) - qy| ≤ size) →
      getPixel (circle_pixel bmp size T C).img px py = some C) ∧
    (p ≠ T → ¬ (∃ qx qy : Nat, getPixel bmp.img qx qy = some T
        ∧ |(px : Int) - qx| ≤ size ∧ |(py : Int) - qy| ≤ size) →
      getPixel (circle_pixel bmp size T C).img px py = some p) := by
  obtain ⟨_, _, _, _, h5⟩ := circle_pixel_inv bmp hwf size T C hne
  obtain ⟨q, hq, a1, a2, a3⟩ := h5 px py p hp
  refine ⟨fun h => by rw [hq, a1 h], ?_, ?_⟩
  · rintro hpT ⟨qx, qy, hT, hdx, hdy⟩
    rw [hq, a3 hpT]
    have hin := bmp.wf_inside hwf qx qy T hT
    rw [abs_le] at hdx hdy
    refine Or.inr ⟨qy, by omega, hin.2, qx, by omega, hin.1, by simpa using hT,
      py - qy, by omega, by omega, px - qx, by omega, by omega, by omega, by omega⟩
  · intro hpT hfar
    rcases a2 hpT with e | ⟨_, hnear⟩
    · rw [hq, e]
    · exact absurd hnear hfar

theorem circle_pixel_snapshot_wf (bmp : BMP) (hwf : bmp.wf) (size : Int) (T C : RGB) :
    (circle_pixel_snapshot bmp size T C).wf := by
  have hd := dims_tabulate bmp.bmih.biHeight.toNat bmp.bmih.biWidth.toNat (fun i j =>
      if sameColor (readPx bmp.img j i) T then readPx bmp.img j i
      else if nearTarget bmp size T j i then C
      else readPx bmp.img j i)
  exact ⟨hwf.1, hwf.2.1, hd.1, hd.2⟩

/-- C19: for a well-formed image, any radius `size`, a target colour `T` and a new colour
`C` other than `T`, the in-place forward pass of `circle_pixel` returns the image computed
from a snapshot of the input: a cell that held `T` holds `T`, a cell that held another colour
and lies within Chebyshev distance `size` of a cell that held `T` holds `C`, and every other
cell holds what it held. -/
theorem circle_pixel_recolours (bmp : BMP) (hwf : bmp.wf) (size : Int) (T C : RGB)
    (hne : C ≠ T) :
    circle_pixel bmp size T C = circle_pixel_snapshot bmp size T C ∧
    ∀ (px py : Nat) (p : RGB), getPixel bmp.img px py = some p →
      (p = T → getPixel (circle_pixel bmp size T C).img px py = some T) ∧
      (p ≠ T → (∃ qx qy : Nat, getPixel bmp.img qx qy = some T
          ∧ |(px : Int) - qx| ≤ size ∧ |(py : Int) - qy| ≤ size) →
        getPixel (circle_pixel bmp size T C).img px py = some C) ∧
      (p ≠ T → ¬ (∃ qx qy : Nat, getPixel bmp.img qx qy = some T
          ∧ |(px : Int) - qx| ≤ size ∧ |(py : Int) - qy| ≤ size) →
        getPixel (circle_pixel bmp size T C).img px py = some p) := by
  refine ⟨?_, circle_pixel_pixels bmp hwf size T C hne⟩
  have hinv := circle_pixel_inv bmp hwf size T C hne
  have hswf := circle_pixel_snapshot_wf bmp hwf size T C
  apply BMP.eq_of_sameFrame (circle_pixel bmp size T C) (circle_pixel_snapshot bmp size T C)
    ⟨hinv.2.1, hinv.1, hinv.2.2.1, fun _ => hinv.2.2.2.1⟩ hswf
  intro x y
  by_cases hin : (x : Int) < bmp.bmih.biWidth ∧ (y : Int) < bmp.bmih.biHeight
  · have hp := bmp.wf_getPixel hwf x y hin.1 hin.2
    obtain ⟨c1, c2, c3⟩ := circle_pixel_pixels bmp hwf size T C hne x y _ hp
    have hs : getPixel (circle_pixel_snapshot bmp size T C).img x y
        = some (if sameColor (readPx bmp.img x y) T then readPx bmp.img x y
            else if nearTarget bmp size T x y then C else readPx bmp.img x y) :=
      getPixel_tabulate _ _ _ x y (by omega) (by omega)
    rw [hs]
    by_cases hT : readPx bmp.img x y = T
    · rw [if_pos ((sameColor_iff _ _).2 hT), c1 hT, hT]
    · rw [if_neg (fun h => hT ((sameColor_iff _ _).1 h))]
      by_cases hn : nearTarget bmp size T x y = true
      · rw [if_pos hn, c2 hT ((nearTarget_iff bmp hwf size T x y).1 hn)]
      · rw [if_neg hn, c3 hT (fun h => hn ((nearTarget_iff bmp hwf size T x y).2 h))]
  · have hout : bmp.bmih.biWidth ≤ x ∨ bmp.bmih.biHeight ≤ y := by omega
    rw [(circle_pixel_snapshot bmp size T C).wf_getPixel_none hswf x y hout,
      (circle_pixel bmp size T C).wf_getPixel_none hinv.2.2.2.1 x y (by rw [hinv.2.1]; exact hout)]

/-- Witness for `circle_pixel_recolours`: the 3 x 3 image `img33`, radius 1, the colour of
its centre as target and red as the new colour. -/
theorem circle_pixel_recolours_witness :
    img33.wf ∧ red ≠ (⟨13, 14, 15⟩ : RGB) ∧
    (circle_pixel img33 1 ⟨13, 14, 15⟩ red = circle_pixel_snapshot img33 1 ⟨13, 14, 15⟩ red ∧
    ∀ (px py : Nat) (p : RGB), getPixel img33.img px py = some p →
      (p = ⟨13, 14, 15⟩ →
        getPixel (circle_pixel img33 1 ⟨13, 14, 15⟩ red).img px py = some ⟨13, 14, 15⟩) ∧
      (p ≠ ⟨13, 14, 15⟩ → (∃ qx qy : Nat, getPixel img33.img qx qy = some ⟨13, 14, 15⟩
          ∧ |(px : Int) - qx| ≤ 1 ∧ |(py : Int) - qy| ≤ 1) →
        getPixel (circle_pixel img33 1 ⟨13, 14, 15⟩ red).img px py = some red) ∧
      (p ≠ ⟨13, 14, 15⟩ → ¬ (∃ qx qy : Nat, getPixel img33.img qx qy = some ⟨13, 14, 15⟩
          ∧ |(px : Int) - qx| ≤ 1 ∧ |(py : Int) - qy| ≤ 1) →
        getPixel (circle_pixel img33 1 ⟨13, 14, 15⟩ red).img px py = some p)) :=
  ⟨by decide, by decide, circle_pixel_recolours img33 (by decide) 1 ⟨13, 14, 15⟩ red (by decide)⟩

/-! ## Rhombus -/

theorem rotate_90_pixels (bmp : BMP) (hwf : bmp.wf) (left_x left_y right_x right_y nx ny : Int)
    (hlx : 0 ≤ left_x) (hx : left_x ≤ right_x) (hrx : right_x ≤ bmp.bmih.biWidth)
    (hly : 0 ≤ left_y) (hy : left_y ≤ right_y) (hry : right_y ≤ bmp.bmih.biHeight)
    (hnx : nx = (left_x + right_x) / 2 - (right_y - left_y) / 2)
    (hny : ny = (left_y + right_y) / 2 - (right_x - left_x) / 2) :
    ∃ out, rotate bmp left_x left_y right_x right_y 90 = some (out, ERROR.SUCCESS)
      ∧ SameFrame out bmp
      ∧ ∀ px py : Nat, getPixel out.img px py =
          if (nx ≤ px ∧ (px : Int) < nx + (right_y - left_y) ∧ ny ≤ py
              ∧ (py : Int) < ny + (right_x - left_x))
            ∧ (px : Int) < bmp.bmih.biWidth ∧ (py : Int) < bmp.bmih.biHeight
          then getPixel bmp.img (left_x + (right_x - left_x) - 1 - (py - ny)).toNat
            (left_y + (px - nx)).toNat
          else getPixel bmp.img px py := by
  refine ⟨_, rotate_90_eq bmp left_x left_y right_x right_y hx hy,
    foldl_setPixel_sameFrame _ _ _ _ _, ?_⟩
  have hcx : Int.tdiv (right_x + left_x) 2 - Int.tdiv (right_y - left_y) 2 = nx := by
    rw [Int.tdiv_eq_ediv (by omega) (by omega), Int.tdiv_eq_ediv (by omega) (by omega), hnx]
    omega
  have hcy : Int.tdiv (right_y + left_y) 2 - Int.tdiv (right_x - left_x) 2 = ny := by
    rw [Int.tdiv_eq_ediv (by omega) (by omega), Int.tdiv_eq_ediv (by omega) (by omega), hny]
    omega
  rw [hcx, hcy]
  intro px py
  by_cases hin : (nx ≤ px ∧ (px : Int) < nx + (right_y - left_y) ∧ ny ≤ py
      ∧ (py : Int) < ny + (right_x - left_x))
      ∧ (px : Int) < bmp.bmih.biWidth ∧ (py : Int) < bmp.bmih.biHeight
  · rw [if_pos hin]
    have hsrc := bmp.wf_getPixel hwf (left_x + (right_x - left_x) - 1 - (py - ny)).toNat
      (left_y + (px - nx)).toNat (by omega) (by omega)
    rw [hsrc]
    apply foldl_setPixel_hit _ _ _ _ _ hwf
    · omega
    · omega
    · refine ⟨((px : Int) - nx, (py : Int) - ny), (mem_grid _ _ _ _ _).mpr ?_, ?_⟩
      · simp only; omega
      · simp only; omega
    · intro k hk h1 h2
      have hk2 := (mem_grid _ _ _ _ _).mp hk
      unfold rgb90
      rw [readPx_tabulate _ _ _ _ _ (by omega) (by omega)]
      rw [if_pos (by omega)]
      congr 1 <;> omega
  · rw [if_neg hin]
    by_cases hblock : nx ≤ px ∧ (px : Int) < nx + (right_y - left_y) ∧ ny ≤ py
        ∧ (py : Int) < ny + (right_x - left_x)
    · have hf : SameFrame ((grid 0 (right_x - left_x) 0 (right_y - left_y)).foldl
          (fun b p => setPixel b (nx + p.1) (ny + p.2)
            (readPx (rgb90 bmp left_x left_y right_x right_y)
              (right_y - left_y - p.1 - 1).toNat (right_x - left_x - p.2 - 1).toNat)) bmp) bmp :=
        foldl_setPixel_sameFrame _ _ _ _ _
      have hout : bmp.bmih.biWidth ≤ px ∨ bmp.bmih.biHeight ≤ py := by
        by_contra hcon
        exact hin ⟨hblock, by omega, by omega⟩
      rw [bmp.wf_getPixel_none hwf px py hout]
      apply BMP.wf_getPixel_none _ (hf.2.2.2 hwf)
      rw [hf.1]
      exact hout
    · apply foldl_setPixel_frame
      intro k hk hkp
      have hk2 := (mem_grid _ _ _ _ _).mp hk
      apply hblock
      omega

/-- C21: for a region inside the image, of width `w` and height `h`, `rotate` with angle 90
returns `SUCCESS` and an image with the same headers in which the block of `h` columns and
`w` rows at `(nx, ny) = ((left_x + right_x) / 2 - h / 2, (left_y + right_y) / 2 - w / 2)`
is written: each cell `(nx + i, ny + j)`, `i < h`, `j < w`, that lies inside the image holds
the original pixel at `(left_x + w - 1 - j, left_y + i)`, and every cell outside that block
is unchanged. -/
theorem rotate_90_region (bmp : BMP) (hwf : bmp.wf) (left_x left_y right_x right_y : Int)
    (hlx : 0 ≤ left_x) (hx : left_x < right_x) (hrx : right_x ≤ bmp.bmih.biWidth)
    (hly : 0 ≤ left_y) (hy : left_y < right_y) (hry : right_y ≤ bmp.bmih.biHeight) :
    ∃ out, rotate bmp left_x left_y right_x right_y 90 = some (out, ERROR.SUCCESS)
      ∧ out.bmih = bmp.bmih ∧ out.bmfh = bmp.bmfh
      ∧ (∀ i j : Nat, (i : Int) < right_y - left_y → (j : Int) < right_x - left_x →
          0 ≤ (left_x + right_x) / 2 - (right_y - left_y) / 2 + i →
          (left_x + right_x) / 2 - (right_y - left_y) / 2 + i < bmp.bmih.biWidth →
          0 ≤ (left_y + right_y) / 2 - (right_x - left_x) / 2 + j →
          (left_y + right_y) / 2 - (right_x - left_x) / 2 + j < bmp.bmih.biHeight →
          getPixel out.img ((left_x + right_x) / 2 - (right_y - left_y) / 2 + i).toNat
              ((left_y + right_y) / 2 - (right_x - left_x) / 2 + j).toNat
            = getPixel bmp.img (left_x + (right_x - left_x) - 1 - j).toNat (left_y + i).toNat)
      ∧ (∀ px py : Nat,
          ¬ ((left_x + right_x) / 2 - (right_y - left_y) / 2 ≤ px
              ∧ (px : Int) < (left_x + right_x) / 2 - (right_y - left_y) / 2
                  + (right_y - left_y)
              ∧ (left_y + right_y) / 2 - (right_x - left_x) / 2 ≤ py
              ∧ (py : Int) < (left_y + right_y) / 2 - (right_x - left_x) / 2
                  + (right_x - left_x)) →
          getPixel out.img px py = getPixel bmp.img px py) := by
  obtain ⟨nx, hnx⟩ : ∃ nx, nx = (left_x + right_x) / 2 - (right_y - left_y) / 2 := ⟨_, rfl⟩
  obtain ⟨ny, hny⟩ : ∃ ny, ny = (left_y + right_y) / 2 - (right_x - left_x) / 2 := ⟨_, rfl⟩
  obtain ⟨out, ho, hf, hp⟩ := rotate_90_pixels bmp hwf left_x left_y right_x right_y nx ny
    hlx (by omega) hrx hly (by omega) hry hnx hny
  rw [← hnx, ← hny]
  refine ⟨out, ho, hf.1, hf.2.1, ?_, ?_⟩
  · intro i j hi hj h1 h2 h3 h4
    rw [hp, if_pos (by omega)]
    congr 1 <;> omega
  · intro px py hout
    rw [hp, if_neg (fun h => hout h.1)]

/-- Witness for `rotate_90_region`: the region `(0,0)-(3,1)` of a 3 x 2 image, whose
destination block starts at `(1, -1)`. -/
theorem rotate_90_region_witness :
    ∃ out, rotate img32 0 0 3 1 90 = some (out, ERROR.SUCCESS)
      ∧ out.bmih = img32.bmih ∧ out.bmfh = img32.bmfh
      ∧ (∀ i j : Nat, (i : Int) < 1 - 0 → (j : Int) < 3 - 0 →
          0 ≤ ((0 : Int) + 3) / 2 - (1 - 0) / 2 + i →
          ((0 : Int) + 3) / 2 - (1 - 0) / 2 + i < img32.bmih.biWidth →
          0 ≤ ((0 : Int) + 1) / 2 - (3 - 0) / 2 + j →
          ((0 : Int) + 1) / 2 - (3 - 0) / 2 + j < img32.bmih.biHeight →
          getPixel out.img (((0 : Int) + 3) / 2 - (1 - 0) / 2 + i).toNat
              (((0 : Int) + 1) / 2 - (3 - 0) / 2 + j).toNat
            = getPixel img32.img ((0 : Int) + (3 - 0) - 1 - j).toNat ((0 : Int) + i).toNat)
      ∧ (∀ px py : Nat,
          ¬ (((0 : Int) + 3) / 2 - (1 - 0) / 2 ≤ px
              ∧ (px : Int) < ((0 : Int) + 3) / 2 - (1 - 0) / 2 + (1 - 0)
              ∧ ((0 : Int) + 1) / 2 - (3 - 0) / 2 ≤ py
              ∧ (py : Int) < ((0 : Int) + 1) / 2 - (3 - 0) / 2 + (3 - 0)) →
          getPixel out.img px py = getPixel img32.img px py) :=
  rotate_90_region img32 (by decide) 0 0 3 1 (by decide) (by decide) (by decide) (by decide)
    (by decide) (by decide)

/-! ## Rotation by 270 degrees -/

/-- C22 (code defect): in `case 270` the guard tests the column `right_x - j` while the
read is at column `right_x - j - 1`. For the region `(0,0)-(3,3)` of the 3 x 3 image `img33`,
with `right_x` equal to the width, the guard fails for `j = 0`: the source column 2, which
is inside the image, is left at the black default, and the bottom row of the result is black
instead of holding the pixels of that column. -/
theorem rotate_270_right_edge_black :
    (0 : Int) ≤ 0 ∧ (0 : Int) < 3 ∧ (3 : Int) ≤ img33.bmih.biWidth
      ∧ (3 : Int) ≤ img33.bmih.biHeight
      ∧ ∃ out, rotate img33 0 0 3 3 270 = some (out, ERROR.SUCCESS)
        ∧ getPixel out.img 0 2 = some RGB.zero
        ∧ getPixel out.img 1 2 = some RGB.zero
        ∧ getPixel out.img 2 2 = some RGB.zero
        ∧ getPixel img33.img 2 0 = some ⟨7, 8, 9⟩
        ∧ getPixel img33.img 2 1 = some ⟨16, 17, 18⟩
        ∧ getPixel img33.img 2 2 = some ⟨25, 26, 27⟩ := by
  refine ⟨by decide, by decide, by decide, by decide, _, rfl, ?_⟩
  decide

/-! ## The walk of the line rasteriser -/

theorem paintedIn_refl (xlo xhi ylo yhi : Int) (col : RGB) (bmp : BMP) :
    PaintedIn xlo xhi ylo yhi col bmp bmp :=
  ⟨SameFrame.refl bmp, fun _ _ => Or.inl rfl⟩

theorem paintedIn_trans {xlo xhi ylo yhi : Int} {col : RGB} {a b c : BMP}
    (h1 : PaintedIn xlo xhi ylo yhi col a b) (h2 : PaintedIn xlo xhi ylo yhi col b c) :
    PaintedIn xlo xhi ylo yhi col a c := by
  refine ⟨h2.1.trans h1.1, ?_⟩
  intro px py
  rcases h2.2 px py with e2 | e2
  · rcases h1.2 px py with e1 | e1
    · exact Or.inl (e2.trans e1)
    · exact Or.inr ⟨e2.trans e1.1, e1.2⟩
  · exact Or.inr e2

theorem paintedIn_keeps {xlo xhi ylo yhi : Int} {col : RGB} {a b : BMP}
    (h : PaintedIn xlo xhi ylo yhi col a b) (px py : Nat)
    (hc : getPixel a.img px py = some col) : getPixel b.img px py = some col := by
  rcases h.2 px py with e | e
  · rw [e, hc]
  · exact e.1

theorem setPixel_paintedIn (xlo xhi ylo yhi : Int) (col : RGB) (bmp : BMP) (x y : Int)
    (hx : xlo ≤ x ∧ x ≤ xhi) (hy : ylo ≤ y ∧ y ≤ yhi) :
    PaintedIn xlo xhi ylo yhi col bmp (setPixel bmp x y col) := by
  refine ⟨setPixel_sameFrame bmp x y col, ?_⟩
  intro px py
  by_cases hhit : x = px ∧ y = py
  · unfold setPixel
    simp only
    split
    · have e1 : x.toNat = px := by omega
      have e2 : y.toNat = py := by omega
      simp only [e1, e2]
      rw [getPixel_writePx_same]
      rcases hp : getPixel bmp.img px py with _ | p
      · exact Or.inl rfl
      · exact Or.inr ⟨rfl, by omega, by omega, by omega, by omega⟩
    · exact Or.inl rfl
  · exact Or.inl (getPixel_setPixel_ne bmp x y col px py hhit)

theorem drawLineLoop_more (deltaX deltaY signX signY x2 y2 : Int) (col : RGB) (fuel : Nat)
    (bmp : BMP) (x1 y1 e : Int) (out : BMP)
    (h : drawLineLoop deltaX deltaY signX signY x2 y2 col fuel bmp x1 y1 e = some out) :
    drawLineLoop deltaX deltaY signX signY x2 y2 col (fuel + 1) bmp x1 y1 e = some out := by
  induction fuel generalizing bmp x1 y1 e with
  | zero =>
    unfold drawLineLoop at h ⊢
    split at h
    · cases h
    · rename_i hc
      rw [if_neg hc]
      exact h
  | succ f ih =>
    rw [drawLineLoop] at h ⊢
    split at h
    · rename_i hc
      rw [if_pos hc]
      exact ih _ _ _ _ h
    · rename_i hc
      rw [if_neg hc]
      exact h

theorem drawLineLoop_enough (deltaX deltaY signX signY x2 y2 : Int) (col : RGB) (fuel : Nat)
    (bmp : BMP) (x1 y1 e : Int) (out : BMP)
    (h : drawLineLoop deltaX deltaY signX signY x2 y2 col fuel bmp x1 y1 e = some out)
    (more : Nat) (hm : fuel ≤ more) :
    drawLineLoop deltaX deltaY signX signY x2 y2 col more bmp x1 y1 e = some out := by
  obtain ⟨d, rfl⟩ : ∃ d, more = fuel + d := ⟨more - fuel, by omega⟩
  induction d with
  | zero => exact h
  | succ d ih => exact drawLineLoop_more _ _ _ _ _ _ _ _ _ _ _ _ _ (ih (by omega))

theorem drawLineLoop_walk (dX dY sX sY x0 y0 x2 y2 : Int) (col : RGB)
    (hdX : 0 ≤ dX) (hdY : 0 ≤ dY)
    (hx2 : x2 = x0 + dX * sX) (hy2 : y2 = y0 + dY * sY)
    (xlo xhi ylo yhi : Int)
    (hbx : ∀ a, 0 ≤ a → a ≤ dX → xlo ≤ x0 + a * sX ∧ x0 + a * sX ≤ xhi)
    (hby : ∀ b, 0 ≤ b → b ≤ dY → ylo ≤ y0 + b * sY ∧ y0 + b * sY ≤ yhi)
    (fuel : Nat) (bmp : BMP) (a b x y e : Int)
    (ha0 : 0 ≤ a) (ha : a ≤ dX) (hb0 : 0 ≤ b) (hb : b ≤ dY)
    (hx : x = x0 + a * sX) (hy : y = y0 + b * sY)
    (he : e = dX - dY - a * dY + b * dX)
    (hf : dX + dY - (a + b) ≤ fuel) :
    ∃ out, drawLineLoop dX dY sX sY x2 y2 col fuel bmp x y e = some out
      ∧ PaintedIn xlo xhi ylo yhi col
          (if x ≠ x2 ∨ y ≠ y2 then setPixel bmp x y col else bmp) out := by
  induction fuel generalizing bmp a b x y e with
  | zero =>
    have ea : a = dX := by omega
    have eb : b = dY := by omega
    have hc : ¬ (x ≠ x2 ∨ y ≠ y2) := by
      rw [hx, hy, hx2, hy2, ea, eb]
      simp
    refine ⟨bmp, ?_, ?_⟩
    · unfold drawLineLoop
      rw [if_neg hc]
    · rw [if_neg hc]
      exact paintedIn_refl _ _ _ _ _ _
  | succ f ih =>
    by_cases hc : x ≠ x2 ∨ y ≠ y2
    · have hab : a ≠ dX ∨ b ≠ dY := by
        by_contra hcon
        have ea : a = dX := by omega
        have eb : b = dY := by omega
        rw [hx, hy, hx2, hy2, ea, eb] at hc
        simp at hc
      have F1 : a = dX → ¬ (e * 2 > -dY) := by
        intro ea
        have hbl : b < dY := by omega
        have hm : 0 ≤ dX * (dY - 1 - b) := mul_nonneg hdX (by omega)
        have : e = -dY - dX * (dY - 1 - b) := by rw [he, ea]; ring
        intro hgt
        linarith
      have F2 : b = dY → ¬ (e * 2 < dX) := by
        intro eb
        have hal : a < dX := by omega
        have hm : 0 ≤ dY * (dX - 1 - a) := mul_nonneg hdY (by omega)
        have : e = dX + dY * (dX - 1 - a) := by rw [he, eb]; ring
        intro hlt
        linarith
      have F3 : e * 2 > -dY ∨ e * 2 < dX := by
        by_contra hcon
        push_neg at hcon
        have h1 : dX = 0 := by omega
        have h2 : dY = 0 := by omega
        omega
      rw [drawLineLoop, if_pos hc, if_pos hc]
      simp only
      obtain ⟨a1, ha1⟩ : ∃ a1 : Int, a1 = if e * 2 > -dY then a + 1 else a := ⟨_, rfl⟩
      obtain ⟨b1, hb1⟩ : ∃ b1 : Int, b1 = if e * 2 < dX then b + 1 else b := ⟨_, rfl⟩
      have hx1 : (if e * 2 > -dY then x + sX else x) = x0 + a1 * sX := by
        rw [ha1, hx]
        split
        · ring
        · rfl
      have hy1 : (if e * 2 < dX then y + sY else y) = y0 + b1 * sY := by
        rw [hb1, hy]
        split
        · ring
        · rfl
      have he1 : (if e * 2 < dX then (if e * 2 > -dY then e - dY else e) + dX
          else (if e * 2 > -dY then e - dY else e)) = dX - dY - a1 * dY + b1 * dX := by
        rw [ha1, hb1, he]
        split <;> split <;> ring
      have ha1r : 0 ≤ a1 ∧ a1 ≤ dX := by
        rw [ha1]
        split
        · rename_i hgt
          have : a ≠ dX := fun h => F1 h hgt
          omega
        · omega
      have hb1r : 0 ≤ b1 ∧ b1 ≤ dY := by
        rw [hb1]
        split
        · rename_i hlt
          have : b ≠ dY := fun h => F2 h hlt
          omega
        · omega
      have hfuel : dX + dY - (a1 + b1) ≤ (f : Int) := by
        rw [ha1, hb1]
        rcases F3 with h | h
        · rw [if_pos h]
          split <;> omega
        · rw [if_pos h]
          split <;> omega
      rw [hx1, hy1, he1]
      obtain ⟨out, ho, hp⟩ := ih (setPixel bmp x y col) a1 b1 _ _ _ ha1r.1 ha1r.2 hb1r.1 hb1r.2
        rfl rfl rfl hfuel
      refine ⟨out, ho, paintedIn_trans ?_ hp⟩
      split
      · exact setPixel_paintedIn _ _ _ _ _ _ _ _ (hbx a1 ha1r.1 ha1r.2) (hby b1 hb1r.1 hb1r.2)
      · exact paintedIn_refl _ _ _ _ _ _
    · refine ⟨bmp, ?_, ?_⟩
      · rw [drawLineLoop, if_neg hc]
      · rw [if_neg hc]
        exact paintedIn_refl _ _ _ _ _ _

theorem sign_abs (u v : Int) :
    0 ≤ |v - u| ∧ v = u + |v - u| * (if u < v then 1 else -1)
      ∧ ∀ a, 0 ≤ a → a ≤ |v - u| →
          min u v ≤ u + a * (if u < v then 1 else -1)
            ∧ u + a * (if u < v then 1 else -1) ≤ max u v := by
  by_cases h : u < v
  · rw [if_pos h, abs_of_pos (by omega)]
    refine ⟨by omega, by omega, ?_⟩
    intro a h0 h1
    omega
  · rw [if_neg h, abs_of_nonpos (by omega)]
    refine ⟨by omega, by omega, ?_⟩
    intro a h0 h1
    omega

theorem drawLine_walk (bmp : BMP) (x1 y1 x2 y2 : Int) (col : RGB) :
    ∃ out, drawLine bmp x1 y1 x2 y2 col = some out
      ∧ PaintedIn (min x1 x2) (max x1 x2) (min y1 y2) (max y1 y2) col
          (if x1 ≠ x2 ∨ y1 ≠ y2 then setPixel (setPixel bmp x2 y2 col) x1 y1 col
            else setPixel bmp x2 y2 col) out := by
  obtain ⟨hx0, hx2, hbx⟩ := sign_abs x1 x2
  obtain ⟨hy0, hy2, hby⟩ := sign_abs y1 y2
  unfold drawLine
  simp only
  exact drawLineLoop_walk |x2 - x1| |y2 - y1| (if x1 < x2 then 1 else -1)
    (if y1 < y2 then 1 else -1) x1 y1 x2 y2 col hx0 hy0 hx2 hy2 _ _ _ _ hbx hby
    (|x2 - x1| + |y2 - y1|).toNat (setPixel bmp x2 y2 col) 0 0 x1 y1 (|x2 - x1| - |y2 - y1|)
    (le_refl _) hx0 (le_refl _) hy0 (by ring) (by ring) (by ring) (by omega)

theorem drawLine_paintedIn (bmp : BMP) (x1 y1 x2 y2 : Int) (col : RGB) :
    ∃ out, drawLine bmp x1 y1 x2 y2 col = some out
      ∧ PaintedIn (min x1 x2) (max x1 x2) (min y1 y2) (max y1 y2) col bmp out := by
  obtain ⟨out, ho, hp⟩ := drawLine_walk bmp x1 y1 x2 y2 col
  refine ⟨out, ho, paintedIn_trans ?_ hp⟩
  have h2 : PaintedIn (min x1 x2) (max x1 x2) (min y1 y2) (max y1 y2) col bmp
      (setPixel bmp x2 y2 col) :=
    setPixel_paintedIn _ _ _ _ _ _ _ _ (by omega) (by omega)
  split
  · exact paintedIn_trans h2 (setPixel_paintedIn _ _ _ _ _ _ _ _ (by omega) (by omega))
  · exact h2

/-- C23: on a well-formed image `drawLine` returns, for all endpoints, coincident ones
included, and in the image it returns each endpoint that lies inside the image has the line
colour. -/
theorem drawLine_endpoints (bmp : BMP) (hwf : bmp.wf) (x1 y1 x2 y2 : Int) (col : RGB) :
    ∃ out, drawLine bmp x1 y1 x2 y2 col = some out
      ∧ (0 ≤ x1 → x1 < bmp.bmih.biWidth → 0 ≤ y1 → y1 < bmp.bmih.biHeight →
          getPixel out.img x1.toNat y1.toNat = some col)
      ∧ (0 ≤ x2 → x2 < bmp.bmih.biWidth → 0 ≤ y2 → y2 < bmp.bmih.biHeight →
          getPixel out.img x2.toNat y2.toNat = some col) := by
  obtain ⟨out, ho, hp⟩ := drawLine_walk bmp x1 y1 x2 y2 col
  have hwf2 := setPixel_wf bmp x2 y2 col hwf
  have hself : ∀ (b : BMP), b.wf → b.bmih = bmp.bmih → ∀ x y : Int, 0 ≤ x →
      x < bmp.bmih.biWidth → 0 ≤ y → y < bmp.bmih.biHeight →
      getPixel (setPixel b x y col).img x.toNat y.toNat = some col := by
    intro b hb hh x y h1 h2 h3 h4
    have := getPixel_setPixel_self b hb col x.toNat y.toNat (by rw [hh]; omega)
      (by rw [hh]; omega)
    rw [Int.toNat_of_nonneg h1, Int.toNat_of_nonneg h3] at this
    exact this
  have h2 : 0 ≤ x2 → x2 < bmp.bmih.biWidth → 0 ≤ y2 → y2 < bmp.bmih.biHeight →
      getPixel out.img x2.toNat y2.toNat = some col := by
    intro a1 a2 a3 a4
    apply paintedIn_keeps hp
    have hs := hself bmp hwf rfl x2 y2 a1 a2 a3 a4
    split
    · exact paintedIn_keeps (setPixel_paintedIn x1 x1 y1 y1 col (setPixel bmp x2 y2 col) x1 y1
        ⟨le_refl _, le_refl _⟩ ⟨le_refl _, le_refl _⟩) _ _ hs
    · exact hs
  refine ⟨out, ho, ?_, h2⟩
  intro a1 a2 a3 a4
  by_cases hc : x1 ≠ x2 ∨ y1 ≠ y2
  · apply paintedIn_keeps hp
    rw [if_pos hc]
    exact hself _ hwf2 (setPixel_bmih _ _ _ _) x1 y1 a1 a2 a3 a4
  · have e1 : x1 = x2 := by omega
    have e2 : y1 = y2 := by omega
    rw [e1, e2]
    exact h2 (by omega) (by omega) (by omega) (by omega)

/-- Witness for `drawLine_endpoints`: the line from `(0, 0)` to `(2, 1)` in a 3 x 2 image. -/
theorem drawLine_endpoints_witness :
    img32.wf ∧
    ∃ out, drawLine img32 0 0 2 1 red = some out
      ∧ ((0 : Int) ≤ 0 → (0 : Int) < img32.bmih.biWidth → (0 : Int) ≤ 0 →
          (0 : Int) < img32.bmih.biHeight →
          getPixel out.img (0 : Int).toNat (0 : Int).toNat = some red)
      ∧ ((0 : Int) ≤ 2 → (2 : Int) < img32.bmih.biWidth → (0 : Int) ≤ 1 →
          (1 : Int) < img32.bmih.biHeight →
          getPixel out.img (2 : Int).toNat (1 : Int).toNat = some red) :=
  ⟨by decide, drawLine_endpoints img32 (by decide) 0 0 2 1 red⟩

/-- C25: for all endpoints the `while` loop of `drawLine` ends within
`|x2 - x1| + |y2 - y1|` iterations, the current point being `(x2, y2)`: the loop run with
that many iterations returns an image, which is the result of `drawLine`, and every larger
number of iterations returns the same image. -/
theorem drawLine_terminates (bmp : BMP) (x1 y1 x2 y2 : Int) (col : RGB) :
    ∃ out, drawLine bmp x1 y1 x2 y2 col = some out
      ∧ ∀ fuel : Nat, (|x2 - x1| + |y2 - y1|).toNat ≤ fuel →
          drawLineLoop |x2 - x1| |y2 - y1| (if x1 < x2 then 1 else -1)
            (if y1 < y2 then 1 else -1) x2 y2 col fuel (setPixel bmp x2 y2 col) x1 y1
            (|x2 - x1| - |y2 - y1|) = some out := by
  obtain ⟨out, ho, _⟩ := drawLine_walk bmp x1 y1 x2 y2 col
  refine ⟨out, ho, ?_⟩
  intro fuel hf
  exact drawLineLoop_enough _ _ _ _ _ _ _ _ _ _ _ _ _ ho fuel hf

/-- C27: for all endpoints `drawLine` returns an image with the headers of the input in
which every cell outside the bounding box of the endpoints is as before; a cell that differs
from the input lies in the box `min(x1,x2) <= x <= max(x1,x2)`,
`min(y1,y2) <= y <= max(y1,y2)` and holds the line colour. -/
theorem drawLine_frame (bmp : BMP) (x1 y1 x2 y2 : Int) (col : RGB) :
    ∃ out, drawLine bmp x1 y1 x2 y2 col = some out
      ∧ out.bmih = bmp.bmih ∧ out.bmfh = bmp.bmfh ∧ out.pad = bmp.pad
      ∧ (∀ px py : Nat, getPixel out.img px py ≠ getPixel bmp.img px py →
          (min x1 x2 ≤ (px : Int) ∧ (px : Int) ≤ max x1 x2
            ∧ min y1 y2 ≤ (py : Int) ∧ (py : Int) ≤ max y1 y2)
          ∧ getPixel out.img px py = some col)
      ∧ (∀ px py : Nat,
          ¬ (min x1 x2 ≤ (px : Int) ∧ (px : Int) ≤ max x1 x2
            ∧ min y1 y2 ≤ (py : Int) ∧ (py : Int) ≤ max y1 y2) →
          getPixel out.img px py = getPixel bmp.img px py) := by
  obtain ⟨out, ho, hp⟩ := drawLine_paintedIn bmp x1 y1 x2 y2 col
  refine ⟨out, ho, hp.1.1, hp.1.2.1, hp.1.2.2.1, ?_, ?_⟩
  · intro px py hne
    rcases hp.2 px py with e | e
    · exact absurd e hne
    · exact ⟨e.2, e.1⟩
  · intro px py hout
    rcases hp.2 px py with e | e
    · exact e
    · exact absurd e.2 hout

/-! ## Colour validation -/

theorem toU8_lt (v : Int) : toU8 v < 256 := by
  unfold toU8
  omega

theorem checkcolor_parse_color (r g b : Int) (rgb : RGB) :
    checkcolor (parse_color (some (r, g, b)) rgb).2 = ERROR.SUCCESS := by
  unfold checkcolor parse_color
  simp only
  rw [if_neg]
  have h1 := toU8_lt r
  have h2 := toU8_lt g
  have h3 := toU8_lt b
  omega

/-- C24 (code defect): `parse_color` stores each component through a cast to `uint8_t`, so
`256.0.0` becomes the colour `0.0.0` and `-1.0.0` the colour `255.0.0`, and `checkcolor`,
which tests the stored bytes, returns `SUCCESS` for both. -/
theorem checkcolor_accepts_out_of_range :
    parse_color (some (256, 0, 0)) RGB.zero = (1, ⟨0, 0, 0⟩)
      ∧ checkcolor (parse_color (some (256, 0, 0)) RGB.zero).2 = ERROR.SUCCESS
      ∧ parse_color (some (-1, 0, 0)) RGB.zero = (1, ⟨0, 0, 255⟩)
      ∧ checkcolor (parse_color (some (-1, 0, 0)) RGB.zero).2 = ERROR.SUCCESS := by
  decide

/-! ## Blur: the reads stay inside the buffer -/

theorem blurSums_half (bmp : BMP) (s t : Int) (h : Int.tdiv s 2 = Int.tdiv t 2) (i j : Int) :
    blurSums bmp s i j = blurSums bmp t i j := by
  unfold blurSums
  rw [h]

theorem blur_defined (bmp : BMP) (hwf : bmp.wf) (size : Int) (half : Nat)
    (hhalf : Int.tdiv (if Int.tmod size 2 = 0 then size + 1 else size) 2 = half)
    (hh : (half : Int) ≤ bmp.bmih.biHeight - 1) (hw : (half : Int) ≤ bmp.bmih.biWidth - 1) :
    ∃ out, blur bmp size = some out := by
  have ed : Int.tdiv (2 * (half : Int) + 1) 2 = half := by
    rw [Int.tdiv_eq_ediv (by omega) (by omega)]
    omega
  unfold blur
  simp only
  generalize (if Int.tmod size 2 = 0 then size + 1 else size) = s1 at hhalf
  rw [if_neg (by have := hwf.2.1; omega)]
  have key := tabulateM_some bmp.bmih.biHeight.toNat bmp.bmih.biWidth.toNat
    (fun (i j : Nat) => (blurSums bmp s1 i j).map (fun s =>
      ({ b := roundDiv s.2.2 (s1 * s1).toNat % 256
         g := roundDiv s.2.1 (s1 * s1).toNat % 256
         r := roundDiv s.1 (s1 * s1).toNat % 256 } : RGB)))
    (fun i j =>
      { b := roundDiv (windowSum bmp half i j (fun p => p.b)) (s1 * s1).toNat % 256
        g := roundDiv (windowSum bmp half i j (fun p => p.g)) (s1 * s1).toNat % 256
        r := roundDiv (windowSum bmp half i j (fun p => p.r)) (s1 * s1).toNat % 256 }) ?_
  · unfold tabulateM at key
    rw [key]
    exact ⟨_, rfl⟩
  · intro i j hi hj
    beta_reduce
    rw [blurSums_half bmp s1 (2 * (half : Int) + 1) (by rw [hhalf, ed]),
      blurSums_eq bmp hwf half i j (by omega) (by omega) hh hw]
    rfl

/-- C26: for a well-formed image and a kernel size whose half-width `half` (the size made
odd, divided by 2) satisfies `0 <= half <= min(width, height) - 1`, every index that `blur`
computes for a cell `(i, j)` of the image and offsets `h`, `x` in `[-half, half]` lies in
`[0, extent)` after the reflection, the read `bmp->img[dy][dx]` is inside the buffer, and
`blur` returns. -/
theorem blur_reads_in_bounds (bmp : BMP) (hwf : bmp.wf) (size half : Int)
    (hhalf : half = Int.tdiv (if Int.tmod size 2 = 0 then size + 1 else size) 2)
    (h0 : 0 ≤ half) (hH : half ≤ bmp.bmih.biHeight - 1) (hW : half ≤ bmp.bmih.biWidth - 1) :
    (∀ i j h x : Int, 0 ≤ i → i < bmp.bmih.biHeight → 0 ≤ j → j < bmp.bmih.biWidth →
        -half ≤ h → h ≤ half → -half ≤ x → x ≤ half →
        (0 ≤ reflect (i + h) bmp.bmih.biHeight
          ∧ reflect (i + h) bmp.bmih.biHeight < bmp.bmih.biHeight)
        ∧ (0 ≤ reflect (j + x) bmp.bmih.biWidth
          ∧ reflect (j + x) bmp.bmih.biWidth < bmp.bmih.biWidth)
        ∧ ∃ p, readChecked bmp.img (reflect (j + x) bmp.bmih.biWidth)
            (reflect (i + h) bmp.bmih.biHeight) = some p)
    ∧ ∃ out, blur bmp size = some out := by
  constructor
  · intro i j h x hi0 hi hj0 hj hh0 hh1 hx0 hx1
    have r1 := reflect_range (i + h) bmp.bmih.biHeight (by omega) (by omega)
    have r2 := reflect_range (j + x) bmp.bmih.biWidth (by omega) (by omega)
    exact ⟨r1, r2, _, readChecked_wf bmp hwf _ _ r2.1 r2.2 r1.1 r1.2⟩
  · obtain ⟨n, hn⟩ : ∃ n : Nat, half = (n : Int) := ⟨half.toNat, by omega⟩
    exact blur_defined bmp hwf size n (by rw [← hhalf, hn]) (by omega) (by omega)

/-- Witness for `blur_reads_in_bounds`: the kernel size 2, made 3, on a 3 x 3 image. -/
theorem blur_reads_in_bounds_witness :
    img33.wf ∧ (1 : Int) = Int.tdiv (if Int.tmod 2 2 = 0 then 2 + 1 else 2) 2
    ∧ (1 : Int) ≤ img33.bmih.biHeight - 1 ∧ (1 : Int) ≤ img33.bmih.biWidth - 1
    ∧ ((∀ i j h x : Int, 0 ≤ i → i < img33.bmih.biHeight → 0 ≤ j → j < img33.bmih.biWidth →
        -1 ≤ h → h ≤ 1 → -1 ≤ x → x ≤ 1 →
        (0 ≤ reflect (i + h) img33.bmih.biHeight
          ∧ reflect (i + h) img33.bmih.biHeight < img33.bmih.biHeight)
        ∧ (0 ≤ reflect (j + x) img33.bmih.biWidth
          ∧ reflect (j + x) img33.bmih.biWidth < img33.bmih.biWidth)
        ∧ ∃ p, readChecked img33.img (reflect (j + x) img33.bmih.biWidth)
            (reflect (i + h) img33.bmih.biHeight) = some p)
      ∧ ∃ out, blur img33 2 = some out) :=
  ⟨by decide, by decide, by decide, by decide,
    blur_reads_in_bounds img33 (by decide) 2 1 (by decide) (by decide) (by decide) (by decide)⟩

/-! ## Line symmetry in the absence of ties -/

theorem drawLineLoop_eq_walk (deltaX deltaY signX signY x2 y2 : Int) (col : RGB) (fuel : Nat)
    (bmp : BMP) (x1 y1 e : Int) :
    drawLineLoop deltaX deltaY signX signY x2 y2 col fuel bmp x1 y1 e
      = (walkPts deltaX deltaY signX signY x2 y2 fuel x1 y1 e).map
          (fun l => paint bmp l col) := by
  induction fuel generalizing bmp x1 y1 e with
  | zero =>
    unfold drawLineLoop walkPts
    split <;> rfl
  | succ f ih =>
    rw [drawLineLoop, walkPts]
    split
    · simp only
      rw [ih, Option.map_map]
      rfl
    · rfl

theorem walk_col (a b b2 dX dY : Int) (hdX : 0 ≤ dX) (h : b + 1 ≤ b2) :
    b * dX - a * dY + dX ≤ b2 * dX - a * dY := by
  have := mul_nonneg (sub_nonneg.2 h) hdX
  linarith

theorem walk_row (a a2 b dX dY : Int) (hdY : 0 ≤ dY) (h : a + 1 ≤ a2) :
    b * dX - a2 * dY ≤ b * dX - a * dY - dY := by
  have := mul_nonneg (sub_nonneg.2 h) hdY
  linarith

/-- One iteration of the walk, in the absence of ties: the next point stays in the box and
in the open band around the ideal line, and every point of the band that lies ahead of the
current point, the current point apart, lies ahead of the next one. -/
theorem walk_step (dX dY M a b e a1 b1 : Int) (hdX : 0 ≤ dX) (hdY : 0 ≤ dY)
    (hM : M = max dX dY)
    (hno : ∀ a b : Int, 0 ≤ a → a ≤ dX → 0 ≤ b → b ≤ dY →
      2 * (b * dX - a * dY) ≠ M ∧ 2 * (b * dX - a * dY) ≠ -M)
    (ha0 : 0 ≤ a) (ha : a ≤ dX) (hb0 : 0 ≤ b) (hb : b ≤ dY) (hab : a ≠ dX ∨ b ≠ dY)
    (he : e = dX - dY - a * dY + b * dX)
    (hK : -M < 2 * (b * dX - a * dY) ∧ 2 * (b * dX - a * dY) < M)
    (ha1 : a1 = if e * 2 > -dY then a + 1 else a)
    (hb1 : b1 = if e * 2 < dX then b + 1 else b) :
    (a ≤ a1 ∧ a1 ≤ dX ∧ b ≤ b1 ∧ b1 ≤ dY ∧ a + b + 1 ≤ a1 + b1)
      ∧ (-M < 2 * (b1 * dX - a1 * dY) ∧ 2 * (b1 * dX - a1 * dY) < M)
      ∧ ∀ a2 b2 : Int, a ≤ a2 → b ≤ b2 →
          (-M < 2 * (b2 * dX - a2 * dY) ∧ 2 * (b2 * dX - a2 * dY) < M) →
          ¬ (a2 = a ∧ b2 = b) → a1 ≤ a2 ∧ b1 ≤ b2 := by
  obtain ⟨F, hF⟩ : ∃ F, F = b * dX - a * dY := ⟨_, rfl⟩
  rw [← hF] at hK
  have he2 : e = F + dX - dY := by rw [he, hF]; ring
  have F1 : a = dX → ¬ (e * 2 > -dY) := by
    intro ea
    have hbl : b < dY := by omega
    have hm : 0 ≤ dX * (dY - 1 - b) := mul_nonneg hdX (by omega)
    have : e = -dY - dX * (dY - 1 - b) := by rw [he, ea]; ring
    intro hgt
    linarith
  have F2 : b = dY → ¬ (e * 2 < dX) := by
    intro eb
    have hal : a < dX := by omega
    have hm : 0 ≤ dY * (dX - 1 - a) := mul_nonneg hdY (by omega)
    have : e = dX + dY * (dX - 1 - a) := by rw [he, eb]; ring
    intro hlt
    linarith
  by_cases hsh : dY ≤ dX
  · have eM : M = dX := by rw [hM]; exact max_eq_left hsh
    rw [eM] at hK ⊢
    have hxs : e * 2 > -dY := by linarith
    have hal : a < dX := by
      by_contra hcon
      exact F1 (by omega) hxs
    rw [if_pos hxs] at ha1
    by_cases hys : e * 2 < dX
    · rw [if_pos hys] at hb1
      have hbl : b < dY := by
        by_contra hcon
        exact F2 (by omega) hys
      have eF : b1 * dX - a1 * dY = F + dX - dY := by rw [ha1, hb1, hF]; ring
      refine ⟨by omega, ?_, ?_⟩
      · rw [eF]
        constructor <;> linarith
      · intro a2 b2 h1 h2 hK2 hne
        have hA : a + 1 ≤ a2 := by
          by_contra hcon
          have ea : a2 = a := by omega
          have hb2 : b + 1 ≤ b2 := by
            by_contra hcon2
            exact hne ⟨ea, by omega⟩
          have := walk_col a b b2 dX dY hdX hb2
          rw [ea] at hK2
          linarith
        have hB : b + 1 ≤ b2 := by
          by_contra hcon
          have eb : b2 = b := by omega
          have := walk_row a a2 b dX dY hdY hA
          rw [eb] at hK2
          linarith
        omega
    · rw [if_neg hys] at hb1
      have eF : b1 * dX - a1 * dY = F - dY := by rw [ha1, hb1, hF]; ring
      have hn := (hno (a + 1) b (by omega) (by omega) hb0 hb).2
      have eF2 : b * dX - (a + 1) * dY = F - dY := by rw [hF]; ring
      rw [eF2, eM] at hn
      refine ⟨by omega, ?_, ?_⟩
      · rw [eF]
        constructor
        · have : -dX ≤ 2 * (F - dY) := by linarith
          omega
        · linarith
      · intro a2 b2 h1 h2 hK2 hne
        have hA : a + 1 ≤ a2 := by
          by_contra hcon
          have ea : a2 = a := by omega
          have hb2 : b + 1 ≤ b2 := by
            by_contra hcon2
            exact hne ⟨ea, by omega⟩
          have := walk_col a b b2 dX dY hdX hb2
          rw [ea] at hK2
          linarith
        omega
  · have hst : dX < dY := by omega
    have eM : M = dY := by rw [hM]; exact max_eq_right (by omega)
    rw [eM] at hK ⊢
    have hys : e * 2 < dX := by linarith
    have hbl : b < dY := by
      by_contra hcon
      exact F2 (by omega) hys
    rw [if_pos hys] at hb1
    by_cases hxs : e * 2 > -dY
    · rw [if_pos hxs] at ha1
      have hal : a < dX := by
        by_contra hcon
        exact F1 (by omega) hxs
      have eF : b1 * dX - a1 * dY = F + dX - dY := by rw [ha1, hb1, hF]; ring
      refine ⟨by omega, ?_, ?_⟩
      · rw [eF]
        constructor <;> linarith
      · intro a2 b2 h1 h2 hK2 hne
        have hB : b + 1 ≤ b2 := by
          by_contra hcon
          have eb : b2 = b := by omega
          have ha2 : a + 1 ≤ a2 := by
            by_contra hcon2
            exact hne ⟨by omega, eb⟩
          have := walk_row a a2 b dX dY hdY ha2
          rw [eb] at hK2
          linarith
        have hA : a + 1 ≤ a2 := by
          by_contra hcon
          have ea : a2 = a := by omega
          have := walk_col a b b2 dX dY hdX hB
          rw [ea] at hK2
          linarith
        omega
    · rw [if_neg hxs] at ha1
      have eF : b1 * dX - a1 * dY = F + dX := by rw [ha1, hb1, hF]; ring
      have hn := (hno a (b + 1) ha0 ha (by omega) (by omega)).1
      have eF2 : (b + 1) * dX - a * dY = F + dX := by rw [hF]; ring
      rw [eF2, eM] at hn
      refine ⟨by omega, ?_, ?_⟩
      · rw [eF]
        constructor
        · linarith
        · have : 2 * (F + dX) ≤ dY := by linarith
          omega
      · intro a2 b2 h1 h2 hK2 hne
        have hB : b + 1 ≤ b2 := by
          by_contra hcon
          have eb : b2 = b := by omega
          have ha2 : a + 1 ≤ a2 := by
            by_contra hcon2
            exact hne ⟨by omega, eb⟩
          have := walk_row a a2 b dX dY hdY ha2
          rw [eb] at hK2
          linarith
        omega

theorem walkPts_mem (dX dY sX sY x0 y0 x2 y2 M : Int)
    (hdX : 0 ≤ dX) (hdY : 0 ≤ dY) (hsX : sX = 1 ∨ sX = -1) (hsY : sY = 1 ∨ sY = -1)
    (hx2 : x2 = x0 + dX * sX) (hy2 : y2 = y0 + dY * sY) (hM : M = max dX dY)
    (hno : ∀ a b : Int, 0 ≤ a → a ≤ dX → 0 ≤ b → b ≤ dY →
      2 * (b * dX - a * dY) ≠ M ∧ 2 * (b * dX - a * dY) ≠ -M)
    (fuel : Nat) (a b x y e : Int)
    (ha0 : 0 ≤ a) (ha : a ≤ dX) (hb0 : 0 ≤ b) (hb : b ≤ dY)
    (hx : x = x0 + a * sX) (hy : y = y0 + b * sY)
    (he : e = dX - dY - a * dY + b * dX)
    (hK : -M < 2 * (b * dX - a * dY) ∧ 2 * (b * dX - a * dY) < M)
    (hf : dX + dY - (a + b) ≤ fuel) :
    ∃ pts, walkPts dX dY sX sY x2 y2 fuel x y e = some pts
      ∧ ∀ p : Int × Int, p ∈ pts ↔
          ∃ a2 b2 : Int, a ≤ a2 ∧ a2 ≤ dX ∧ b ≤ b2 ∧ b2 ≤ dY ∧ (a2 ≠ dX ∨ b2 ≠ dY)
            ∧ (-M < 2 * (b2 * dX - a2 * dY) ∧ 2 * (b2 * dX - a2 * dY) < M)
            ∧ p = (x0 + a2 * sX, y0 + b2 * sY) := by
  have htarget : ∀ a b x y : Int, x = x0 + a * sX → y = y0 + b * sY →
      ¬ (x ≠ x2 ∨ y ≠ y2) → a = dX ∧ b = dY := by
    intro a b x y hx hy hc
    have e1 : x = x2 := by omega
    have e2 : y = y2 := by omega
    rw [hx, hx2] at e1
    rw [hy, hy2] at e2
    constructor
    · rcases hsX with h | h <;> rw [h] at e1 <;> omega
    · rcases hsY with h | h <;> rw [h] at e2 <;> omega
  have hempty : ∀ a b : Int, a = dX ∧ b = dY →
      ∀ p : Int × Int, p ∈ ([] : List (Int × Int)) ↔
      ∃ a2 b2 : Int, a ≤ a2 ∧ a2 ≤ dX ∧ b ≤ b2 ∧ b2 ≤ dY ∧ (a2 ≠ dX ∨ b2 ≠ dY)
        ∧ (-M < 2 * (b2 * dX - a2 * dY) ∧ 2 * (b2 * dX - a2 * dY) < M)
        ∧ p = (x0 + a2 * sX, y0 + b2 * sY) := by
    intro a b hab p
    constructor
    · intro h
      cases h
    · rintro ⟨a2, b2, h1, h2, h3, h4, h5, _⟩
      omega
  induction fuel generalizing a b x y e with
  | zero =>
    have hab : a = dX ∧ b = dY := by omega
    have hc : ¬ (x ≠ x2 ∨ y ≠ y2) := by
      rw [hx, hy, hx2, hy2, hab.1, hab.2]
      simp
    refine ⟨[], ?_, hempty a b hab⟩
    unfold walkPts
    rw [if_neg hc]
  | succ f ih =>
    by_cases hc : x ≠ x2 ∨ y ≠ y2
    · have hab : a ≠ dX ∨ b ≠ dY := by
        by_contra hcon
        have ea : a = dX := by omega
        have eb : b = dY := by omega
        rw [hx, hy, hx2, hy2, ea, eb] at hc
        simp at hc
      obtain ⟨a1, ha1⟩ : ∃ a1 : Int, a1 = if e * 2 > -dY then a + 1 else a := ⟨_, rfl⟩
      obtain ⟨b1, hb1⟩ : ∃ b1 : Int, b1 = if e * 2 < dX then b + 1 else b := ⟨_, rfl⟩
      obtain ⟨hr, hK1, hahead⟩ := walk_step dX dY M a b e a1 b1 hdX hdY hM hno ha0 ha hb0 hb
        hab he hK ha1 hb1
      have hx1 : (if e * 2 > -dY then x + sX else x) = x0 + a1 * sX := by
        rw [ha1, hx]
        split
        · ring
        · rfl
      have hy1 : (if e * 2 < dX then y + sY else y) = y0 + b1 * sY := by
        rw [hb1, hy]
        split
        · ring
        · rfl
      have he1 : (if e * 2 < dX then (if e * 2 > -dY then e - dY else e) + dX
          else (if e * 2 > -dY then e - dY else e)) = dX - dY - a1 * dY + b1 * dX := by
        rw [ha1, hb1, he]
        split <;> split <;> ring
      rw [walkPts, if_pos hc]
      simp only
      rw [hx1, hy1, he1]
      obtain ⟨pts, hpts, hmem⟩ := ih a1 b1 _ _ _ (by omega) hr.2.1 (by omega) hr.2.2.2.1
        rfl rfl rfl hK1 (by omega)
      refine ⟨(x, y) :: pts, by rw [hpts]; rfl, ?_⟩
      intro p
      rw [List.mem_cons, hmem]
      constructor
      · rintro (h | ⟨a2, b2, h1, h2, h3, h4, h5, h6, h7⟩)
        · exact ⟨a, b, le_refl _, ha, le_refl _, hb, hab, hK, by rw [h, hx, hy]⟩
        · exact ⟨a2, b2, by omega, h2, by omega, h4, h5, h6, h7⟩
      · rintro ⟨a2, b2, h1, h2, h3, h4, h5, h6, h7⟩
        by_cases heq : a2 = a ∧ b2 = b
        · left
          rw [h7, heq.1, heq.2, hx, hy]
        · right
          obtain ⟨k1, k2⟩ := hahead a2 b2 h1 h3 h6 heq
          exact ⟨a2, b2, k1, h2, k2, h4, h5, h6, h7⟩
    · refine ⟨[], ?_, hempty a b (htarget a b x y hx hy hc)⟩
      rw [walkPts, if_neg hc]

theorem sign_flip (u v a : Int) (h0 : 0 ≤ a) (h1 : a ≤ |v - u|) :
    v + (|v - u| - a) * (if v < u then 1 else -1) = u + a * (if u < v then 1 else -1) := by
  rcases lt_trichotomy u v with h | h | h
  · have e : |v - u| = v - u := abs_of_pos (by omega)
    rw [e] at h1 ⊢
    rw [if_pos h, if_neg (by omega)]
    omega
  · subst h
    simp only [sub_self, abs_zero] at h1 ⊢
    have : a = 0 := by omega
    subst this
    simp
  · have e : |v - u| = u - v := by
      rw [abs_of_neg (by omega)]
      ring
    rw [e] at h1 ⊢
    rw [if_pos h, if_neg (by omega)]
    omega

/-- The points of `drawLine` for distinct endpoints, in the absence of ties: the lattice
points of the box of the endpoints in the open band `|2 * (b * dX - a * dY)| < max dX dY`
around the ideal line. -/
theorem drawLine_band (bmp : BMP) (x1 y1 x2 y2 : Int) (col : RGB)
    (hne : x1 ≠ x2 ∨ y1 ≠ y2)
    (hno : ∀ a b : Int, 0 ≤ a → a ≤ |x2 - x1| → 0 ≤ b → b ≤ |y2 - y1| →
      |2 * (b * |x2 - x1| - a * |y2 - y1|)| ≠ max |x2 - x1| |y2 - y1|) :
    ∃ pts, drawLine bmp x1 y1 x2 y2 col = some (paint bmp pts col)
      ∧ ∀ p : Int × Int, p ∈ pts ↔
          ∃ a b : Int, 0 ≤ a ∧ a ≤ |x2 - x1| ∧ 0 ≤ b ∧ b ≤ |y2 - y1|
            ∧ |2 * (b * |x2 - x1| - a * |y2 - y1|)| < max |x2 - x1| |y2 - y1|
            ∧ p = (x1 + a * (if x1 < x2 then 1 else -1),
                y1 + b * (if y1 < y2 then 1 else -1)) := by
  obtain ⟨hx0, hx2, _⟩ := sign_abs x1 x2
  obtain ⟨hy0, hy2, _⟩ := sign_abs y1 y2
  obtain ⟨dX, hdX⟩ : ∃ dX, dX = |x2 - x1| := ⟨_, rfl⟩
  obtain ⟨dY, hdY⟩ : ∃ dY, dY = |y2 - y1| := ⟨_, rfl⟩
  obtain ⟨M, hM⟩ : ∃ M, M = max dX dY := ⟨_, rfl⟩
  rw [← hdX] at hx0 hx2 hno
  rw [← hdY] at hy0 hy2 hno
  rw [← hdX, ← hdY, ← hM]
  rw [← hM] at hno
  have hMpos : 0 < M := by
    have h1 : dX ≠ 0 ∨ dY ≠ 0 := by
      by_contra hcon
      have e1 : dX = 0 := by omega
      have e2 : dY = 0 := by omega
      rw [e1] at hx2
      rw [e2] at hy2
      omega
    rw [hM]
    omega
  have hno2 : ∀ a b : Int, 0 ≤ a → a ≤ dX → 0 ≤ b → b ≤ dY →
      2 * (b * dX - a * dY) ≠ M ∧ 2 * (b * dX - a * dY) ≠ -M := by
    intro a b h1 h2 h3 h4
    have h := hno a b h1 h2 h3 h4
    constructor
    · intro e
      apply h
      rw [e]
      exact abs_of_pos hMpos
    · intro e
      apply h
      rw [e, abs_neg]
      exact abs_of_pos hMpos
  have hband : ∀ v : Int, (|v| < M ↔ -M < v ∧ v < M) := fun v => abs_lt
  obtain ⟨pts, hpts, hmem⟩ := walkPts_mem dX dY (if x1 < x2 then 1 else -1)
    (if y1 < y2 then 1 else -1) x1 y1 x2 y2 M hx0 hy0
    (by split <;> simp) (by split <;> simp) hx2 hy2 hM hno2
    (dX + dY).toNat 0 0 x1 y1 (dX - dY) (le_refl _) hx0 (le_refl _) hy0 (by ring) (by ring)
    (by ring) (by constructor <;> simp <;> exact hMpos) (by omega)
  refine ⟨(x2, y2) :: pts, ?_, ?_⟩
  · unfold drawLine
    simp only
    rw [← hdX, ← hdY, drawLineLoop_eq_walk, hpts]
    rfl
  · intro p
    rw [List.mem_cons, hmem]
    constructor
    · rintro (h | ⟨a, b, h1, h2, h3, h4, _, h6, h7⟩)
      · refine ⟨dX, dY, hx0, le_refl _, hy0, le_refl _, ?_, ?_⟩
        · rw [hband]
          have : dY * dX - dX * dY = 0 := by ring
          rw [this]
          constructor <;> simp <;> exact hMpos
        · rw [h, ← hx2, ← hy2]
      · exact ⟨a, b, h1, h2, h3, h4, (hband _).2 h6, h7⟩
    · rintro ⟨a, b, h1, h2, h3, h4, h5, h6⟩
      by_cases ht : a = dX ∧ b = dY
      · left
        rw [h6, ht.1, ht.2, ← hx2, ← hy2]
      · right
        exact ⟨a, b, h1, h2, h3, h4, by omega, (hband _).1 h5, h6⟩

theorem band_flip (a b dX dY : Int) :
    |2 * ((dY - b) * dX - (dX - a) * dY)| = |2 * (b * dX - a * dY)| := by
  have : 2 * ((dY - b) * dX - (dX - a) * dY) = -(2 * (b * dX - a * dY)) := by ring
  rw [this, abs_neg]

/-- C12, amended: on a well-formed image, for endpoints that coincide or whose segment has
no tie of the error term (no lattice point `(a, b)` of the box of the endpoints, counted from
the first endpoint, with `|2 * (b * dX - a * dY)| = max dX dY`, i.e. the ideal line never
passes exactly halfway between two adjacent cells), `drawLine` from the first endpoint to the
second and `drawLine` from the second to the first both return, and return the same
image. -/
theorem drawLine_symmetric (bmp : BMP) (hwf : bmp.wf) (x1 y1 x2 y2 : Int) (col : RGB)
    (hno : (x1 = x2 ∧ y1 = y2) ∨
      ∀ a b : Int, 0 ≤ a → a ≤ |x2 - x1| → 0 ≤ b → b ≤ |y2 - y1| →
        |2 * (b * |x2 - x1| - a * |y2 - y1|)| ≠ max |x2 - x1| |y2 - y1|) :
    ∃ out, drawLine bmp x1 y1 x2 y2 col = some out
      ∧ drawLine bmp x2 y2 x1 y1 col = some out := by
  by_cases hne : x1 ≠ x2 ∨ y1 ≠ y2
  · have hno1 : ∀ a b : Int, 0 ≤ a → a ≤ |x2 - x1| → 0 ≤ b → b ≤ |y2 - y1| →
        |2 * (b * |x2 - x1| - a * |y2 - y1|)| ≠ max |x2 - x1| |y2 - y1| := by
      rcases hno with h | h
      · omega
      · exact h
    have hno2 : ∀ a b : Int, 0 ≤ a → a ≤ |x1 - x2| → 0 ≤ b → b ≤ |y1 - y2| →
        |2 * (b * |x1 - x2| - a * |y1 - y2|)| ≠ max |x1 - x2| |y1 - y2| := by
      rw [abs_sub_comm x1 x2, abs_sub_comm y1 y2]
      exact hno1
    obtain ⟨pts, hpts, hmem⟩ := drawLine_band bmp x1 y1 x2 y2 col hne hno1
    obtain ⟨pts2, hpts2, hmem2⟩ := drawLine_band bmp x2 y2 x1 y1 col (by omega) hno2
    rw [abs_sub_comm x1 x2, abs_sub_comm y1 y2] at hmem2
    have hiff : ∀ p : Int × Int, p ∈ pts ↔ p ∈ pts2 := by
      intro p
      rw [hmem, hmem2]
      constructor
      · rintro ⟨a, b, h1, h2, h3, h4, h5, h6⟩
        refine ⟨|x2 - x1| - a, |y2 - y1| - b, by omega, by omega, by omega, by omega, ?_, ?_⟩
        · rw [band_flip]
          exact h5
        · rw [h6, sign_flip x1 x2 a h1 h2, sign_flip y1 y2 b h3 h4]
      · rintro ⟨a, b, h1, h2, h3, h4, h5, h6⟩
        refine ⟨|x2 - x1| - a, |y2 - y1| - b, by omega, by omega, by omega, by omega, ?_, ?_⟩
        · rw [band_flip]
          exact h5
        · have k1 := sign_flip x2 x1 a h1 (by rw [abs_sub_comm]; exact h2)
          have k2 := sign_flip y2 y1 b h3 (by rw [abs_sub_comm]; exact h4)
          rw [abs_sub_comm x1 x2] at k1
          rw [abs_sub_comm y1 y2] at k2
          rw [h6, k1, k2]
    have f1 := paint_sameFrame bmp pts col
    have f2 := paint_sameFrame bmp pts2 col
    have heq : paint bmp pts col = paint bmp pts2 col := by
      apply BMP.eq_of_sameFrame _ _
        ⟨f1.1.trans f2.1.symm, f1.2.1.trans f2.2.1.symm, f1.2.2.1.trans f2.2.2.1.symm,
          fun _ => f1.2.2.2 hwf⟩ (f2.2.2.2 hwf)
      intro x y
      rw [getPixel_paint bmp hwf, getPixel_paint bmp hwf]
      simp only [hiff]
    exact ⟨_, hpts, by rw [hpts2, heq]⟩
  · have e1 : x1 = x2 := by omega
    have e2 : y1 = y2 := by omega
    subst e1 e2
    obtain ⟨out, ho, _⟩ := drawLine_walk bmp x1 y1 x1 y1 col
    exact ⟨out, ho, ho⟩

/-- Witness for `drawLine_symmetric`: the segment from `(0, 0)` to `(3, 1)` in a 4 x 4
image, which is neither horizontal, vertical nor diagonal. -/
theorem drawLine_symmetric_witness :
    black44.wf ∧
    ∃ out, drawLine black44 0 0 3 1 red = some out ∧ drawLine black44 3 1 0 0 red = some out :=
  ⟨by decide, drawLine_symmetric black44 (by decide) 0 0 3 1 red (Or.inr (by
    intro a b _ _ _ _
    have e1 : |(3 : Int) - 0| = 3 := by decide
    have e2 : |(1 : Int) - 0| = 1 := by decide
    rw [e1, e2]
    intro h
    have h2 : max (3 : Int) 1 = 3 := by decide
    rw [h2] at h
    rcases abs_cases (2 * (b * 3 - a * 1)) with ⟨e, _⟩ | ⟨e, _⟩ <;> omega))⟩

/-! ## Four rotations by 90 degrees of a region of any shape -/

/-- C8, amended: for a region inside the image whose width `w` is at most its height `h`,
or whose width exceeds its height by an even number, four calls of `rotate` with angle 90
and the same region all return `SUCCESS`, keep both headers, and give an image in which
every cell of the region holds its original pixel; on a square region the whole image is
the original one. -/
theorem rotate_90_four_times_region (bmp : BMP) (hwf : bmp.wf)
    (left_x left_y right_x right_y : Int)
    (hlx : 0 ≤ left_x) (hx : left_x < right_x) (hrx : right_x ≤ bmp.bmih.biWidth)
    (hly : 0 ≤ left_y) (hy : left_y < right_y) (hry : right_y ≤ bmp.bmih.biHeight)
    (hshape : right_x - left_x ≤ right_y - left_y
      ∨ ((right_x - left_x) - (right_y - left_y)) % 2 = 0) :
    ∃ out, rotateRepeat left_x left_y right_x right_y 90 4 bmp = some out
      ∧ out.bmih = bmp.bmih ∧ out.bmfh = bmp.bmfh
      ∧ (∀ px py : Nat, left_x ≤ px → (px : Int) < right_x → left_y ≤ py →
          (py : Int) < right_y → getPixel out.img px py = getPixel bmp.img px py)
      ∧ (right_x - left_x = right_y - left_y → out = bmp) := by
  obtain ⟨nx, hnx⟩ : ∃ nx, nx = (left_x + right_x) / 2 - (right_y - left_y) / 2 := ⟨_, rfl⟩
  obtain ⟨ny, hny⟩ : ∃ ny, ny = (left_y + right_y) / 2 - (right_x - left_x) / 2 := ⟨_, rfl⟩
  obtain ⟨b1, r1, f1, p1⟩ := rotate_90_pixels bmp hwf left_x left_y right_x right_y nx ny
    hlx (by omega) hrx hly (by omega) hry hnx hny
  have w1 := f1.2.2.2 hwf
  obtain ⟨b2, r2, f2, p2⟩ := rotate_90_pixels b1 w1 left_x left_y right_x right_y nx ny
    hlx (by omega) (by rw [f1.1]; exact hrx) hly (by omega) (by rw [f1.1]; exact hry) hnx hny
  have w2 := f2.2.2.2 w1
  have g2 := f2.trans f1
  obtain ⟨b3, r3, f3, p3⟩ := rotate_90_pixels b2 w2 left_x left_y right_x right_y nx ny
    hlx (by omega) (by rw [g2.1]; exact hrx) hly (by omega) (by rw [g2.1]; exact hry) hnx hny
  have w3 := f3.2.2.2 w2
  have g3 := f3.trans g2
  obtain ⟨b4, r4, f4, p4⟩ := rotate_90_pixels b3 w3 left_x left_y right_x right_y nx ny
    hlx (by omega) (by rw [g3.1]; exact hrx) hly (by omega) (by rw [g3.1]; exact hry) hnx hny
  have g4 := f4.trans g3
  rw [f1.1] at p2
  rw [g2.1] at p3
  rw [g3.1] at p4
  have hrep : rotateRepeat left_x left_y right_x right_y 90 4 bmp = some b4 := by
    simp only [rotateRepeat, r1, r2, r3, r4]
  have hsqr : right_x - left_x = right_y - left_y → b4 = bmp := by
    intro hsq
    have h := rotate_90_four_times_square bmp hwf left_x left_y right_x right_y hlx hx hrx hly
      hy hry hsq
    rw [hrep] at h
    exact Option.some.inj h
  have key : nx + ny = left_x + left_y
      ∧ ((nx ≤ left_x ∧ right_x ≤ nx + (right_y - left_y))
        ∨ (2 * (nx - left_x) = (right_x - left_x) - (right_y - left_y)
            ∧ right_y - left_y < right_x - left_x)) := by
    omega
  obtain ⟨hA, hB⟩ := key
  clear hnx hny hshape r1 r2 r3 r4 f1 f2 f3 f4 g2 g3 w1 w2 w3
  refine ⟨b4, hrep, g4.1, g4.2.1, ?_, hsqr⟩
  intro px py h1 h2 h3 h4
  by_cases hD : nx ≤ px ∧ (px : Int) < nx + (right_y - left_y) ∧ ny ≤ py
      ∧ (py : Int) < ny + (right_x - left_x)
  · obtain ⟨u1, hu1⟩ : ∃ u1 : Nat,
        (u1 : Int) = left_x + (right_x - left_x) - 1 - (py - ny) :=
      ⟨_, Int.toNat_of_nonneg (by omega)⟩
    obtain ⟨v1, hv1⟩ : ∃ v1 : Nat, (v1 : Int) = left_y + (px - nx) :=
      ⟨_, Int.toNat_of_nonneg (by omega)⟩
    have e1 : (left_x + (right_x - left_x) - 1 - (py - ny)).toNat = u1 := by omega
    have e2 : (left_y + (px - nx)).toNat = v1 := by omega
    have q1 : (nx ≤ u1 ∧ (u1 : Int) < nx + (right_y - left_y) ∧ ny ≤ v1
        ∧ (v1 : Int) < ny + (right_x - left_x))
        ∧ (u1 : Int) < bmp.bmih.biWidth ∧ (v1 : Int) < bmp.bmih.biHeight := by
      rcases hB with hB | hB <;> omega
    obtain ⟨u2, hu2⟩ : ∃ u2 : Nat,
        (u2 : Int) = left_x + (right_x - left_x) - 1 - (v1 - ny) :=
      ⟨_, Int.toNat_of_nonneg (by omega)⟩
    obtain ⟨v2, hv2⟩ : ∃ v2 : Nat, (v2 : Int) = left_y + (u1 - nx) :=
      ⟨_, Int.toNat_of_nonneg (by omega)⟩
    have e3 : (left_x + (right_x - left_x) - 1 - (v1 - ny)).toNat = u2 := by omega
    have e4 : (left_y + (u1 - nx)).toNat = v2 := by omega
    have q2 : (nx ≤ u2 ∧ (u2 : Int) < nx + (right_y - left_y) ∧ ny ≤ v2
        ∧ (v2 : Int) < ny + (right_x - left_x))
        ∧ (u2 : Int) < bmp.bmih.biWidth ∧ (v2 : Int) < bmp.bmih.biHeight := by
      rcases hB with hB | hB <;> omega
    obtain ⟨u3, hu3⟩ : ∃ u3 : Nat,
        (u3 : Int) = left_x + (right_x - left_x) - 1 - (v2 - ny) :=
      ⟨_, Int.toNat_of_nonneg (by omega)⟩
    obtain ⟨v3, hv3⟩ : ∃ v3 : Nat, (v3 : Int) = left_y + (u2 - nx) :=
      ⟨_, Int.toNat_of_nonneg (by omega)⟩
    have e5 : (left_x + (right_x - left_x) - 1 - (v2 - ny)).toNat = u3 := by omega
    have e6 : (left_y + (u2 - nx)).toNat = v3 := by omega
    have q3 : (nx ≤ u3 ∧ (u3 : Int) < nx + (right_y - left_y) ∧ ny ≤ v3
        ∧ (v3 : Int) < ny + (right_x - left_x))
        ∧ (u3 : Int) < bmp.bmih.biWidth ∧ (v3 : Int) < bmp.bmih.biHeight := by
      rcases hB with hB | hB <;> omega
    have e7 : (left_x + (right_x - left_x) - 1 - (v3 - ny)).toNat = px := by omega
    have e8 : (left_y + (u3 - nx)).toNat = py := by omega
    rw [p4, if_pos ⟨hD, by omega, by omega⟩, e1, e2, p3, if_pos q1, e3, e4, p2, if_pos q2,
      e5, e6, p1, if_pos q3, e7, e8]
  · rw [p4, if_neg (fun h => hD h.1), p3, if_neg (fun h => hD h.1), p2,
      if_neg (fun h => hD h.1), p1, if_neg (fun h => hD h.1)]

/-- Witness for `rotate_90_four_times_region`: the region `(0,0)-(1,2)` of a 3 x 2 image,
one column wide and two rows high. -/
theorem rotate_90_four_times_region_witness :
    ∃ out, rotateRepeat 0 0 1 2 90 4 img32 = some out
      ∧ out.bmih = img32.bmih ∧ out.bmfh = img32.bmfh
      ∧ (∀ px py : Nat, (0 : Int) ≤ px → (px : Int) < 1 → (0 : Int) ≤ py →
          (py : Int) < 2 → getPixel out.img px py = getPixel img32.img px py)
      ∧ ((1 : Int) - 0 = 2 - 0 → out = img32) :=
  rotate_90_four_times_region img32 (by decide) 0 0 1 2 (by decide) (by decide) (by decide)
    (by decide) (by decide) (by decide) (by decide)

end CW1
